import Mathlib

/-!
# Verification development for the consensus core

Shallow embedding of
* `consensus/validators/groupSelectors/indexHashedGroup.go` (validator group selector),
* `consensus/spos/bn/subroundEndRound.go` (EndRound subround of the BN round state machine),
* `dataRetriever/requestHandlers/requestHandler.go` (request coordinator),
* `statusHandler/persister/persistentHandler.go` (persistent status handler),
* the key/nibble conversions and the node hashing of `data/trie`, known here through their
  tests,
* the header construction of the Block subround (`consensus/spos/commonSubround`), known
  here through its tests,
followed by the theorems that settle the properties stated about them.
-/

namespace ElrondGo

/-! ## Common vocabulary -/

/-- A Go `byte`. -/
abbrev Byte := Fin 256

/-- How a Go call ends in the embedding: it returns a value, it hits a runtime panic, or the
    unbounded `for` loop it is running has not finished when the fuel given to it is used up. -/
inductive Outcome (α : Type) where
  | returned (a : α)
  | panicked
  | outOfFuel
  deriving DecidableEq, Repr

/-- Errors of package `consensus` returned by the selector. -/
inductive ConsensusError where
  | ErrNilHasher
  | ErrNilInputSlice
  | ErrSmallEligibleListSize
  | ErrNilRandomness
  | ErrInvalidConsensusSize
  deriving DecidableEq, Repr

/-! ## Validator group selector (`indexHashedGroup.go`) -/

/-- Modelled from the spec: the `consensus.Validator` interface is declared outside the sources at
    hand. A validator exposes its stake, its rating and its public key; the selector only ever
    reads `PubKey()` and compares validators by public-key bytes. -/
structure Validator where
  stake : Nat
  rating : Int
  pubKey : List Byte
  deriving DecidableEq, Repr

/-- The `hashing.Hasher` interface as the selector uses it: `Compute` maps a string to bytes. -/
abbrev Hasher := List Byte → List Byte

/-- The struct `indexHashedGroupSelector`. -/
structure indexHashedGroupSelector where
  hasher : Hasher
  eligibleList : List Validator
  expandedEligibleList : List Validator
  consensusSize : Int

/-- The method `SetConsensusSize`: the new receiver and the returned error (`none` is `nil`). -/
def SetConsensusSize (ihgs : indexHashedGroupSelector) (consensusSize : Int) :
    indexHashedGroupSelector × Option ConsensusError :=
  if consensusSize < 1 then
    (ihgs, some .ErrInvalidConsensusSize)
  else
    ({ ihgs with consensusSize := consensusSize }, none)

/-- The method `ConsensusSize`. -/
def ConsensusSize (ihgs : indexHashedGroupSelector) : Int :=
  ihgs.consensusSize

/-- The constructor `NewIndexHashedGroupSelector`; a `nil` hasher is `none`. The zero value of the
    field `consensusSize` is 0 until `SetConsensusSize` stores the given size. -/
def NewIndexHashedGroupSelector (consensusSize : Int) (hasher : Option Hasher) :
    Except ConsensusError indexHashedGroupSelector :=
  match hasher with
  | none => .error .ErrNilHasher
  | some h =>
    let ihgs : indexHashedGroupSelector :=
      { hasher := h, eligibleList := [], expandedEligibleList := [], consensusSize := 0 }
    match SetConsensusSize ihgs consensusSize with
    | (_, some err) => .error err
    | (ihgs1, none) => .ok ihgs1

/-- The method `LoadEligibleList`; a `nil` slice is `none`. The receiver keeps a copy. -/
def LoadEligibleList (ihgs : indexHashedGroupSelector) (eligibleList : Option (List Validator)) :
    indexHashedGroupSelector × Option ConsensusError :=
  match eligibleList with
  | none => (ihgs, some .ErrNilInputSlice)
  | some l => ({ ihgs with eligibleList := l }, none)

/-- The method `expandEligibleList`. -/
def expandEligibleList (ihgs : indexHashedGroupSelector) : List Validator :=
  ihgs.eligibleList

/-- The method `validatorIsInList`: `bytes.Equal` on the public keys, scanning the list. -/
def validatorIsInList (v : Validator) : List Validator → Bool
  | [] => false
  | w :: rest => if v.pubKey = w.pubKey then true else validatorIsInList v rest

/-- The call `binary.BigEndian.PutUint64(buf, uint64(x))` on a fresh 8-byte buffer. -/
def putUint64BE (x : Nat) : List Byte :=
  let u := x % 2 ^ 64
  [Fin.ofNat (u / 2 ^ 56), Fin.ofNat (u / 2 ^ 48), Fin.ofNat (u / 2 ^ 40), Fin.ofNat (u / 2 ^ 32),
   Fin.ofNat (u / 2 ^ 24), Fin.ofNat (u / 2 ^ 16), Fin.ofNat (u / 2 ^ 8), Fin.ofNat u]

/-- The call `big.Int.SetBytes`: the bytes read as a big-endian unsigned integer. -/
def setBytes (bs : List Byte) : Nat :=
  bs.foldl (fun acc b => acc * 256 + b.val) 0

/-- The method `computeListIndex`. `big.Int.Mod` panics on a zero modulus; otherwise the result
    is below the length of the expanded list, so `Int64()` and `int(...)` are exact. -/
def computeListIndex (ihgs : indexHashedGroupSelector) (currentIndex : Nat)
    (randomSource : List Byte) : Outcome Nat :=
  let buffCurrentIndex := putUint64BE currentIndex
  let indexHash := ihgs.hasher (buffCurrentIndex ++ randomSource)
  let computedLargeIndex := setBytes indexHash
  if ihgs.expandedEligibleList.length = 0 then
    .panicked
  else
    .returned (computedLargeIndex % ihgs.expandedEligibleList.length)

/-- The method `checkIndex`: the `for` loop without a bound, run for at most `fuel` rounds.
    Indexing the expanded list out of range panics. -/
def checkIndex (ihgs : indexHashedGroupSelector) :
    Nat → Nat → List Validator → Outcome Nat
  | 0, _, _ => .outOfFuel
  | fuel + 1, proposedIndex, selectedList =>
    match ihgs.expandedEligibleList[proposedIndex]? with
    | none => .panicked
    | some v =>
      if validatorIsInList v selectedList then
        checkIndex ihgs fuel ((proposedIndex + 1) % ihgs.expandedEligibleList.length) selectedList
      else
        .returned proposedIndex

/-- The loop `for startIdx := 0; startIdx < ihgs.consensusSize; startIdx++` of
    `ComputeValidatorsGroup`, with `remaining = consensusSize - startIdx` rounds still to run.
    Every call of `checkIndex` gets `fuel` rounds. -/
def selectLoop (fuel : Nat) (ihgs : indexHashedGroupSelector) (randomness : List Byte) :
    Nat → Nat → List Validator → Outcome (List Validator)
  | 0, _, tempList => .returned tempList
  | remaining + 1, startIdx, tempList =>
    match computeListIndex ihgs startIdx randomness with
    | .panicked => .panicked
    | .outOfFuel => .outOfFuel
    | .returned proposedIndex =>
      match checkIndex ihgs fuel proposedIndex tempList with
      | .panicked => .panicked
      | .outOfFuel => .outOfFuel
      | .returned checkedIndex =>
        match ihgs.expandedEligibleList[checkedIndex]? with
        | none => .panicked
        | some v => selectLoop fuel ihgs randomness remaining (startIdx + 1) (tempList ++ [v])

/-- What `ComputeValidatorsGroup` hands back: the receiver after the call and the two results
    `(validatorsGroup, err)`, each `none` when `nil`. -/
structure ComputeResult where
  selector : indexHashedGroupSelector
  validatorsGroup : Option (List Validator)
  err : Option ConsensusError

/-- The method `ComputeValidatorsGroup`; a `nil` randomness is `none`. -/
def ComputeValidatorsGroup (fuel : Nat) (ihgs : indexHashedGroupSelector)
    (randomness : Option (List Byte)) : Outcome ComputeResult :=
  if (ihgs.eligibleList.length : Int) < ihgs.consensusSize then
    .returned ⟨ihgs, none, some .ErrSmallEligibleListSize⟩
  else
    match randomness with
    | none => .returned ⟨ihgs, none, some .ErrNilRandomness⟩
    | some r =>
      let ihgs1 := { ihgs with expandedEligibleList := expandEligibleList ihgs }
      match selectLoop fuel ihgs1 r ihgs1.consensusSize.toNat 0 [] with
      | .panicked => .panicked
      | .outOfFuel => .outOfFuel
      | .returned tempList => .returned ⟨ihgs1, some tempList, none⟩

/-! ### Auxiliary notions used in the statements -/

/-- Position `c` of the expanded list holds a validator whose key is not among `sel`. -/
def FreeAt (ihgs : indexHashedGroupSelector) (sel : List Validator) (c : Nat) : Prop :=
  ∃ v, ihgs.expandedEligibleList[c]? = some v ∧ validatorIsInList v sel = false

/-- Number of distinct public keys in a list of validators. -/
def distinctKeys (l : List Validator) : Nat :=
  ((l.map Validator.pubKey).dedup).length

/-- The index proposed by `computeListIndex` for round `i`, as a number. -/
def proposedIndexOf (ihgs : indexHashedGroupSelector) (randomness : List Byte) (i : Nat) : Nat :=
  setBytes (ihgs.hasher (putUint64BE i ++ randomness)) % ihgs.expandedEligibleList.length

/-- The two values `(validatorsGroup, err)` a caller of `ComputeValidatorsGroup` gets to see. -/
def observed : Outcome ComputeResult →
    Outcome (Option (List Validator) × Option ConsensusError)
  | .returned r => .returned (r.validatorsGroup, r.err)
  | .panicked => .panicked
  | .outOfFuel => .outOfFuel

/-- A run of successive `ComputeValidatorsGroup` calls on one selector, one per randomness in the
    list, each call working on the receiver the previous one left. -/
def runCalls (fuel : Nat) :
    indexHashedGroupSelector → List (Option (List Byte)) → Outcome indexHashedGroupSelector
  | ihgs, [] => .returned ihgs
  | ihgs, r :: rest =>
    match ComputeValidatorsGroup fuel ihgs r with
    | .returned res => runCalls fuel res.selector rest
    | .panicked => .panicked
    | .outOfFuel => .outOfFuel

/-- Selectors obtained from the constructor and the exported methods. -/
inductive Constructed : indexHashedGroupSelector → Prop where
  | create (consensusSize : Int) (hasher : Option Hasher) (ihgs : indexHashedGroupSelector) :
      NewIndexHashedGroupSelector consensusSize hasher = .ok ihgs → Constructed ihgs
  | load (ihgs : indexHashedGroupSelector) (l : Option (List Validator)) :
      Constructed ihgs → Constructed (LoadEligibleList ihgs l).1
  | setSize (ihgs : indexHashedGroupSelector) (consensusSize : Int) :
      Constructed ihgs → Constructed (SetConsensusSize ihgs consensusSize).1
  | compute (fuel : Nat) (ihgs : indexHashedGroupSelector) (randomness : Option (List Byte))
      (r : ComputeResult) :
      Constructed ihgs → ComputeValidatorsGroup fuel ihgs randomness = .returned r →
      Constructed r.selector

/-! ### The selection rule in the words of the specification -/

/-- The eight bytes of `i`, most significant first. -/
def bigEndian8 (i : Nat) : List Byte :=
  (List.range 8).reverse.map (fun k => Fin.ofNat (i / 256 ^ k))

/-- A byte string read as a big-endian unsigned integer. -/
def bigEndianNat : List Byte → Nat
  | [] => 0
  | b :: rest => b.val * 256 ^ rest.length + bigEndianNat rest

/-- The proposed index `p_i = hasher(bigEndian8(i) ++ R) mod n`. -/
def specProposed (hasher : Hasher) (randomness : List Byte) (n i : Nat) : Nat :=
  bigEndianNat (hasher (bigEndian8 i ++ randomness)) % n

/-- The validator at index `c` of `E` has a public key equal to none of those in `prev`. -/
def keyUnused (E prev : List Validator) (c : Nat) : Bool :=
  match E[c]? with
  | some v => prev.all (fun w => decide (w.pubKey ≠ v.pubKey))
  | none => false

/-- Index `c` is the first one of the cyclic sequence `p, (p+1) mod n, (p+2) mod n, ...` whose
    validator has a key unused by `prev`. -/
def IsFirstUnusedInCycle (E prev : List Validator) (p c : Nat) : Prop :=
  ∃ k, c = (p + k) % E.length ∧ keyUnused E prev c = true ∧
    ∀ j, j < k → keyUnused E prev ((p + j) % E.length) = false

/-! ### Sample data -/

/-- A stand-in hasher: the digest of a message is the message. -/
def stubHasher : Hasher := fun msg => msg

def valA : Validator := ⟨10, 1, [0x0a]⟩
def valB : Validator := ⟨20, 2, [0x0b]⟩
def valC : Validator := ⟨30, 3, [0x0c]⟩
/-- A second validator carrying the public key of `valA`. -/
def valA2 : Validator := ⟨40, 4, [0x0a]⟩

/-- Three validators with distinct keys, groups of two. -/
def sampleSelector : indexHashedGroupSelector :=
  { hasher := stubHasher, eligibleList := [valA, valB, valC], expandedEligibleList := [],
    consensusSize := 2 }

/-- Two validators sharing one key, groups of two. -/
def dupSelector : indexHashedGroupSelector :=
  { hasher := stubHasher, eligibleList := [valA, valA2], expandedEligibleList := [],
    consensusSize := 2 }

/-! ## EndRound subround (`subroundEndRound.go`) -/

/-- Modelled from the spec: the subround identifiers of package `bn` are declared outside the
    sources at hand; the phases of a round, in order. -/
inductive SubroundId where
  | SrStartRound
  | SrBlock
  | SrCommitmentHash
  | SrBitmap
  | SrCommitment
  | SrSignature
  | SrEndRound
  deriving DecidableEq, Repr

/-- Modelled from the spec: the status of a subround (`spos.SubroundStatus`). -/
inductive SubroundStatus where
  | SsNotFinished
  | SsExtended
  | SsFinished
  deriving DecidableEq, Repr

/-- Errors seen by the EndRound subround: `spos.ErrNilSignature`, the error of `JobDone` for a
    key that has no round state, and errors handed back by a collaborator. -/
inductive SposError where
  | ErrNilSignature
  | ErrInvalidKey
  | external (code : Nat)
  deriving DecidableEq, Repr

/-- The header as the subround touches it: its nonce and its signature field. -/
structure HeaderData where
  nonce : Nat
  signature : List Byte
  deriving DecidableEq, Repr

/-- Metric keys of package `core` used by `updateMetricsForLeader`. -/
inductive MetricKey where
  | MetricCountAcceptedBlocks
  | MetricConsensusRoundState
  deriving DecidableEq, Repr

/-- Modelled from the spec: `spos.ConsensusState` is declared outside the sources at hand. The
    per-round mutable structure: consensus group, per-(pubKey, subround) "job done" flags (a key
    without round state has none), status of each subround, cancellation flag, data digest,
    current header and body. -/
structure ConsensusState where
  consensusGroup : List String
  validatorRoundStates : String → Option (SubroundId → Bool)
  status : SubroundId → SubroundStatus
  RoundCanceled : Bool
  Data : List Byte
  Header : HeaderData
  BlockBody : List Byte

/-- A call made on a collaborator (multi-signer, block processor, broadcast messenger, status
    handler), with its arguments. -/
inductive Call where
  | SignatureShare (index : Nat)
  | VerifySignatureShare (index : Nat) (sig : List Byte) (msg : List Byte) (bitmap : List Byte)
  | AggregateSigs (bitmap : List Byte)
  | CommitBlock (header : HeaderData) (body : List Byte)
  | BroadcastBlock (body : List Byte) (header : HeaderData)
  | BroadcastShardHeader (header : HeaderData)
  | MarshalizedDataToBroadcast (header : HeaderData) (body : List Byte)
  | BroadcastMiniBlocks (miniBlocks : List Byte)
  | BroadcastTransactions (transactions : List Byte)
  | Increment (key : MetricKey)
  | SetStringValue (key : MetricKey)
  deriving DecidableEq, Repr

/-- What the collaborators answer; `none` is a `nil` error. -/
structure Collaborators where
  SignatureShare : Nat → Except SposError (List Byte)
  VerifySignatureShare : Nat → List Byte → List Byte → List Byte → Option SposError
  AggregateSigs : List Byte → Except SposError (List Byte)
  CommitBlock : HeaderData → List Byte → Option SposError
  BroadcastBlock : List Byte → HeaderData → Option SposError
  BroadcastShardHeader : HeaderData → Option SposError
  MarshalizedDataToBroadcast : HeaderData → List Byte → Except SposError (List Byte × List Byte)
  BroadcastMiniBlocks : List Byte → Option SposError
  BroadcastTransactions : List Byte → Option SposError

/-- The struct `subroundEndRound`: the consensus state it embeds through `*spos.Subround`,
    together with the log of the calls made so far on the collaborators. -/
structure subroundEndRound where
  cns : ConsensusState
  calls : List Call

/-- Modelled from the spec: `ConsensusState.JobDone` is declared outside the sources at hand. It
    reads the "job done" flag of a (pubKey, subround) pair and fails for a key without round
    state. -/
def JobDone (cns : ConsensusState) (pubKey : String) (subroundId : SubroundId) :
    Except SposError Bool :=
  match cns.validatorRoundStates pubKey with
  | none => .error .ErrInvalidKey
  | some flags => .ok (flags subroundId)

/-- Member `i` of the consensus group exists and has its job done for the subround. -/
def memberJobDone (cns : ConsensusState) (subroundId : SubroundId) (i : Nat) : Bool :=
  match cns.consensusGroup[i]? with
  | none => false
  | some pubKey =>
    match JobDone cns pubKey subroundId with
    | .ok true => true
    | _ => false

/-- Eight flags packed into one byte, flag `t` at bit `t` (least significant first). -/
def packByte (f : Nat → Bool) : Byte :=
  Fin.ofNat ((f 0).toNat + 2 * (f 1).toNat + 4 * (f 2).toNat + 8 * (f 3).toNat
    + 16 * (f 4).toNat + 32 * (f 5).toNat + 64 * (f 6).toNat + 128 * (f 7).toNat)

/-- Modelled from the spec: `ConsensusState.GenerateBitmap` is declared outside the sources at
    hand. "Construct a bitmap whose i-th bit is set iff signer i completed" the given subround:
    a bit-packed subset of the consensus group, `len(group)/8 + 1` bytes, member `i` at bit
    `i mod 8` of byte `i div 8`. -/
def GenerateBitmap (cns : ConsensusState) (subroundId : SubroundId) : List Byte :=
  (List.range (cns.consensusGroup.length / 8 + 1)).map
    (fun j => packByte (fun t => memberJobDone cns subroundId (8 * j + t)))

/-- Modelled from the spec: `Subround.SetStatus` stores the status of one subround. -/
def SetStatus (cns : ConsensusState) (subroundId : SubroundId) (st : SubroundStatus) :
    ConsensusState :=
  { cns with status := fun s => if s = subroundId then st else cns.status s }

/-- Modelled from the spec: `Subround.Status` reads the status of one subround. -/
def Status (cns : ConsensusState) (subroundId : SubroundId) : SubroundStatus :=
  cns.status subroundId

/-- The test `(bitmap[i/8] & (1 << uint16(i%8))) > 0` on one byte, in `byte` arithmetic. -/
def indexRequired (b : Byte) (i : Nat) : Bool :=
  decide ((b.val &&& ((1 <<< ((i % 8) % 2 ^ 16)) % 256)) > 0)

/-- The loop `for i := 0; i < size; i++` of `checkSignaturesValidity`, with `remaining = size - i`
    rounds still to run. Indexing the bitmap or the group out of range panics. The result is the
    returned error and the sender's log of calls. -/
def checkSignaturesLoop (env : Collaborators) (cns : ConsensusState) (bitmap : List Byte) :
    Nat → Nat → List Call → Outcome (Option SposError × List Call)
  | 0, _, calls => .returned (none, calls)
  | remaining + 1, i, calls =>
    match bitmap[i / 8]? with
    | none => .panicked
    | some b =>
      if !indexRequired b i then
        checkSignaturesLoop env cns bitmap remaining (i + 1) calls
      else
        match cns.consensusGroup[i]? with
        | none => .panicked
        | some pubKey =>
          match JobDone cns pubKey .SrSignature with
          | .error err => .returned (some err, calls)
          | .ok isSigJobDone =>
            if !isSigJobDone then
              .returned (some .ErrNilSignature, calls)
            else
              let calls1 := calls ++ [Call.SignatureShare (i % 2 ^ 16)]
              match env.SignatureShare (i % 2 ^ 16) with
              | .error err => .returned (some err, calls1)
              | .ok signature =>
                let calls2 := calls1 ++
                  [Call.VerifySignatureShare (i % 2 ^ 16) signature cns.Data bitmap]
                match env.VerifySignatureShare (i % 2 ^ 16) signature cns.Data bitmap with
                | some err => .returned (some err, calls2)
                | none => checkSignaturesLoop env cns bitmap remaining (i + 1) calls2

/-- The method `checkSignaturesValidity`. -/
def checkSignaturesValidity (env : Collaborators) (sr : subroundEndRound) (bitmap : List Byte) :
    Outcome (Option SposError × subroundEndRound) :=
  let nbBitsBitmap := bitmap.length * 8
  let consensusGroupSize := sr.cns.consensusGroup.length
  let size := if consensusGroupSize > nbBitsBitmap then nbBitsBitmap else consensusGroupSize
  match checkSignaturesLoop env sr.cns bitmap size 0 sr.calls with
  | .panicked => .panicked
  | .outOfFuel => .outOfFuel
  | .returned (err, calls) => .returned (err, { sr with calls := calls })

/-- The method `broadcastMiniBlocksAndTransactions`. -/
def broadcastMiniBlocksAndTransactions (env : Collaborators) (sr : subroundEndRound) :
    Option SposError × subroundEndRound :=
  let sr1 := { sr with calls := sr.calls ++
    [Call.MarshalizedDataToBroadcast sr.cns.Header sr.cns.BlockBody] }
  match env.MarshalizedDataToBroadcast sr.cns.Header sr.cns.BlockBody with
  | .error err => (some err, sr1)
  | .ok (miniBlocks, transactions) =>
    let sr2 := { sr1 with calls := sr1.calls ++ [Call.BroadcastMiniBlocks miniBlocks] }
    match env.BroadcastMiniBlocks miniBlocks with
    | some err => (some err, sr2)
    | none =>
      let sr3 := { sr2 with calls := sr2.calls ++ [Call.BroadcastTransactions transactions] }
      match env.BroadcastTransactions transactions with
      | some err => (some err, sr3)
      | none => (none, sr3)

/-- The method `updateMetricsForLeader`; the text stored under the round-state key is a formatted
    duration and is left out of the log. -/
def updateMetricsForLeader (sr : subroundEndRound) : subroundEndRound :=
  { sr with calls := sr.calls ++
    [Call.Increment .MetricCountAcceptedBlocks, Call.SetStringValue .MetricConsensusRoundState] }

/-- The method `doEndRoundJob`. Logging and the clock readings have no effect on the state. -/
def doEndRoundJob (env : Collaborators) (sr : subroundEndRound) :
    Outcome (Bool × subroundEndRound) :=
  let bitmap := GenerateBitmap sr.cns .SrBitmap
  match checkSignaturesValidity env sr bitmap with
  | .panicked => .panicked
  | .outOfFuel => .outOfFuel
  | .returned (some _, sr1) => .returned (false, sr1)
  | .returned (none, sr1) =>
    let sr2 := { sr1 with calls := sr1.calls ++ [Call.AggregateSigs bitmap] }
    match env.AggregateSigs bitmap with
    | .error _ => .returned (false, sr2)
    | .ok sig =>
      let sr3 : subroundEndRound :=
        { sr2 with cns := { sr2.cns with Header := { sr2.cns.Header with signature := sig } } }
      let sr4 := { sr3 with calls := sr3.calls ++
        [Call.CommitBlock sr3.cns.Header sr3.cns.BlockBody] }
      match env.CommitBlock sr3.cns.Header sr3.cns.BlockBody with
      | some _ => .returned (false, sr4)
      | none =>
        let sr5 := { sr4 with cns := SetStatus sr4.cns .SrEndRound .SsFinished }
        let sr6 := { sr5 with calls := sr5.calls ++
          [Call.BroadcastBlock sr5.cns.BlockBody sr5.cns.Header] }
        let sr7 := { sr6 with calls := sr6.calls ++ [Call.BroadcastShardHeader sr6.cns.Header] }
        let sr8 := (broadcastMiniBlocksAndTransactions env sr7).2
        .returned (true, updateMetricsForLeader sr8)

/-- The method `doEndRoundConsensusCheck`, with the receiver it leaves. -/
def doEndRoundConsensusCheck (sr : subroundEndRound) : Bool × subroundEndRound :=
  if sr.cns.RoundCanceled then
    (false, sr)
  else if Status sr.cns .SrEndRound = .SsFinished then
    (true, sr)
  else
    (false, sr)

/-- Bit `i` of a bitmap: bit `i mod 8` of byte `i div 8`, unset beyond the last byte. -/
def bitSet (bitmap : List Byte) (i : Nat) : Bool :=
  match bitmap[i / 8]? with
  | none => false
  | some b => b.val.testBit (i % 8)

/-- The call is one of the four broadcasts. -/
def Call.isBroadcast : Call → Bool
  | .BroadcastBlock _ _ => true
  | .BroadcastShardHeader _ => true
  | .BroadcastMiniBlocks _ => true
  | .BroadcastTransactions _ => true
  | _ => false

/-- The call is made on the multi-signer to fetch or to verify a signature share. -/
def Call.isShareCheck : Call → Bool
  | .SignatureShare _ => true
  | .VerifySignatureShare _ _ _ _ => true
  | _ => false

/-! ### Sample data for the EndRound subround -/

/-- Collaborators that answer every call with success. -/
def okCollaborators : Collaborators :=
  { SignatureShare := fun i => .ok [Fin.ofNat i]
    VerifySignatureShare := fun _ _ _ _ => none
    AggregateSigs := fun bitmap => .ok (0xaa :: bitmap)
    CommitBlock := fun _ _ => none
    BroadcastBlock := fun _ _ => none
    BroadcastShardHeader := fun _ => none
    MarshalizedDataToBroadcast := fun _ body => .ok (body, [0x77])
    BroadcastMiniBlocks := fun _ => none
    BroadcastTransactions := fun _ => none }

/-- A consensus group of three in which every member completed SrBitmap and SrSignature. -/
def sampleState : ConsensusState :=
  { consensusGroup := ["A", "B", "C"]
    validatorRoundStates := fun key =>
      if key = "A" ∨ key = "B" ∨ key = "C" then
        some (fun s => decide (s = .SrBitmap) || decide (s = .SrSignature))
      else none
    status := fun _ => .SsNotFinished
    RoundCanceled := false
    Data := [1, 2, 3]
    Header := ⟨5, []⟩
    BlockBody := [9] }

/-- Same group, but member "B" completed SrSignature without having completed SrBitmap. -/
def signedOutsideBitmap : ConsensusState :=
  { sampleState with
    validatorRoundStates := fun key =>
      if key = "A" ∨ key = "C" then
        some (fun s => decide (s = .SrBitmap) || decide (s = .SrSignature))
      else if key = "B" then some (fun s => decide (s = .SrSignature))
      else none }

/-! ## Request coordinator (`requestHandler.go`) -/

/-- Errors of package `dataRetriever` returned by the constructors, and errors handed back by a
    collaborator (finder, resolver, data splitter). -/
inductive DataRetrieverError where
  | ErrNilResolverFinder
  | ErrNilRequestedItemsHandler
  | ErrEmptyTxRequestTopic
  | ErrEmptyScrRequestTopic
  | ErrEmptyRewardTxRequestTopic
  | ErrEmptyMiniBlockRequestTopic
  | ErrEmptyShardHeaderRequestTopic
  | ErrEmptyMetaHeaderRequestTopic
  | ErrInvalidMaxTxRequest
  | external (code : Nat)
  deriving DecidableEq, Repr

/-- The duration `time.Second`, in nanoseconds. -/
def timeSecond : Int := 1000000000

/-- The call `time.Since(t)` read at instant `now`: instants are nanosecond counts starting at
    the zero `time.Time`, and the difference saturates at the bounds of `int64`. -/
def timeSince (now t : Int) : Int :=
  max (-(2 : Int) ^ 63) (min (now - t) ((2 : Int) ^ 63 - 1))

/-- The conversion `string(hash)`: one character per byte. -/
def bytesToString (bs : List Byte) : String :=
  ⟨bs.map (fun b => Char.ofNat b.val)⟩

/-- Modelled from the spec: the `dataRetriever.RequestedItemsHandler` is implemented outside the
    sources at hand. A set of string keys, each with its insertion time. -/
structure RequestedItems where
  items : List (String × Int)
  deriving DecidableEq, Repr

/-- Modelled from the spec: `has(key)` tells whether the key is in the set. -/
def RequestedItems.Has (r : RequestedItems) (key : String) : Bool :=
  r.items.any (fun e => e.1 = key)

/-- Modelled from the spec: `add(key)` records the key with its insertion time; the first add
    within a sweep window wins and a duplicate add is idempotent. No failure of `add` is
    described, so the returned error is always nil. -/
def RequestedItems.Add (r : RequestedItems) (key : String) (now : Int) :
    RequestedItems × Option DataRetrieverError :=
  if r.Has key then (r, none) else (⟨r.items ++ [(key, now)]⟩, none)

/-- Modelled from the spec: `sweep()` clears the entries older than the sweep window of one
    second. -/
def RequestedItems.Sweep (r : RequestedItems) (now : Int) : RequestedItems :=
  ⟨r.items.filter (fun e => decide (timeSince now e.2 ≤ timeSecond))⟩

/-- A `dataRetriever.Resolver` as the coordinator uses it. Every resolver answers
    `RequestDataFromHash`; it may also be a `HashSliceResolver` (`RequestDataFromHashArray`)
    and a `HeaderResolver` (`RequestDataFromNonce`). `none` as an answer is a nil error. -/
structure Resolver where
  RequestDataFromHash : List Byte → Option DataRetrieverError
  RequestDataFromHashArray : Option (List (List Byte) → Option DataRetrieverError)
  RequestDataFromNonce : Option (Nat → Option DataRetrieverError)

/-- What the surroundings answer during one call: the `dataRetriever.ResolversFinder` and the
    constant `sharding.MetachainShardId`, which is declared outside the sources at hand. -/
structure RequestEnv where
  CrossShardResolver : String → Nat → Except DataRetrieverError Resolver
  MetaChainResolver : String → Except DataRetrieverError Resolver
  MetachainShardId : Nat

/-- A call made by the coordinator on the finder, on a resolver (with `ok` telling whether the
    returned error was nil) or on the requested-items set (`Sweep`, with the instant). -/
inductive ReqCall where
  | CrossShardResolver (topic : String) (shard : Nat)
  | MetaChainResolver (topic : String)
  | RequestDataFromHash (hash : List Byte) (ok : Bool)
  | RequestDataFromHashArray (batch : List (List Byte)) (ok : Bool)
  | RequestDataFromNonce (nonce : Nat) (ok : Bool)
  | Sweep (now : Int)
  deriving DecidableEq, Repr

/-- The struct `resolverRequestHandler`, without the finder (its answers are in `RequestEnv`),
    together with the log of the calls made so far. -/
structure resolverRequestHandler where
  requestedItemsHandler : RequestedItems
  txRequestTopic : String
  scrRequestTopic : String
  rewardTxRequestTopic : String
  mbRequestTopic : String
  shardHdrRequestTopic : String
  metaHdrRequestTopic : String
  isMetaChain : Bool
  maxTxsToRequest : Int
  sweepTime : Int
  calls : List ReqCall
  deriving DecidableEq, Repr

/-- The constructor `NewShardResolverRequestHandler`; `finderIsNil` tells whether the finder is
    nil, a nil requested-items handler is `none`, and `now` is the reading of `time.Now()`. -/
def NewShardResolverRequestHandler (finderIsNil : Bool)
    (requestedItemsHandler : Option RequestedItems)
    (txRequestTopic scrRequestTopic rewardTxRequestTopic mbRequestTopic shardHdrRequestTopic
      metaHdrRequestTopic : String) (maxTxsToRequest : Int) (now : Int) :
    Except DataRetrieverError resolverRequestHandler :=
  if finderIsNil then .error .ErrNilResolverFinder
  else match requestedItemsHandler with
    | none => .error .ErrNilRequestedItemsHandler
    | some items =>
      if txRequestTopic.length = 0 then .error .ErrEmptyTxRequestTopic
      else if scrRequestTopic.length = 0 then .error .ErrEmptyScrRequestTopic
      else if rewardTxRequestTopic.length = 0 then .error .ErrEmptyRewardTxRequestTopic
      else if mbRequestTopic.length = 0 then .error .ErrEmptyMiniBlockRequestTopic
      else if shardHdrRequestTopic.length = 0 then .error .ErrEmptyShardHeaderRequestTopic
      else if metaHdrRequestTopic.length = 0 then .error .ErrEmptyMetaHeaderRequestTopic
      else if maxTxsToRequest < 1 then .error .ErrInvalidMaxTxRequest
      else .ok
        { requestedItemsHandler := items
          txRequestTopic := txRequestTopic
          scrRequestTopic := scrRequestTopic
          rewardTxRequestTopic := rewardTxRequestTopic
          mbRequestTopic := mbRequestTopic
          shardHdrRequestTopic := shardHdrRequestTopic
          metaHdrRequestTopic := metaHdrRequestTopic
          isMetaChain := false
          maxTxsToRequest := maxTxsToRequest
          sweepTime := now
          calls := [] }

/-- The constructor `NewMetaResolverRequestHandler`. It sets neither the reward topic (left
    empty) nor the sweep time (left at the zero `time.Time`). -/
def NewMetaResolverRequestHandler (finderIsNil : Bool)
    (requestedItemsHandler : Option RequestedItems)
    (shardHdrRequestTopic metaHdrRequestTopic txRequestTopic scrRequestTopic
      mbRequestTopic : String) (maxTxsToRequest : Int) :
    Except DataRetrieverError resolverRequestHandler :=
  if finderIsNil then .error .ErrNilResolverFinder
  else match requestedItemsHandler with
    | none => .error .ErrNilRequestedItemsHandler
    | some items =>
      if shardHdrRequestTopic.length = 0 then .error .ErrEmptyShardHeaderRequestTopic
      else if metaHdrRequestTopic.length = 0 then .error .ErrEmptyMetaHeaderRequestTopic
      else if txRequestTopic.length = 0 then .error .ErrEmptyTxRequestTopic
      else if scrRequestTopic.length = 0 then .error .ErrEmptyScrRequestTopic
      else if mbRequestTopic.length = 0 then .error .ErrEmptyMiniBlockRequestTopic
      else if maxTxsToRequest < 1 then .error .ErrInvalidMaxTxRequest
      else .ok
        { requestedItemsHandler := items
          txRequestTopic := txRequestTopic
          scrRequestTopic := scrRequestTopic
          rewardTxRequestTopic := ""
          mbRequestTopic := mbRequestTopic
          shardHdrRequestTopic := shardHdrRequestTopic
          metaHdrRequestTopic := metaHdrRequestTopic
          isMetaChain := true
          maxTxsToRequest := maxTxsToRequest
          sweepTime := 0
          calls := [] }

/-- The method `sweepIfNeeded`. The clock readings made during one call of the coordinator are
    one instant `now`. -/
def sweepIfNeeded (now : Int) (rrh : resolverRequestHandler) : resolverRequestHandler :=
  if timeSince now rrh.sweepTime ≤ timeSecond then
    rrh
  else
    { rrh with
      sweepTime := now
      requestedItemsHandler := rrh.requestedItemsHandler.Sweep now
      calls := rrh.calls ++ [ReqCall.Sweep now] }

/-- The loop `for _, hash := range hashes` of `getUnrequestedHashes`. -/
def getUnrequestedHashesLoop (now : Int) :
    List (List Byte) → List (List Byte) → RequestedItems → List (List Byte) × RequestedItems
  | [], unrequestedHashes, items => (unrequestedHashes, items)
  | hash :: rest, unrequestedHashes, items =>
    if !items.Has (bytesToString hash) then
      getUnrequestedHashesLoop now rest (unrequestedHashes ++ [hash])
        (items.Add (bytesToString hash) now).1
    else
      getUnrequestedHashesLoop now rest unrequestedHashes items

/-- The method `getUnrequestedHashes`. -/
def getUnrequestedHashes (now : Int) (rrh : resolverRequestHandler) (hashes : List (List Byte)) :
    List (List Byte) × resolverRequestHandler :=
  let rrh1 := sweepIfNeeded now rrh
  let r := getUnrequestedHashesLoop now hashes [] rrh1.requestedItemsHandler
  (r.1, { rrh1 with requestedItemsHandler := r.2 })

/-- Modelled from the spec: `partitioning.DataSplit.SplitDataInChunks` is declared outside the
    sources at hand. Hash-array requests are split into chunks of at most `limit` hashes; a
    limit below 1, which the constructors reject, is an error. -/
def SplitDataInChunks (data : List (List Byte)) (limit : Int) :
    Except DataRetrieverError (List (List (List Byte))) :=
  if limit < 1 then .error (.external 0) else .ok (data.toChunks limit.toNat)

/-- The loop `for _, batch := range sliceBatches` of `requestByHashes`; a failing batch is only
    logged. -/
def requestBatches (request : List (List Byte) → Option DataRetrieverError) :
    List (List (List Byte)) → List ReqCall → List ReqCall
  | [], calls => calls
  | batch :: rest, calls =>
    requestBatches request rest
      (calls ++ [ReqCall.RequestDataFromHashArray batch (request batch).isNone])

/-- The method `requestByHashes`. The function it starts with `go` is run to its end within the
    call. -/
def requestByHashes (env : RequestEnv) (now : Int) (rrh : resolverRequestHandler)
    (destShardID : Nat) (hashes : List (List Byte)) (topic : String) : resolverRequestHandler :=
  let (unrequestedHashes, rrh1) := getUnrequestedHashes now rrh hashes
  let rrh2 := { rrh1 with calls := rrh1.calls ++ [ReqCall.CrossShardResolver topic destShardID] }
  match env.CrossShardResolver topic destShardID with
  | .error _ => rrh2
  | .ok resolver =>
    match resolver.RequestDataFromHashArray with
    | none => rrh2
    | some request =>
      match SplitDataInChunks unrequestedHashes rrh2.maxTxsToRequest with
      | .error _ => rrh2
      | .ok sliceBatches => { rrh2 with calls := requestBatches request sliceBatches rrh2.calls }

/-- The method `RequestTransaction`. -/
def RequestTransaction (env : RequestEnv) (now : Int) (rrh : resolverRequestHandler)
    (destShardID : Nat) (txHashes : List (List Byte)) : resolverRequestHandler :=
  requestByHashes env now rrh destShardID txHashes rrh.txRequestTopic

/-- The method `RequestUnsignedTransactions`. -/
def RequestUnsignedTransactions (env : RequestEnv) (now : Int) (rrh : resolverRequestHandler)
    (destShardID : Nat) (scrHashes : List (List Byte)) : resolverRequestHandler :=
  requestByHashes env now rrh destShardID scrHashes rrh.scrRequestTopic

/-- The method `RequestRewardTransactions`. -/
def RequestRewardTransactions (env : RequestEnv) (now : Int) (rrh : resolverRequestHandler)
    (destShardId : Nat) (rewardTxHashes : List (List Byte)) : resolverRequestHandler :=
  requestByHashes env now rrh destShardId rewardTxHashes rrh.rewardTxRequestTopic

/-- The method `RequestMiniBlock`. -/
def RequestMiniBlock (env : RequestEnv) (now : Int) (rrh : resolverRequestHandler)
    (destShardID : Nat) (miniblockHash : List Byte) : resolverRequestHandler :=
  let rrh1 := sweepIfNeeded now rrh
  if rrh1.requestedItemsHandler.Has (bytesToString miniblockHash) then
    rrh1
  else
    let rrh2 := { rrh1 with calls := rrh1.calls ++
      [ReqCall.CrossShardResolver rrh1.mbRequestTopic destShardID] }
    match env.CrossShardResolver rrh1.mbRequestTopic destShardID with
    | .error _ => rrh2
    | .ok resolver =>
      let err := resolver.RequestDataFromHash miniblockHash
      let rrh3 := { rrh2 with calls := rrh2.calls ++
        [ReqCall.RequestDataFromHash miniblockHash err.isNone] }
      match err with
      | some _ => rrh3
      | none =>
        { rrh3 with requestedItemsHandler :=
            (rrh3.requestedItemsHandler.Add (bytesToString miniblockHash) now).1 }

/-- The method `RequestHeader`. -/
def RequestHeader (env : RequestEnv) (now : Int) (rrh : resolverRequestHandler)
    (destShardID : Nat) (hash : List Byte) : resolverRequestHandler :=
  let rrh1 := sweepIfNeeded now rrh
  if rrh1.requestedItemsHandler.Has (bytesToString hash) then
    rrh1
  else
    let baseTopic :=
      if destShardID = env.MetachainShardId then rrh1.metaHdrRequestTopic
      else rrh1.shardHdrRequestTopic
    let lookup : ReqCall × Except DataRetrieverError Resolver :=
      if destShardID = env.MetachainShardId then
        (ReqCall.MetaChainResolver baseTopic, env.MetaChainResolver baseTopic)
      else
        (ReqCall.CrossShardResolver baseTopic destShardID,
          env.CrossShardResolver baseTopic destShardID)
    let rrh2 := { rrh1 with calls := rrh1.calls ++ [lookup.1] }
    match lookup.2 with
    | .error _ => rrh2
    | .ok resolver =>
      let err := resolver.RequestDataFromHash hash
      let rrh3 := { rrh2 with calls := rrh2.calls ++
        [ReqCall.RequestDataFromHash hash err.isNone] }
      match err with
      | some _ => rrh3
      | none =>
        { rrh3 with requestedItemsHandler :=
            (rrh3.requestedItemsHandler.Add (bytesToString hash) now).1 }

/-- The key `fmt.Sprintf("%d-%d", destShardID, nonce)`. -/
def nonceKey (destShardID nonce : Nat) : String :=
  toString destShardID ++ "-" ++ toString nonce

/-- The method `RequestHeaderByNonce`. -/
def RequestHeaderByNonce (env : RequestEnv) (now : Int) (rrh : resolverRequestHandler)
    (destShardID : Nat) (nonce : Nat) : resolverRequestHandler :=
  let rrh1 := sweepIfNeeded now rrh
  let key := nonceKey destShardID nonce
  if rrh1.requestedItemsHandler.Has key then
    rrh1
  else
    let lookup : ReqCall × Except DataRetrieverError Resolver :=
      if rrh1.isMetaChain then
        (ReqCall.CrossShardResolver rrh1.shardHdrRequestTopic destShardID,
          env.CrossShardResolver rrh1.shardHdrRequestTopic destShardID)
      else
        (ReqCall.MetaChainResolver rrh1.metaHdrRequestTopic,
          env.MetaChainResolver rrh1.metaHdrRequestTopic)
    let rrh2 := { rrh1 with calls := rrh1.calls ++ [lookup.1] }
    match lookup.2 with
    | .error _ => rrh2
    | .ok resolver =>
      match resolver.RequestDataFromNonce with
      | none => rrh2
      | some request =>
        let err := request nonce
        let rrh3 := { rrh2 with calls := rrh2.calls ++
          [ReqCall.RequestDataFromNonce nonce err.isNone] }
        match err with
        | some _ => rrh3
        | none =>
          { rrh3 with requestedItemsHandler := (rrh3.requestedItemsHandler.Add key now).1 }

/-- One call of an exported request method, with its arguments. -/
inductive Request where
  | RequestTransaction (destShardID : Nat) (txHashes : List (List Byte))
  | RequestUnsignedTransactions (destShardID : Nat) (scrHashes : List (List Byte))
  | RequestRewardTransactions (destShardId : Nat) (rewardTxHashes : List (List Byte))
  | RequestMiniBlock (destShardID : Nat) (miniblockHash : List Byte)
  | RequestHeader (destShardID : Nat) (hash : List Byte)
  | RequestHeaderByNonce (destShardID : Nat) (nonce : Nat)
  deriving DecidableEq, Repr

/-- The handler after one request made at instant `now` in surroundings `env`. -/
def Request.apply (env : RequestEnv) (now : Int) (rrh : resolverRequestHandler) :
    Request → resolverRequestHandler
  | .RequestTransaction s hs => ElrondGo.RequestTransaction env now rrh s hs
  | .RequestUnsignedTransactions s hs => ElrondGo.RequestUnsignedTransactions env now rrh s hs
  | .RequestRewardTransactions s hs => ElrondGo.RequestRewardTransactions env now rrh s hs
  | .RequestMiniBlock s h => ElrondGo.RequestMiniBlock env now rrh s h
  | .RequestHeader s h => ElrondGo.RequestHeader env now rrh s h
  | .RequestHeaderByNonce s n => ElrondGo.RequestHeaderByNonce env now rrh s n

/-- A sequence of requests on one handler, each with its surroundings and its instant. -/
def runRequests (rrh : resolverRequestHandler) :
    List (RequestEnv × Int × Request) → resolverRequestHandler
  | [] => rrh
  | (env, now, req) :: rest => runRequests (req.apply env now rrh) rest

/-- Consecutive `RequestHeader(destShardID, hash)` calls on one handler, each with its
    surroundings and its instant. -/
def runRequestHeader (rrh : resolverRequestHandler) (destShardID : Nat) (hash : List Byte) :
    List (RequestEnv × Int) → resolverRequestHandler
  | [] => rrh
  | (env, now) :: rest =>
    runRequestHeader (RequestHeader env now rrh destShardID hash) destShardID hash rest

/-- The log entry is a lookup on the resolvers finder. -/
def ReqCall.isLookup : ReqCall → Bool
  | .CrossShardResolver _ _ => true
  | .MetaChainResolver _ => true
  | _ => false

/-- The instants of the `Sweep` calls of a log, in order. -/
def sweepInstants : List ReqCall → List Int
  | [] => []
  | ReqCall.Sweep now :: rest => now :: sweepInstants rest
  | _ :: rest => sweepInstants rest

/-! ### Sample data for the request coordinator -/

/-- A resolver that accepts every request. -/
def okResolver : Resolver :=
  { RequestDataFromHash := fun _ => none
    RequestDataFromHashArray := some (fun _ => none)
    RequestDataFromNonce := some (fun _ => none) }

/-- A resolver whose every request fails. -/
def failingResolver : Resolver :=
  { RequestDataFromHash := fun _ => some (.external 1)
    RequestDataFromHashArray := some (fun _ => some (.external 1))
    RequestDataFromNonce := some (fun _ => some (.external 1)) }

/-- Surroundings in which every lookup finds `okResolver`. -/
def okEnv : RequestEnv :=
  { CrossShardResolver := fun _ _ => .ok okResolver
    MetaChainResolver := fun _ => .ok okResolver
    MetachainShardId := 4294967295 }

/-- Surroundings in which every lookup finds `failingResolver`. -/
def failingEnv : RequestEnv :=
  { CrossShardResolver := fun _ _ => .ok failingResolver
    MetaChainResolver := fun _ => .ok failingResolver
    MetachainShardId := 4294967295 }

/-- Surroundings in which no resolver is found. -/
def noResolverEnv : RequestEnv :=
  { CrossShardResolver := fun _ _ => .error (.external 2)
    MetaChainResolver := fun _ => .error (.external 2)
    MetachainShardId := 4294967295 }

/-- A shard handler with an empty requested-items set, built at instant 5000. -/
def shardHandler : resolverRequestHandler :=
  { requestedItemsHandler := ⟨[]⟩
    txRequestTopic := "tx"
    scrRequestTopic := "scr"
    rewardTxRequestTopic := "rwd"
    mbRequestTopic := "mb"
    shardHdrRequestTopic := "shardHdr"
    metaHdrRequestTopic := "metaHdr"
    isMetaChain := false
    maxTxsToRequest := 2
    sweepTime := 5000
    calls := [] }

/-! ## Persistent status handler (`persistentHandler.go`) -/

/-- Errors of package `process` returned by the persistent status handler, and errors handed
    back by a collaborator (marshalizer, storer). -/
inductive PersistError where
  | ErrNilMarshalizer
  | ErrNilUint64Converter
  | ErrNilStorage
  | external (code : Nat)
  deriving DecidableEq, Repr

/-- A value held in the `sync.Map` of metrics: a `uint64`, an `int64` or a `string`. -/
inductive MetricValue where
  | uint64 (n : Nat)
  | int64 (i : Int)
  | string (s : String)
  deriving DecidableEq, Repr

/-- The metrics map: the value stored under each key, if any. -/
abbrev MetricsMap := String → Option MetricValue

/-- The call `Store(key, value)` on the metrics map. -/
def MetricsMap.Store (m : MetricsMap) (key : String) (value : MetricValue) : MetricsMap :=
  fun k => if k = key then some value else m k

/-- What the package takes from outside the sources at hand: the seven metric keys of package
    `core` that `initMap` stores, the helper `GetUint64` and the `Put` of the nil storer made by
    `storageUnit.NewNilStorer`. -/
structure PersisterEnv where
  MetricCountConsensus : String
  MetricCountConsensusAcceptedBlocks : String
  MetricCountAcceptedBlocks : String
  MetricCountLeader : String
  MetricNumProcessedTxs : String
  MetricNumShardHeadersProcessed : String
  MetricNonce : String
  GetUint64 : MetricValue → Nat
  nilStorerPut : List Byte → List Byte → Option PersistError

/-- A call made by the handler on the marshalizer, the converter or the storer (`ok` tells
    whether `Put` returned a nil error). -/
inductive PersistCall where
  | Marshal
  | ToByteSlice (nonce : Nat)
  | Put (key data : List Byte) (ok : Bool)
  deriving DecidableEq, Repr

/-- The struct `PersistentStatusHandler`: the `Put` of its storer, the metrics map, the `Marshal`
    of its marshalizer, the `ToByteSlice` of its converter and the start-save flag, together with
    the log of the calls made so far on them. -/
structure PersistentStatusHandler where
  store : List Byte → List Byte → Option PersistError
  persistentMetrics : MetricsMap
  marshalizer : MetricsMap → Except PersistError (List Byte)
  uint64ByteSliceConverter : Nat → List Byte
  startSaveInStorage : Bool
  calls : List PersistCall

/-- The method `initMap`. -/
def initMap (env : PersisterEnv) (psh : PersistentStatusHandler) : PersistentStatusHandler :=
  let initUint := MetricValue.uint64 0
  let m1 := psh.persistentMetrics.Store env.MetricCountConsensus initUint
  let m2 := m1.Store env.MetricCountConsensusAcceptedBlocks initUint
  let m3 := m2.Store env.MetricCountAcceptedBlocks initUint
  let m4 := m3.Store env.MetricCountLeader initUint
  let m5 := m4.Store env.MetricNumProcessedTxs initUint
  let m6 := m5.Store env.MetricNumShardHeadersProcessed initUint
  let m7 := m6.Store env.MetricNonce initUint
  { psh with persistentMetrics := m7 }

/-- The constructor `NewPersistentStatusHandler`; a nil argument is `none`. The function it
    starts with `go` sets the start-save flag one second later: see `startSaving`. -/
def NewPersistentStatusHandler (env : PersisterEnv)
    (marshalizer : Option (MetricsMap → Except PersistError (List Byte)))
    (uint64ByteSliceConverter : Option (Nat → List Byte)) :
    Except PersistError PersistentStatusHandler :=
  match marshalizer with
  | none => .error .ErrNilMarshalizer
  | some marsh =>
    match uint64ByteSliceConverter with
    | none => .error .ErrNilUint64Converter
    | some conv =>
      .ok (initMap env
        { store := env.nilStorerPut
          persistentMetrics := fun _ => none
          marshalizer := marsh
          uint64ByteSliceConverter := conv
          startSaveInStorage := false
          calls := [] })

/-- The assignment `psh.startSaveInStorage = true` made by the function that the constructor
    starts with `go`. -/
def startSaving (psh : PersistentStatusHandler) : PersistentStatusHandler :=
  { psh with startSaveInStorage := true }

/-- The method `SetStorage`; a nil storer is `none`. -/
def SetStorage (psh : PersistentStatusHandler)
    (store : Option (List Byte → List Byte → Option PersistError)) :
    PersistentStatusHandler × Option PersistError :=
  match store with
  | none => (psh, some .ErrNilStorage)
  | some put => ({ psh with store := put }, none)

/-- The method `saveMetricsInDb`. Every key of the metrics map is a string, so `Range` copies
    the whole map. -/
def saveMetricsInDb (psh : PersistentStatusHandler) (nonce : Nat) : PersistentStatusHandler :=
  let metricsMap := psh.persistentMetrics
  let psh1 := { psh with calls := psh.calls ++ [PersistCall.Marshal] }
  match psh.marshalizer metricsMap with
  | .error _ => psh1
  | .ok statusMetricsBytes =>
    let nonceBytes := psh.uint64ByteSliceConverter nonce
    let psh2 := { psh1 with calls := psh1.calls ++ [PersistCall.ToByteSlice nonce] }
    let err := psh.store nonceBytes statusMetricsBytes
    let psh3 := { psh2 with calls := psh2.calls ++
      [PersistCall.Put nonceBytes statusMetricsBytes err.isNone] }
    match err with
    | some _ => psh3
    | none => psh3

/-- The method `SetInt64Value`. -/
def SetInt64Value (psh : PersistentStatusHandler) (key : String) (value : Int) :
    PersistentStatusHandler :=
  match psh.persistentMetrics key with
  | none => psh
  | some _ => { psh with persistentMetrics := psh.persistentMetrics.Store key (.int64 value) }

/-- The method `SetUInt64Value`. -/
def SetUInt64Value (env : PersisterEnv) (psh : PersistentStatusHandler) (key : String)
    (value : Nat) : PersistentStatusHandler :=
  match psh.persistentMetrics key with
  | none => psh
  | some valueFromMapI =>
    let psh1 := { psh with persistentMetrics := psh.persistentMetrics.Store key (.uint64 value) }
    if key ≠ env.MetricNonce then
      psh1
    else
      let valueFromMap := env.GetUint64 valueFromMapI
      if value < valueFromMap then
        psh1
      else if !psh1.startSaveInStorage then
        psh1
      else
        saveMetricsInDb psh1 value

/-- The method `SetStringValue`. -/
def SetStringValue (psh : PersistentStatusHandler) (key : String) (value : String) :
    PersistentStatusHandler :=
  match psh.persistentMetrics key with
  | none => psh
  | some _ => { psh with persistentMetrics := psh.persistentMetrics.Store key (.string value) }

/-- The method `AddUint64`; `keyValue += value` is an addition of `uint64`. -/
def AddUint64 (psh : PersistentStatusHandler) (key : String) (value : Nat) :
    PersistentStatusHandler :=
  match psh.persistentMetrics key with
  | none => psh
  | some (.uint64 keyValue) =>
    { psh with persistentMetrics :=
        psh.persistentMetrics.Store key (.uint64 ((keyValue + value) % 2 ^ 64)) }
  | some _ => psh

/-- The method `Increment`. -/
def Increment (psh : PersistentStatusHandler) (key : String) : PersistentStatusHandler :=
  AddUint64 psh key 1

/-- The method `Decrement`; `keyValue--` is a subtraction of `uint64`. -/
def Decrement (psh : PersistentStatusHandler) (key : String) : PersistentStatusHandler :=
  match psh.persistentMetrics key with
  | none => psh
  | some (.uint64 keyValue) =>
    if keyValue = 0 then
      psh
    else
      { psh with persistentMetrics :=
          psh.persistentMetrics.Store key (.uint64 ((keyValue + 2 ^ 64 - 1) % 2 ^ 64)) }
  | some _ => psh

/-- One step in the life of a handler: a call of an exported method, or the start-save flag
    being raised. -/
inductive MetricOp where
  | SetUInt64Value (key : String) (value : Nat)
  | SetInt64Value (key : String) (value : Int)
  | SetStringValue (key : String) (value : String)
  | AddUint64 (key : String) (value : Nat)
  | Increment (key : String)
  | Decrement (key : String)
  | SetStorage (store : Option (List Byte → List Byte → Option PersistError))
  | startSaving

/-- The handler after one step. -/
def MetricOp.apply (env : PersisterEnv) (psh : PersistentStatusHandler) :
    MetricOp → PersistentStatusHandler
  | .SetUInt64Value key value => ElrondGo.SetUInt64Value env psh key value
  | .SetInt64Value key value => ElrondGo.SetInt64Value psh key value
  | .SetStringValue key value => ElrondGo.SetStringValue psh key value
  | .AddUint64 key value => ElrondGo.AddUint64 psh key value
  | .Increment key => ElrondGo.Increment psh key
  | .Decrement key => ElrondGo.Decrement psh key
  | .SetStorage store => (ElrondGo.SetStorage psh store).1
  | .startSaving => ElrondGo.startSaving psh

/-- The handler after a sequence of steps. -/
def runMetricOps (env : PersisterEnv) (psh : PersistentStatusHandler) :
    List MetricOp → PersistentStatusHandler
  | [] => psh
  | op :: rest => runMetricOps env (op.apply env psh) rest

/-- The seven keys stored by `initMap`. -/
def initialKeys (env : PersisterEnv) : List String :=
  [env.MetricCountConsensus, env.MetricCountConsensusAcceptedBlocks,
   env.MetricCountAcceptedBlocks, env.MetricCountLeader, env.MetricNumProcessedTxs,
   env.MetricNumShardHeadersProcessed, env.MetricNonce]

/-! ### Sample data for the persistent status handler -/

/-- Sample surroundings: seven distinct key names, `GetUint64` reading a `uint64` and giving 0
    for any other value, and a nil storer that accepts every `Put`. -/
def samplePersisterEnv : PersisterEnv :=
  { MetricCountConsensus := "count_consensus"
    MetricCountConsensusAcceptedBlocks := "count_consensus_accepted_blocks"
    MetricCountAcceptedBlocks := "count_accepted_blocks"
    MetricCountLeader := "count_leader"
    MetricNumProcessedTxs := "num_processed_txs"
    MetricNumShardHeadersProcessed := "num_shard_headers_processed"
    MetricNonce := "nonce"
    GetUint64 := fun v => match v with
      | .uint64 n => n
      | _ => 0
    nilStorerPut := fun _ _ => none }

/-- A handler as the constructor leaves it, with a marshalizer that fails and the big-endian
    converter. -/
def sampleHandler : PersistentStatusHandler :=
  initMap samplePersisterEnv
    { store := samplePersisterEnv.nilStorerPut
      persistentMetrics := fun _ => none
      marshalizer := fun _ => .error (.external 1)
      uint64ByteSliceConverter := putUint64BE
      startSaveInStorage := false
      calls := [] }

/-! ## Trie key encoding (`data/trie`) -/

/-- Errors of package `trie` named by the specification. -/
inductive TrieError where
  | ErrNilNode
  | ErrInvalidNode
  | ErrInvalidEncoding
  | ErrInvalidLength
  deriving DecidableEq, Repr

/-- The sentinel that terminates the nibbles of a key. -/
def hexTerminator : Byte := 16

/-- Modelled from the spec: `keyBytesToHex` is declared outside the sources at hand (only its
    tests are there). Caller keys are raw bytes, represented as the sequence of their 4-bit
    nibbles, high nibble first, terminated with the sentinel 16. -/
def keyBytesToHex (str : List Byte) : List Byte :=
  str.flatMap (fun b => [b / hexTerminator, b % hexTerminator]) ++ [hexTerminator]

/-- The bytes made of consecutive pairs of nibbles, high nibble first. -/
def nibblesToBytes : List Byte → List Byte
  | hi :: lo :: rest => (hi * hexTerminator + lo) :: nibblesToBytes rest
  | _ => []

/-- Modelled from the spec: `hexToKeyBytes` is declared outside the sources at hand (only its
    tests are there). The last position, that of the terminator, is removed; a remaining odd
    number of nibbles is `ErrInvalidLength` with a nil key, otherwise the nibbles are paired
    into bytes. The result is `(key, err)`, each `none` when nil. -/
def hexToKeyBytes (hex : List Byte) : Option (List Byte) × Option TrieError :=
  let nibbles := hex.dropLast
  if nibbles.length % 2 ≠ 0 then
    (none, some .ErrInvalidLength)
  else
    (some (nibblesToBytes nibbles), none)

/-! ## Trie node hashing (`data/trie`) -/

/-- Modelled from the spec: the node types of package `trie` are declared outside the sources at
    hand. A node as it is encoded (collapsed): a branch with its child slots, an extension with
    a nibble prefix and one child, or a leaf with a nibble suffix and a value. -/
inductive TrieNode where
  | branch (EncodedChildren : List (List Byte))
  | extension (Key : List Byte) (EncodedChild : List Byte)
  | leaf (Key : List Byte) (Value : List Byte)
  deriving DecidableEq, Repr

/-- Modelled from the spec: the trailing byte that disambiguates the variant of an encoded node,
    `0x00` = extension, `0x01` = leaf, `0x02` = branch. -/
def TrieNode.tag : TrieNode → Byte
  | .extension _ _ => 0
  | .leaf _ _ => 1
  | .branch _ => 2

/-- An error of `encodeNodeAndGetHash`: one of package `trie`, or one handed back by the
    marshalizer. -/
inductive EncodeError where
  | trie (err : TrieError)
  | marshal (code : Nat)
  deriving DecidableEq, Repr

/-- Modelled from the spec: `encodeNodeAndGetHash` is declared outside the sources at hand (only
    its tests are there). A node is serialized with the configured marshalizer, a single trailing
    tag byte is appended, and the node hash is the hash of the whole; an empty pointer (`none`)
    is `ErrNilNode` and an error of the marshalizer is handed back. The result is `(hash, err)`,
    each `none` when nil. -/
def encodeNodeAndGetHash (n : Option TrieNode) (marshal : TrieNode → Except Nat (List Byte))
    (hasher : Hasher) : Option (List Byte) × Option EncodeError :=
  match n with
  | none => (none, some (.trie .ErrNilNode))
  | some node =>
    match marshal node with
    | .error code => (none, some (.marshal code))
    | .ok encNode => (some (hasher (encNode ++ [node.tag])), none)

/-! ## Header construction (`commonSubround`, subround Block) -/

/-- The fields of a block header that `CreateHeader` fills. -/
structure BlockHeader where
  Nonce : Nat
  PrevHash : List Byte
  PrevRandSeed : List Byte
  RandSeed : List Byte
  Round : Nat
  TimeStamp : Nat
  deriving DecidableEq, Repr

/-- The chain as `CreateHeader` reads it: the current header (`none` when the previous block is
    genesis) with its hash, and the genesis header with its hash. -/
structure ChainView where
  currentHeader : Option BlockHeader
  currentHash : List Byte
  genesisHeader : BlockHeader
  genesisHash : List Byte

/-- The conversion `uint64(x)` of a signed 64-bit integer. -/
def toUint64 (x : Int) : Nat :=
  (x % (2 : Int) ^ 64).toNat

/-- Modelled from the spec: `CreateHeader` is declared outside the sources at hand (only its
    tests are there). The header-construction rules: `Nonce = prev.Nonce + 1` (or 1 if prev is
    genesis), `PrevHash = chain.currentHash` (or the genesis hash), `PrevRandSeed = prev.RandSeed`
    present only when prev is genesis and omitted otherwise, `RandSeed = sign(privateKey,
    prev.RandSeed)`, `Round` and `TimeStamp` taken from the rounder (its index and the Unix time
    of its time stamp, converted to `uint64`). An error of the signer is handed back. The tests
    build their expected header with the signer of a mock container that is not among the
    sources; see `CreateHeader_test_headers` for the headers they expect. -/
def CreateHeader (chain : ChainView) (rounderIndex rounderTimeStampUnix : Int)
    (sign : List Byte → List Byte → Except SposError (List Byte)) (privateKey : List Byte) :
    Except SposError BlockHeader :=
  let hdr : BlockHeader :=
    match chain.currentHeader with
    | none =>
      { Nonce := 1, PrevHash := chain.genesisHash, PrevRandSeed := chain.genesisHeader.RandSeed,
        RandSeed := [], Round := 0, TimeStamp := 0 }
    | some current =>
      { Nonce := current.Nonce + 1, PrevHash := chain.currentHash, PrevRandSeed := [],
        RandSeed := [], Round := 0, TimeStamp := 0 }
  let prevRandSeed :=
    match chain.currentHeader with
    | none => chain.genesisHeader.RandSeed
    | some current => current.RandSeed
  match sign privateKey prevRandSeed with
  | .error err => .error err
  | .ok randSeed =>
    .ok { hdr with
      RandSeed := randSeed
      Round := toUint64 rounderIndex
      TimeStamp := toUint64 rounderTimeStampUnix }

/-! ## The signature-share check in the words of its description -/

/-- What the check of index `i` yields: nothing when the bit of `i` is clear or `i` is no member;
    otherwise the error of `JobDone`, `ErrNilSignature` when the signer has not done SrSignature,
    the error of `SignatureShare(uint16(i))`, or that of `VerifySignatureShare(uint16(i), share,
    round data, bitmap)`. -/
def shareError (env : Collaborators) (cns : ConsensusState) (bitmap : List Byte) (i : Nat) :
    Option SposError :=
  if bitSet bitmap i then
    match cns.consensusGroup[i]? with
    | none => none
    | some pubKey =>
      match JobDone cns pubKey .SrSignature with
      | .error err => some err
      | .ok false => some .ErrNilSignature
      | .ok true =>
        match env.SignatureShare (i % 2 ^ 16) with
        | .error err => some err
        | .ok share => env.VerifySignatureShare (i % 2 ^ 16) share cns.Data bitmap
  else
    none

/-- Member `i` has done SrSignature without error, its share is fetched and verifies. -/
def ShareOk (env : Collaborators) (cns : ConsensusState) (bitmap : List Byte) (i : Nat) : Prop :=
  ∃ pubKey share, cns.consensusGroup[i]? = some pubKey ∧
    JobDone cns pubKey .SrSignature = .ok true ∧
    env.SignatureShare (i % 2 ^ 16) = .ok share ∧
    env.VerifySignatureShare (i % 2 ^ 16) share cns.Data bitmap = none

/-- The number of indices `checkSignaturesValidity` iterates over. -/
def checkedSize (cns : ConsensusState) (bitmap : List Byte) : Nat :=
  min cns.consensusGroup.length (8 * bitmap.length)

/-! ### Further sample data -/

/-- A third validator carrying the public key of `valA`. -/
def valA3 : Validator := ⟨50, 5, [0x0a]⟩

/-- Four validators, three of them sharing one key, groups of two. -/
def repeatedKeySelector : indexHashedGroupSelector :=
  { hasher := stubHasher, eligibleList := [valA, valA2, valA3, valB], expandedEligibleList := [],
    consensusSize := 2 }

/-- A marshalizer stand-in for trie nodes: the bytes of the key or of the first child. -/
def stubNodeMarshal : TrieNode → Except Nat (List Byte)
  | .branch children => .ok (children.headD [])
  | .extension key child => .ok (key ++ child)
  | .leaf key value => .ok (key ++ value)

/-- A signer stand-in: the signature of a message is the private key followed by the message. -/
def stubSign : List Byte → List Byte → Except SposError (List Byte) :=
  fun privateKey msg => .ok (privateKey ++ msg)

/-- A chain at genesis, as in the tests: no current header, genesis random seed `[0]`. -/
def genesisChain : ChainView :=
  { currentHeader := none
    currentHash := []
    genesisHeader := ⟨0, [], [], [0], 0, 0⟩
    genesisHash := [0x67, 0x65, 0x6e] }

/-- A chain whose current header has nonce 1. -/
def chainAtOne : ChainView :=
  { genesisChain with
    currentHeader := some ⟨1, [0x67, 0x65, 0x6e], [0], [7], 3, 30⟩
    currentHash := [0x68, 0x31] }

/-- A signer stand-in whose signature does not depend on the message. -/
def constantSign : List Byte → List Byte → Except SposError (List Byte) :=
  fun _ _ => .ok [0x73]

/-- The chain of the tests with a current header: nonce 1 and an empty random seed, over the
    genesis of `genesisChain` (random seed `[0]`). -/
def chainOfTest : ChainView :=
  { genesisChain with currentHeader := some ⟨1, [], [], [], 0, 0⟩ }

/-- A consensus group of 65537 members, each of which completed every subround. -/
def wideState : ConsensusState :=
  { sampleState with
    consensusGroup := (List.range 65537).map (fun i => toString i)
    validatorRoundStates := fun _ => some (fun _ => true) }

/-- A bitmap of 8193 bytes whose only set bit is bit 65536, bit 0 of the last byte. -/
def wideBitmap : List Byte :=
  List.replicate 8192 0 ++ [1]

/-! ### Decimal strings -/

/-- The number a string of decimal digits stands for. -/
def decimalValue (cs : List Char) : Nat :=
  cs.foldl (fun acc c => acc * 10 + (c.toNat - 48)) 0

/-! ## Theorems: validator group selector -/

theorem validatorIsInList_iff (v : Validator) (l : List Validator) :
    validatorIsInList v l = true ↔ v.pubKey ∈ l.map Validator.pubKey := by
  induction l with
  | nil => simp [validatorIsInList]
  | cons w rest ih =>
    unfold validatorIsInList
    by_cases h : v.pubKey = w.pubKey
    · simp [h]
    · simp only [h, if_false, ih, List.map_cons, List.mem_cons, false_or]

theorem checkIndex_returns (ihgs : indexHashedGroupSelector) (sel : List Validator) :
    ∀ (k fuel p : Nat), p < ihgs.expandedEligibleList.length → k < fuel →
      FreeAt ihgs sel ((p + k) % ihgs.expandedEligibleList.length) →
      (∀ j, j < k → ¬ FreeAt ihgs sel ((p + j) % ihgs.expandedEligibleList.length)) →
      checkIndex ihgs fuel p sel = .returned ((p + k) % ihgs.expandedEligibleList.length) := by
  intro k
  induction k with
  | zero =>
    intro fuel p hp hf hfree _
    obtain ⟨f, rfl⟩ : ∃ f, fuel = f + 1 := ⟨fuel - 1, by omega⟩
    have hp0 : (p + 0) % ihgs.expandedEligibleList.length = p := by
      rw [Nat.add_zero, Nat.mod_eq_of_lt hp]
    rw [hp0] at hfree ⊢
    obtain ⟨v, hv, hin⟩ := hfree
    simp [checkIndex, hv, hin]
  | succ k ih =>
    intro fuel p hp hf hfree hbusy
    obtain ⟨f, rfl⟩ : ∃ f, fuel = f + 1 := ⟨fuel - 1, by omega⟩
    have hn : 0 < ihgs.expandedEligibleList.length := by omega
    have hv : ihgs.expandedEligibleList[p]? = some (ihgs.expandedEligibleList[p]) :=
      List.getElem?_eq_getElem hp
    have h0 := hbusy 0 (by omega)
    have hp0 : (p + 0) % ihgs.expandedEligibleList.length = p := by
      rw [Nat.add_zero, Nat.mod_eq_of_lt hp]
    rw [hp0] at h0
    have hin : validatorIsInList (ihgs.expandedEligibleList[p]) sel = true := by
      by_contra hc
      exact h0 ⟨_, hv, by simpa using hc⟩
    have hshift : ∀ j, ((p + 1) % ihgs.expandedEligibleList.length + j)
        % ihgs.expandedEligibleList.length = (p + (j + 1)) % ihgs.expandedEligibleList.length := by
      intro j
      rw [Nat.add_mod, Nat.mod_mod, ← Nat.add_mod]
      congr 1
      omega
    have hrec := ih f ((p + 1) % ihgs.expandedEligibleList.length) (Nat.mod_lt _ hn) (by omega)
      (by rw [hshift]; exact hfree)
      (by intro j hj; rw [hshift]; exact hbusy (j + 1) (by omega))
    rw [hshift] at hrec
    simp [checkIndex, hv, hin, hrec]

theorem checkIndex_diverges (ihgs : indexHashedGroupSelector) (sel : List Validator)
    (hall : ∀ v ∈ ihgs.expandedEligibleList, validatorIsInList v sel = true) :
    ∀ (fuel p : Nat), p < ihgs.expandedEligibleList.length →
      checkIndex ihgs fuel p sel = .outOfFuel := by
  intro fuel
  induction fuel with
  | zero => intro p _; rfl
  | succ f ih =>
    intro p hp
    have hv : ihgs.expandedEligibleList[p]? = some (ihgs.expandedEligibleList[p]) :=
      List.getElem?_eq_getElem hp
    have hin := hall _ (List.getElem_mem hp)
    simp [checkIndex, hv, hin, ih _ (Nat.mod_lt _ (by omega : 0 < ihgs.expandedEligibleList.length))]

theorem exists_first_free (ihgs : indexHashedGroupSelector) (sel : List Validator)
    (p c : Nat) (hp : p < ihgs.expandedEligibleList.length)
    (hc : c < ihgs.expandedEligibleList.length) (hfree : FreeAt ihgs sel c) :
    ∃ k, k < ihgs.expandedEligibleList.length ∧
      FreeAt ihgs sel ((p + k) % ihgs.expandedEligibleList.length) ∧
      ∀ j, j < k → ¬ FreeAt ihgs sel ((p + j) % ihgs.expandedEligibleList.length) := by
  classical
  have hreach : (p + (c + ihgs.expandedEligibleList.length - p) % ihgs.expandedEligibleList.length)
      % ihgs.expandedEligibleList.length = c := by
    rw [Nat.add_mod, Nat.mod_mod, ← Nat.add_mod]
    have : p + (c + ihgs.expandedEligibleList.length - p) = c + ihgs.expandedEligibleList.length := by
      omega
    rw [this, Nat.add_mod_right, Nat.mod_eq_of_lt hc]
  have hex : ∃ k, FreeAt ihgs sel ((p + k) % ihgs.expandedEligibleList.length) :=
    ⟨_, by rw [hreach]; exact hfree⟩
  refine ⟨Nat.find hex, ?_, Nat.find_spec hex, fun j hj => Nat.find_min hex hj⟩
  have hle : Nat.find hex ≤ (c + ihgs.expandedEligibleList.length - p)
      % ihgs.expandedEligibleList.length :=
    Nat.find_min' hex (by rw [hreach]; exact hfree)
  exact lt_of_le_of_lt hle (Nat.mod_lt _ (by omega))

theorem exists_free_of_lt_distinct (ihgs : indexHashedGroupSelector) (sel : List Validator)
    (hlt : sel.length < distinctKeys ihgs.expandedEligibleList) :
    ∃ c, c < ihgs.expandedEligibleList.length ∧ FreeAt ihgs sel c := by
  by_contra hno
  have hall : ∀ v ∈ ihgs.expandedEligibleList, v.pubKey ∈ sel.map Validator.pubKey := by
    intro v hv
    by_contra hnot
    obtain ⟨c, hc, hcv⟩ := List.getElem_of_mem hv
    refine hno ⟨c, hc, v, ?_, ?_⟩
    · rw [List.getElem?_eq_getElem hc, hcv]
    · cases hb : validatorIsInList v sel with
      | false => rfl
      | true => exact absurd ((validatorIsInList_iff v sel).1 hb) hnot
  have hsub : (ihgs.expandedEligibleList.map Validator.pubKey).dedup ⊆ sel.map Validator.pubKey := by
    intro key hkey
    rw [List.mem_dedup, List.mem_map] at hkey
    obtain ⟨v, hv, rfl⟩ := hkey
    exact hall v hv
  have hle := ((List.nodup_dedup _).subperm hsub).length_le
  rw [List.length_map] at hle
  unfold distinctKeys at hlt
  omega

theorem length_pos_of_distinctKeys_pos (l : List Validator) (h : 0 < distinctKeys l) :
    0 < l.length := by
  have hle := (List.dedup_sublist (l.map Validator.pubKey)).length_le
  rw [List.length_map] at hle
  unfold distinctKeys at h
  omega

theorem selectLoop_spec (fuel : Nat) (ihgs : indexHashedGroupSelector) (randomness : List Byte)
    (hfuel : ihgs.expandedEligibleList.length ≤ fuel) :
    ∀ (remaining startIdx : Nat) (tempList : List Validator),
      startIdx = tempList.length →
      tempList.length + remaining ≤ distinctKeys ihgs.expandedEligibleList →
      (tempList.map Validator.pubKey).Nodup →
      ∃ g, selectLoop fuel ihgs randomness remaining startIdx tempList = .returned g ∧
        g.length = tempList.length + remaining ∧
        (g.map Validator.pubKey).Nodup ∧
        g.take tempList.length = tempList ∧
        ∀ i, tempList.length ≤ i → i < g.length →
          ∃ k, FreeAt ihgs (g.take i)
                ((proposedIndexOf ihgs randomness i + k) % ihgs.expandedEligibleList.length) ∧
            (∀ j, j < k → ¬ FreeAt ihgs (g.take i)
                ((proposedIndexOf ihgs randomness i + j) % ihgs.expandedEligibleList.length)) ∧
            ihgs.expandedEligibleList[(proposedIndexOf ihgs randomness i + k)
                % ihgs.expandedEligibleList.length]? = g[i]? := by
  intro remaining
  induction remaining with
  | zero =>
    intro startIdx tempList _ _ hnd
    refine ⟨tempList, rfl, rfl, hnd, List.take_length _, ?_⟩
    intro i h1 h2
    omega
  | succ r ih =>
    intro startIdx tempList hidx hle hnd
    have hn : 0 < ihgs.expandedEligibleList.length :=
      length_pos_of_distinctKeys_pos _ (by omega)
    have hp : proposedIndexOf ihgs randomness startIdx < ihgs.expandedEligibleList.length :=
      Nat.mod_lt _ hn
    obtain ⟨c, hc, hcfree⟩ := exists_free_of_lt_distinct ihgs tempList (by omega)
    obtain ⟨k, hk, hkfree, hkmin⟩ := exists_first_free ihgs tempList _ c hp hc hcfree
    have hchk := checkIndex_returns ihgs tempList k fuel _ hp (by omega) hkfree hkmin
    obtain ⟨v, hv, hvin⟩ := hkfree
    have hvkey : v.pubKey ∉ tempList.map Validator.pubKey := by
      intro hmem
      rw [← validatorIsInList_iff, hvin] at hmem
      exact Bool.false_ne_true hmem
    have hnd1 : ((tempList ++ [v]).map Validator.pubKey).Nodup := by
      rw [List.map_append, List.map_singleton]
      exact List.Nodup.append hnd (List.nodup_singleton _) (by simpa using hvkey)
    obtain ⟨g, hg, hglen, hgnd, hgtake, hgspec⟩ :=
      ih (startIdx + 1) (tempList ++ [v]) (by simp [hidx])
        (by rw [List.length_append, List.length_singleton]; omega) hnd1
    rw [List.length_append, List.length_singleton] at hglen hgtake hgspec
    have hpre : g.take tempList.length = tempList := by
      have := congrArg (List.take tempList.length) hgtake
      rw [List.take_take, Nat.min_eq_left (Nat.le_succ _)] at this
      rw [this, List.take_left]
    have hgi : g[tempList.length]? = some v := by
      have h1 : (g.take (tempList.length + 1))[tempList.length]? = g[tempList.length]? := by
        rw [List.getElem?_take, if_pos (Nat.lt_succ_self _)]
      rw [← h1, hgtake, List.getElem?_append_right (le_refl _)]
      simp
    refine ⟨g, ?_, by omega, hgnd, hpre, ?_⟩
    · have hcli : computeListIndex ihgs startIdx randomness
          = .returned (proposedIndexOf ihgs randomness startIdx) := by
        unfold computeListIndex proposedIndexOf
        simp [Nat.pos_iff_ne_zero.1 hn]
      simp only [selectLoop, hcli, hchk, hv]
      exact hg
    · intro i hi1 hi2
      rcases Nat.eq_or_lt_of_le hi1 with heq | hlt
      · subst heq
        rw [hpre, hgi, ← hidx]
        exact ⟨k, ⟨v, hv, hvin⟩, hkmin, hv⟩
      · exact hgspec i (by omega) hi2

theorem putUint64BE_eq_bigEndian8 (i : Nat) : putUint64BE i = bigEndian8 i := by
  unfold putUint64BE bigEndian8
  simp only [List.range, List.range.loop, List.reverse_cons, List.reverse_nil, List.nil_append,
    List.cons_append, List.map_cons, List.map_nil]
  simp only [Fin.ofNat, List.cons.injEq, Fin.mk.injEq, and_true]
  norm_num
  omega

theorem setBytes_aux (bs : List Byte) : ∀ acc : Nat,
    bs.foldl (fun a b => a * 256 + b.val) acc = acc * 256 ^ bs.length + bigEndianNat bs := by
  induction bs with
  | nil => intro acc; simp [bigEndianNat]
  | cons b rest ih =>
    intro acc
    rw [List.foldl_cons, ih, bigEndianNat, List.length_cons, pow_succ]
    ring

theorem setBytes_eq_bigEndianNat (bs : List Byte) : setBytes bs = bigEndianNat bs := by
  unfold setBytes
  rw [setBytes_aux]
  simp

theorem freeAt_iff_keyUnused (ihgs : indexHashedGroupSelector) (sel : List Validator) (c : Nat) :
    FreeAt ihgs sel c ↔ keyUnused ihgs.expandedEligibleList sel c = true := by
  unfold FreeAt keyUnused
  cases hv : ihgs.expandedEligibleList[c]? with
  | none => simp
  | some v =>
    have hiff : validatorIsInList v sel = false ↔ v.pubKey ∉ sel.map Validator.pubKey := by
      rw [← validatorIsInList_iff]; simp
    simp only [Option.some.injEq, exists_eq_left', hiff, List.all_eq_true, decide_eq_true_eq,
      List.mem_map, not_exists, not_and]

theorem checkIndex_mono (ihgs : indexHashedGroupSelector) (sel : List Validator) :
    ∀ (fuel p c : Nat), checkIndex ihgs fuel p sel = .returned c →
      ∀ fuel2, fuel ≤ fuel2 → checkIndex ihgs fuel2 p sel = .returned c := by
  intro fuel
  induction fuel with
  | zero => intro p c h; simp [checkIndex] at h
  | succ f ih =>
    intro p c h fuel2 hle
    obtain ⟨f2, rfl⟩ : ∃ f2, fuel2 = f2 + 1 := ⟨fuel2 - 1, by omega⟩
    unfold checkIndex at h ⊢
    cases hv : ihgs.expandedEligibleList[p]? with
    | none => rw [hv] at h; simp at h
    | some v =>
      rw [hv] at h
      simp only at h ⊢
      by_cases hin : validatorIsInList v sel = true
      · rw [if_pos hin] at h ⊢
        exact ih _ _ h f2 (by omega)
      · rw [if_neg hin] at h ⊢
        exact h

theorem selectLoop_mono (fuel fuel2 : Nat) (hle : fuel ≤ fuel2) (ihgs : indexHashedGroupSelector)
    (randomness : List Byte) :
    ∀ (remaining startIdx : Nat) (tempList g : List Validator),
      selectLoop fuel ihgs randomness remaining startIdx tempList = .returned g →
      selectLoop fuel2 ihgs randomness remaining startIdx tempList = .returned g := by
  intro remaining
  induction remaining with
  | zero => intro startIdx tempList g h; simpa [selectLoop] using h
  | succ r ih =>
    intro startIdx tempList g h
    unfold selectLoop at h ⊢
    cases hp : computeListIndex ihgs startIdx randomness with
    | panicked => rw [hp] at h; simp at h
    | outOfFuel => rw [hp] at h; simp at h
    | returned p =>
      rw [hp] at h
      simp only at h ⊢
      cases hc : checkIndex ihgs fuel p tempList with
      | panicked => rw [hc] at h; simp at h
      | outOfFuel => rw [hc] at h; simp at h
      | returned c =>
        rw [hc] at h
        rw [checkIndex_mono ihgs tempList fuel p c hc fuel2 hle]
        simp only at h ⊢
        cases hv : ihgs.expandedEligibleList[c]? with
        | none => rw [hv] at h; simp at h
        | some v =>
          rw [hv] at h
          simp only at h ⊢
          exact ih _ _ _ h

theorem compute_mono (fuel fuel2 : Nat) (hle : fuel ≤ fuel2) (ihgs : indexHashedGroupSelector)
    (randomness : Option (List Byte)) (r : ComputeResult)
    (h : ComputeValidatorsGroup fuel ihgs randomness = .returned r) :
    ComputeValidatorsGroup fuel2 ihgs randomness = .returned r := by
  unfold ComputeValidatorsGroup at h ⊢
  by_cases hsz : (ihgs.eligibleList.length : Int) < ihgs.consensusSize
  · rw [if_pos hsz] at h ⊢; exact h
  · rw [if_neg hsz] at h ⊢
    cases randomness with
    | none => exact h
    | some R =>
      simp only at h ⊢
      cases hl : selectLoop fuel { ihgs with expandedEligibleList := expandEligibleList ihgs } R
          ihgs.consensusSize.toNat 0 [] with
      | panicked => rw [hl] at h; simp at h
      | outOfFuel => rw [hl] at h; simp at h
      | returned g =>
        rw [hl] at h
        rw [selectLoop_mono fuel fuel2 hle _ R _ _ _ _ hl]
        exact h

/-- With at least `consensusSize` distinct keys loaded and enough fuel, the call returns a group
    built by the probing rule. -/
theorem compute_returns (fuel : Nat) (ihgs : indexHashedGroupSelector) (R : List Byte)
    (hD : ihgs.consensusSize ≤ (distinctKeys ihgs.eligibleList : Int))
    (hfuel : ihgs.eligibleList.length ≤ fuel) :
    ∃ g, ComputeValidatorsGroup fuel ihgs (some R)
        = .returned ⟨{ ihgs with expandedEligibleList := ihgs.eligibleList }, some g, none⟩ ∧
      g.length = ihgs.consensusSize.toNat ∧
      (g.map Validator.pubKey).Nodup ∧
      ∀ i, i < g.length →
        ∃ k, keyUnused ihgs.eligibleList (g.take i)
              ((setBytes (ihgs.hasher (putUint64BE i ++ R)) % ihgs.eligibleList.length + k)
                % ihgs.eligibleList.length) = true ∧
          (∀ j, j < k → keyUnused ihgs.eligibleList (g.take i)
              ((setBytes (ihgs.hasher (putUint64BE i ++ R)) % ihgs.eligibleList.length + j)
                % ihgs.eligibleList.length) = false) ∧
          ihgs.eligibleList[(setBytes (ihgs.hasher (putUint64BE i ++ R))
              % ihgs.eligibleList.length + k) % ihgs.eligibleList.length]? = g[i]? := by
  have hlen : ¬ ((ihgs.eligibleList.length : Int) < ihgs.consensusSize) := by
    have h1 := (List.dedup_sublist (ihgs.eligibleList.map Validator.pubKey)).length_le
    rw [List.length_map] at h1
    unfold distinctKeys at hD
    omega
  obtain ⟨g, hg, hglen, hgnd, _, hgspec⟩ :=
    selectLoop_spec fuel { ihgs with expandedEligibleList := expandEligibleList ihgs } R hfuel
      ihgs.consensusSize.toNat 0 [] rfl
      (by simp only [List.length_nil, expandEligibleList]; omega) (by simp)
  refine ⟨g, ?_, by simpa using hglen, hgnd, ?_⟩
  · unfold ComputeValidatorsGroup
    rw [if_neg hlen]
    simp only [hg]
    rfl
  · intro i hi
    obtain ⟨k, hk, hkmin, hkv⟩ := hgspec i (Nat.zero_le _) hi
    refine ⟨k, (freeAt_iff_keyUnused _ _ _).1 hk, ?_, hkv⟩
    intro j hj
    have := hkmin j hj
    rw [freeAt_iff_keyUnused] at this
    exact Bool.eq_false_iff.2 this

/-! ### C1 -/

/-- C1 (as stated, refuted): the eligible list `[valA, valA2]` has two entries and the consensus
    size is 2, so `len(E) >= S >= 1` holds and the randomness is non-nil, yet the call never
    returns: whatever the fuel, the probing loop of `checkIndex` is still running. -/
theorem C1_duplicate_keys_never_return :
    ((dupSelector.consensusSize : Int) ≤ dupSelector.eligibleList.length ∧
      1 ≤ dupSelector.consensusSize) ∧
    ∀ fuel, ComputeValidatorsGroup fuel dupSelector (some [1]) = .outOfFuel := by
  refine ⟨by decide, ?_⟩
  intro fuel
  obtain ⟨S, hS⟩ : ∃ S : indexHashedGroupSelector,
      S = ⟨stubHasher, [valA, valA2], [valA, valA2], 2⟩ := ⟨_, rfl⟩
  have hloop : selectLoop fuel S [1] 2 0 [] = .outOfFuel := by
    cases fuel with
    | zero => subst hS; rfl
    | succ f =>
      have hdiv : checkIndex S (f + 1) 1 [valA2] = .outOfFuel :=
        checkIndex_diverges S [valA2] (by subst hS; decide) (f + 1) 1 (by subst hS; decide)
      have hp0 : computeListIndex S 0 [1] = .returned 1 := by subst hS; decide
      have hp1 : computeListIndex S 1 [1] = .returned 1 := by subst hS; decide
      have hget : S.expandedEligibleList[1]? = some valA2 := by subst hS; decide
      rw [selectLoop, hp0]
      simp only [checkIndex, hget, validatorIsInList, Bool.false_eq_true, if_false,
        List.nil_append, Nat.zero_add]
      rw [selectLoop, hp1]
      simp only [hdiv]
  have hcall : ComputeValidatorsGroup fuel dupSelector (some [1])
      = match selectLoop fuel S [1] 2 0 [] with
        | .panicked => .panicked
        | .outOfFuel => .outOfFuel
        | .returned tempList => .returned ⟨S, some tempList, none⟩ := by
    subst hS; rfl
  rw [hcall, hloop]

/-- C1 (amended): when the loaded eligible list holds at least `S` distinct public keys, with
    `S >= 1` the consensus size, `ComputeValidatorsGroup` on a non-nil randomness returns (for
    every fuel of at least `len(E)` probing rounds) no error and a group of exactly `S`
    validators whose public keys are pairwise different. -/
theorem C1_group_size_and_distinct_keys (fuel : Nat) (ihgs : indexHashedGroupSelector)
    (R : List Byte) (hS : 1 ≤ ihgs.consensusSize)
    (hD : ihgs.consensusSize ≤ (distinctKeys ihgs.eligibleList : Int))
    (hfuel : ihgs.eligibleList.length ≤ fuel) :
    ∃ r g, ComputeValidatorsGroup fuel ihgs (some R) = .returned r ∧ r.err = none ∧
      r.validatorsGroup = some g ∧ (g.length : Int) = ihgs.consensusSize ∧
      (g.map Validator.pubKey).Nodup := by
  obtain ⟨g, hg, hlen, hnd, _⟩ := compute_returns fuel ihgs R hD hfuel
  exact ⟨_, g, hg, rfl, rfl, by rw [hlen]; omega, hnd⟩

/-- C1 on the sample selector: three distinct keys, groups of two, randomness `[7]`. -/
theorem C1_group_size_and_distinct_keys_witness :
    ∃ r g, ComputeValidatorsGroup 3 sampleSelector (some [7]) = .returned r ∧ r.err = none ∧
      r.validatorsGroup = some g ∧ (g.length : Int) = sampleSelector.consensusSize ∧
      (g.map Validator.pubKey).Nodup :=
  C1_group_size_and_distinct_keys 3 sampleSelector [7] (by decide) (by decide) (by decide)

/-! ### C2 -/

/-- C2: for an eligible list `E` of `n >= consensusSize` validators with pairwise distinct public
    keys and a non-nil randomness `R`, the call returns a group of `consensusSize` validators
    whose element `i` is `E[c_i]`, with `p_i = bigEndianNat (hasher (bigEndian8 i ++ R)) mod n`
    and `c_i` the first index of the cyclic sequence `p_i, (p_i+1) mod n, ...` whose key is
    unused by elements `0..i-1`; the leader is `E[p_0]`. -/
theorem C2_group_follows_probing_rule (fuel : Nat) (ihgs : indexHashedGroupSelector)
    (R : List Byte) (hnodup : (ihgs.eligibleList.map Validator.pubKey).Nodup)
    (hlen : ihgs.consensusSize ≤ (ihgs.eligibleList.length : Int))
    (hfuel : ihgs.eligibleList.length ≤ fuel) :
    ∃ r g, ComputeValidatorsGroup fuel ihgs (some R) = .returned r ∧ r.err = none ∧
      r.validatorsGroup = some g ∧ g.length = ihgs.consensusSize.toNat ∧
      (∀ i, i < g.length →
        ∃ c, IsFirstUnusedInCycle ihgs.eligibleList (g.take i)
              (specProposed ihgs.hasher R ihgs.eligibleList.length i) c ∧
          ihgs.eligibleList[c]? = g[i]?) ∧
      (0 < g.length →
        g[0]? = ihgs.eligibleList[specProposed ihgs.hasher R ihgs.eligibleList.length 0]?) := by
  have hD : ihgs.consensusSize ≤ (distinctKeys ihgs.eligibleList : Int) := by
    unfold distinctKeys
    rw [hnodup.dedup, List.length_map]
    exact hlen
  obtain ⟨g, hg, hglen, _, hspec⟩ := compute_returns fuel ihgs R hD hfuel
  have hprop : ∀ i, setBytes (ihgs.hasher (putUint64BE i ++ R)) % ihgs.eligibleList.length
      = specProposed ihgs.hasher R ihgs.eligibleList.length i := by
    intro i
    unfold specProposed
    rw [setBytes_eq_bigEndianNat, putUint64BE_eq_bigEndian8]
  refine ⟨_, g, hg, rfl, rfl, hglen, ?_, ?_⟩
  · intro i hi
    obtain ⟨k, hk, hkmin, hkv⟩ := hspec i hi
    rw [hprop] at hk hkv
    refine ⟨_, ⟨k, rfl, hk, ?_⟩, hkv⟩
    intro j hj
    have := hkmin j hj
    rw [hprop] at this
    exact this
  · intro h0
    obtain ⟨k, hk, hkmin, hkv⟩ := hspec 0 h0
    rw [hprop] at hk hkv hkmin
    have hn : 0 < ihgs.eligibleList.length := by
      by_contra hc
      have hz : ihgs.eligibleList.length = 0 := by omega
      rw [hglen] at h0
      omega
    have hp : specProposed ihgs.hasher R ihgs.eligibleList.length 0 < ihgs.eligibleList.length :=
      Nat.mod_lt _ hn
    have hk0 : k = 0 := by
      by_contra hne
      have hbusy := hkmin 0 (Nat.pos_of_ne_zero hne)
      rw [Nat.add_zero, Nat.mod_eq_of_lt hp] at hbusy
      simp [keyUnused, List.getElem?_eq_getElem hp] at hbusy
    subst hk0
    rw [Nat.add_zero, Nat.mod_eq_of_lt hp] at hkv
    exact hkv.symm

/-- C2 on the sample selector with randomness `[7]`. -/
theorem C2_group_follows_probing_rule_witness :
    ∃ r g, ComputeValidatorsGroup 3 sampleSelector (some [7]) = .returned r ∧ r.err = none ∧
      r.validatorsGroup = some g ∧ g.length = sampleSelector.consensusSize.toNat ∧
      (∀ i, i < g.length →
        ∃ c, IsFirstUnusedInCycle sampleSelector.eligibleList (g.take i)
              (specProposed sampleSelector.hasher [7] sampleSelector.eligibleList.length i) c ∧
          sampleSelector.eligibleList[c]? = g[i]?) ∧
      (0 < g.length →
        g[0]? = sampleSelector.eligibleList[
          specProposed sampleSelector.hasher [7] sampleSelector.eligibleList.length 0]?) :=
  C2_group_follows_probing_rule 3 sampleSelector [7] (by decide) (by decide) (by decide)

theorem compute_preserves (fuel : Nat) (ihgs : indexHashedGroupSelector)
    (randomness : Option (List Byte)) (r : ComputeResult)
    (h : ComputeValidatorsGroup fuel ihgs randomness = .returned r) :
    r.selector.hasher = ihgs.hasher ∧ r.selector.eligibleList = ihgs.eligibleList ∧
      r.selector.consensusSize = ihgs.consensusSize ∧
      (r.err = none → r.selector.expandedEligibleList = ihgs.eligibleList) ∧
      (r.err = none ↔
        ¬ ((ihgs.eligibleList.length : Int) < ihgs.consensusSize) ∧ randomness ≠ none) ∧
      (r.err ≠ none → r.validatorsGroup = none) := by
  unfold ComputeValidatorsGroup at h
  by_cases hsz : (ihgs.eligibleList.length : Int) < ihgs.consensusSize
  · rw [if_pos hsz] at h
    cases h
    simp [hsz]
  · rw [if_neg hsz] at h
    cases randomness with
    | none =>
      cases h
      simp
    | some R =>
      simp only at h
      cases hl : selectLoop fuel { ihgs with expandedEligibleList := expandEligibleList ihgs } R
          ihgs.consensusSize.toNat 0 [] with
      | panicked => rw [hl] at h; simp at h
      | outOfFuel => rw [hl] at h; simp at h
      | returned g =>
        rw [hl] at h
        cases h
        simp [hsz, expandEligibleList]

theorem observed_congr (fuel : Nat) (s1 s2 : indexHashedGroupSelector)
    (randomness : Option (List Byte)) (hh : s1.hasher = s2.hasher)
    (he : s1.eligibleList = s2.eligibleList) (hc : s1.consensusSize = s2.consensusSize) :
    observed (ComputeValidatorsGroup fuel s1 randomness)
      = observed (ComputeValidatorsGroup fuel s2 randomness) := by
  obtain ⟨h1, e1, x1, c1⟩ := s1
  obtain ⟨h2, e2, x2, c2⟩ := s2
  simp only at hh he hc
  subst hh he hc
  unfold ComputeValidatorsGroup
  by_cases hsz : (e1.length : Int) < c1
  · simp only [if_pos hsz]; rfl
  · simp only [if_neg hsz]
    cases randomness with
    | none => rfl
    | some R =>
      simp only [expandEligibleList]

theorem runCalls_preserves (fuel : Nat) (rs : List (Option (List Byte))) :
    ∀ (ihgs s : indexHashedGroupSelector), runCalls fuel ihgs rs = .returned s →
      s.hasher = ihgs.hasher ∧ s.eligibleList = ihgs.eligibleList ∧
        s.consensusSize = ihgs.consensusSize := by
  induction rs with
  | nil =>
    intro ihgs s h
    simp only [runCalls, Outcome.returned.injEq] at h
    subst h
    exact ⟨rfl, rfl, rfl⟩
  | cons r rest ih =>
    intro ihgs s h
    unfold runCalls at h
    cases hc : ComputeValidatorsGroup fuel ihgs r with
    | panicked => rw [hc] at h; simp at h
    | outOfFuel => rw [hc] at h; simp at h
    | returned res =>
      rw [hc] at h
      obtain ⟨a, b, c⟩ := ih _ _ h
      obtain ⟨a1, b1, c1, _⟩ := compute_preserves fuel ihgs r res hc
      exact ⟨a.trans a1, b.trans b1, c.trans c1⟩

/-! ### C3 -/

/-- C3: `ComputeValidatorsGroup` is deterministic and stateless across calls. After any run of
    calls with arbitrary randomness values, a call with randomness `R` hands back the same
    `(group, err)` as on the selector before that run; a returned result does not depend on the
    fuel; the list rebuilt by `expandEligibleList` is the loaded eligible list, and it is what
    the receiver holds after every call that passed the two guards. -/
theorem C3_deterministic_and_stateless (fuel fuel2 : Nat) (ihgs s : indexHashedGroupSelector)
    (between : List (Option (List Byte))) (R : Option (List Byte))
    (hrun : runCalls fuel2 ihgs between = .returned s) :
    observed (ComputeValidatorsGroup fuel s R) = observed (ComputeValidatorsGroup fuel ihgs R) ∧
      (∀ r fuel3, ComputeValidatorsGroup fuel ihgs R = .returned r → fuel ≤ fuel3 →
        ComputeValidatorsGroup fuel3 ihgs R = .returned r) ∧
      expandEligibleList s = ihgs.eligibleList ∧
      (∀ r, ComputeValidatorsGroup fuel s R = .returned r → r.err = none →
        r.selector.expandedEligibleList = ihgs.eligibleList) := by
  obtain ⟨hh, he, hc⟩ := runCalls_preserves fuel2 between ihgs s hrun
  refine ⟨observed_congr fuel s ihgs R hh he hc, ?_, he, ?_⟩
  · intro r fuel3 hr hle
    exact compute_mono fuel fuel3 hle ihgs R r hr
  · intro r hr herr
    rw [← he]
    exact (compute_preserves fuel s R r hr).2.2.2.1 herr

/-- C3 on the sample selector: three calls in between, one of them with nil randomness. -/
theorem C3_deterministic_and_stateless_witness :
    observed (ComputeValidatorsGroup 3
        ⟨stubHasher, [valA, valB, valC], [valA, valB, valC], 2⟩ (some [7]))
      = observed (ComputeValidatorsGroup 3 sampleSelector (some [7])) :=
  (C3_deterministic_and_stateless 3 3 sampleSelector
    ⟨stubHasher, [valA, valB, valC], [valA, valB, valC], 2⟩
    [some [8], none, some []] (some [7]) rfl).1

/-! ### C4 -/

/-- C4: `ComputeValidatorsGroup` returns an error iff the eligible list is shorter than the
    consensus size or the randomness is nil: `ErrSmallEligibleListSize` whenever the list is too
    short (the randomness being nil or not), `ErrNilRandomness` when only the randomness is nil,
    and on error the returned group is nil. -/
theorem C4_error_iff_guard_fails (fuel : Nat) (ihgs : indexHashedGroupSelector)
    (R : Option (List Byte)) :
    ((ihgs.eligibleList.length : Int) < ihgs.consensusSize →
        ComputeValidatorsGroup fuel ihgs R
          = .returned ⟨ihgs, none, some .ErrSmallEligibleListSize⟩) ∧
      (¬ ((ihgs.eligibleList.length : Int) < ihgs.consensusSize) → R = none →
        ComputeValidatorsGroup fuel ihgs R = .returned ⟨ihgs, none, some .ErrNilRandomness⟩) ∧
      (∀ r, ComputeValidatorsGroup fuel ihgs R = .returned r →
        (r.err ≠ none ↔ ((ihgs.eligibleList.length : Int) < ihgs.consensusSize ∨ R = none)) ∧
        (r.err ≠ none → r.validatorsGroup = none)) := by
  refine ⟨?_, ?_, ?_⟩
  · intro hsz
    unfold ComputeValidatorsGroup
    rw [if_pos hsz]
  · intro hsz hR
    subst hR
    unfold ComputeValidatorsGroup
    rw [if_neg hsz]
  · intro r hr
    obtain ⟨_, _, _, _, hiff, hnil⟩ := compute_preserves fuel ihgs R r hr
    refine ⟨?_, hnil⟩
    rw [Ne, hiff]
    tauto

/-! ### C5 -/

/-- C5 (as stated, refuted): on three eligible validators, consensus size 2 and the empty,
    non-nil randomness, the call returns a group and no error. -/
theorem C5_empty_randomness_accepted :
    ¬ ((sampleSelector.eligibleList.length : Int) < sampleSelector.consensusSize) ∧
    ∃ r, ComputeValidatorsGroup 3 sampleSelector (some []) = .returned r ∧ r.err = none ∧
      r.validatorsGroup = some [valA, valB] :=
  ⟨by decide, ⟨⟨stubHasher, [valA, valB, valC], [valA, valB, valC], 2⟩, some [valA, valB], none⟩,
    rfl, rfl, rfl⟩

/-- C5 (amended): `ComputeValidatorsGroup` requires a non-nil randomness. With an eligible list
    of at least `consensusSize` validators, nil randomness fails with `ErrNilRandomness`, while
    the empty non-nil randomness never yields an error: whatever is returned is a group, and a
    group of `consensusSize` validators is returned when the list holds that many distinct
    keys. -/
theorem C5_only_nil_randomness_rejected (fuel : Nat) (ihgs : indexHashedGroupSelector)
    (hlen : ¬ ((ihgs.eligibleList.length : Int) < ihgs.consensusSize)) :
    ComputeValidatorsGroup fuel ihgs none = .returned ⟨ihgs, none, some .ErrNilRandomness⟩ ∧
      (∀ r, ComputeValidatorsGroup fuel ihgs (some []) = .returned r →
        r.err = none ∧ r.validatorsGroup ≠ none) ∧
      (ihgs.consensusSize ≤ (distinctKeys ihgs.eligibleList : Int) →
        ihgs.eligibleList.length ≤ fuel →
        ∃ r g, ComputeValidatorsGroup fuel ihgs (some []) = .returned r ∧ r.err = none ∧
          r.validatorsGroup = some g ∧ g.length = ihgs.consensusSize.toNat) := by
  refine ⟨?_, ?_, ?_⟩
  · unfold ComputeValidatorsGroup
    rw [if_neg hlen]
  · intro r hr
    have herr : r.err = none :=
      (compute_preserves fuel ihgs (some []) r hr).2.2.2.2.1.2 ⟨hlen, by simp⟩
    refine ⟨herr, ?_⟩
    unfold ComputeValidatorsGroup at hr
    rw [if_neg hlen] at hr
    simp only at hr
    cases hl : selectLoop fuel { ihgs with expandedEligibleList := expandEligibleList ihgs } []
        ihgs.consensusSize.toNat 0 [] with
    | panicked => rw [hl] at hr; simp at hr
    | outOfFuel => rw [hl] at hr; simp at hr
    | returned g =>
      rw [hl] at hr
      cases hr
      simp
  · intro hD hfuel
    obtain ⟨g, hg, hglen, _, _⟩ := compute_returns fuel ihgs [] hD hfuel
    exact ⟨_, g, hg, rfl, rfl, hglen⟩

/-- C5 on the sample selector: nil randomness is rejected. -/
theorem C5_only_nil_randomness_rejected_witness :
    ComputeValidatorsGroup 3 sampleSelector none
      = .returned ⟨sampleSelector, none, some .ErrNilRandomness⟩ :=
  (C5_only_nil_randomness_rejected 3 sampleSelector (by decide)).1

/-! ### C6 -/

theorem constructed_size_pos (ihgs : indexHashedGroupSelector) (h : Constructed ihgs) :
    1 ≤ ihgs.consensusSize := by
  induction h with
  | create consensusSize hasher ihgs hnew =>
    unfold NewIndexHashedGroupSelector at hnew
    cases hasher with
    | none => simp at hnew
    | some hs =>
      simp only [SetConsensusSize] at hnew
      by_cases hlt : consensusSize < 1
      · simp [hlt] at hnew
      · simp only [hlt, if_false, Except.ok.injEq] at hnew
        subst hnew
        simp only
        omega
  | load ihgs l _ ih =>
    cases l with
    | none => exact ih
    | some l => exact ih
  | setSize ihgs consensusSize _ ih =>
    unfold SetConsensusSize
    by_cases hlt : consensusSize < 1
    · simp only [hlt, if_true]; exact ih
    · simp only [hlt, if_false]; omega
  | compute fuel ihgs randomness r _ hr ih =>
    rw [(compute_preserves fuel ihgs randomness r hr).2.2.1]
    exact ih

/-- C6: every constructed selector has `consensusSize >= 1`; `NewIndexHashedGroupSelector` with
    a non-nil hasher and `SetConsensusSize` fail with `ErrInvalidConsensusSize` exactly when the
    given size is below 1 (and otherwise succeed); a failed `SetConsensusSize` leaves the receiver
    as it was and a successful one makes `ConsensusSize()` return the given size. -/
theorem C6_consensus_size_invariant (ihgs : indexHashedGroupSelector) (hc : Constructed ihgs)
    (size : Int) (hasher : Hasher) :
    1 ≤ ConsensusSize ihgs ∧
      (NewIndexHashedGroupSelector size (some hasher) = .error .ErrInvalidConsensusSize
        ↔ size < 1) ∧
      (¬ size < 1 → ∃ s, NewIndexHashedGroupSelector size (some hasher) = .ok s ∧
        ConsensusSize s = size) ∧
      ((SetConsensusSize ihgs size).2 = some .ErrInvalidConsensusSize ↔ size < 1) ∧
      (size < 1 → SetConsensusSize ihgs size = (ihgs, some .ErrInvalidConsensusSize)) ∧
      (¬ size < 1 → (SetConsensusSize ihgs size).2 = none ∧
        ConsensusSize (SetConsensusSize ihgs size).1 = size) := by
  refine ⟨constructed_size_pos ihgs hc, ?_, ?_, ?_, ?_, ?_⟩
  · by_cases hlt : size < 1 <;> simp [NewIndexHashedGroupSelector, SetConsensusSize, hlt]
  · intro hlt
    simp [NewIndexHashedGroupSelector, SetConsensusSize, hlt, ConsensusSize]
  · by_cases hlt : size < 1 <;> simp [SetConsensusSize, hlt]
  · intro hlt
    simp [SetConsensusSize, hlt]
  · intro hlt
    simp [SetConsensusSize, hlt, ConsensusSize]

/-- C6 on a selector built with size 3 on which `SetConsensusSize(0)` failed. -/
theorem C6_consensus_size_invariant_witness :
    1 ≤ ConsensusSize (SetConsensusSize ⟨stubHasher, [], [], 3⟩ 0).1 :=
  (C6_consensus_size_invariant (SetConsensusSize ⟨stubHasher, [], [], 3⟩ 0).1
    (Constructed.setSize _ 0 (Constructed.create 3 (some stubHasher) _ rfl)) 0 stubHasher).1

/-! ## Theorems: EndRound subround -/

theorem packByte_testBit (f : Nat → Bool) (t : Nat) (ht : t < 8) :
    (packByte f).val.testBit t = f t := by
  unfold packByte
  simp only [Fin.ofNat]
  have key : ∀ b0 b1 b2 b3 b4 b5 b6 b7 : Bool,
      (Nat.testBit ((b0.toNat + 2 * b1.toNat + 4 * b2.toNat + 8 * b3.toNat + 16 * b4.toNat
        + 32 * b5.toNat + 64 * b6.toNat + 128 * b7.toNat) % (255 + 1)) 0 = b0 ∧
      Nat.testBit ((b0.toNat + 2 * b1.toNat + 4 * b2.toNat + 8 * b3.toNat + 16 * b4.toNat
        + 32 * b5.toNat + 64 * b6.toNat + 128 * b7.toNat) % (255 + 1)) 1 = b1 ∧
      Nat.testBit ((b0.toNat + 2 * b1.toNat + 4 * b2.toNat + 8 * b3.toNat + 16 * b4.toNat
        + 32 * b5.toNat + 64 * b6.toNat + 128 * b7.toNat) % (255 + 1)) 2 = b2 ∧
      Nat.testBit ((b0.toNat + 2 * b1.toNat + 4 * b2.toNat + 8 * b3.toNat + 16 * b4.toNat
        + 32 * b5.toNat + 64 * b6.toNat + 128 * b7.toNat) % (255 + 1)) 3 = b3) ∧
      (Nat.testBit ((b0.toNat + 2 * b1.toNat + 4 * b2.toNat + 8 * b3.toNat + 16 * b4.toNat
        + 32 * b5.toNat + 64 * b6.toNat + 128 * b7.toNat) % (255 + 1)) 4 = b4 ∧
      Nat.testBit ((b0.toNat + 2 * b1.toNat + 4 * b2.toNat + 8 * b3.toNat + 16 * b4.toNat
        + 32 * b5.toNat + 64 * b6.toNat + 128 * b7.toNat) % (255 + 1)) 5 = b5 ∧
      Nat.testBit ((b0.toNat + 2 * b1.toNat + 4 * b2.toNat + 8 * b3.toNat + 16 * b4.toNat
        + 32 * b5.toNat + 64 * b6.toNat + 128 * b7.toNat) % (255 + 1)) 6 = b6 ∧
      Nat.testBit ((b0.toNat + 2 * b1.toNat + 4 * b2.toNat + 8 * b3.toNat + 16 * b4.toNat
        + 32 * b5.toNat + 64 * b6.toNat + 128 * b7.toNat) % (255 + 1)) 7 = b7) := by
    decide
  obtain ⟨⟨h0, h1, h2, h3⟩, h4, h5, h6, h7⟩ := key (f 0) (f 1) (f 2) (f 3) (f 4) (f 5) (f 6) (f 7)
  interval_cases t
  · exact h0
  · exact h1
  · exact h2
  · exact h3
  · exact h4
  · exact h5
  · exact h6
  · exact h7

theorem indexRequired_eq_testBit (b : Byte) (i : Nat) :
    indexRequired b i = b.val.testBit (i % 8) := by
  unfold indexRequired
  have hk : i % 8 % 2 ^ 16 = i % 8 := Nat.mod_eq_of_lt (by omega)
  have hpow : (1 <<< (i % 8)) % 256 = 2 ^ (i % 8) := by
    rw [Nat.one_shiftLeft]
    apply Nat.mod_eq_of_lt
    have h8 : i % 8 < 8 := Nat.mod_lt _ (by norm_num)
    calc 2 ^ (i % 8) < 2 ^ 8 := Nat.pow_lt_pow_right (by norm_num) h8
      _ = 256 := by norm_num
  rw [hk, hpow, Nat.and_two_pow]
  cases h : b.val.testBit (i % 8) <;> simp

theorem bitSet_GenerateBitmap (cns : ConsensusState) (subroundId : SubroundId) (i : Nat) :
    bitSet (GenerateBitmap cns subroundId) i = memberJobDone cns subroundId i := by
  unfold bitSet GenerateBitmap
  by_cases hi : i / 8 < cns.consensusGroup.length / 8 + 1
  · rw [List.getElem?_map, List.getElem?_range hi]
    simp only [Option.map_some']
    rw [packByte_testBit _ _ (Nat.mod_lt _ (by norm_num)), Nat.div_add_mod]
  · rw [List.getElem?_map, List.getElem?_eq_none (by simpa using hi)]
    simp only [Option.map_none']
    have hge : cns.consensusGroup.length ≤ i := by omega
    unfold memberJobDone
    rw [List.getElem?_eq_none hge]

theorem checkSignaturesLoop_calls (env : Collaborators) (cns : ConsensusState)
    (bitmap : List Byte) :
    ∀ (remaining i : Nat) (calls : List Call) (err : Option SposError) (calls2 : List Call),
      checkSignaturesLoop env cns bitmap remaining i calls = .returned (err, calls2) →
      ∃ extra, calls2 = calls ++ extra ∧ ∀ c ∈ extra, c.isShareCheck = true := by
  intro remaining
  induction remaining with
  | zero =>
    intro i calls err calls2 h
    simp only [checkSignaturesLoop, Outcome.returned.injEq, Prod.mk.injEq] at h
    exact ⟨[], by simp [h.2], by simp⟩
  | succ r ih =>
    intro i calls err calls2 h
    unfold checkSignaturesLoop at h
    cases hb : bitmap[i / 8]? with
    | none => rw [hb] at h; simp at h
    | some b =>
      rw [hb] at h
      simp only at h
      by_cases hreq : indexRequired b i = true
      · simp only [hreq, Bool.not_true, Bool.false_eq_true, if_false] at h
        cases hg : cns.consensusGroup[i]? with
        | none => rw [hg] at h; simp at h
        | some pubKey =>
          rw [hg] at h
          simp only at h
          cases hj : JobDone cns pubKey .SrSignature with
          | error e =>
            rw [hj] at h
            simp only [Outcome.returned.injEq, Prod.mk.injEq] at h
            exact ⟨[], by simp [h.2], by simp⟩
          | ok done =>
            rw [hj] at h
            simp only at h
            cases done with
            | false =>
              simp only [Bool.not_false, if_true, Outcome.returned.injEq, Prod.mk.injEq] at h
              exact ⟨[], by simp [h.2], by simp⟩
            | true =>
              simp only [Bool.not_true, Bool.false_eq_true, if_false] at h
              cases hs : env.SignatureShare (i % 2 ^ 16) with
              | error e =>
                rw [hs] at h
                simp only [Outcome.returned.injEq, Prod.mk.injEq] at h
                exact ⟨[Call.SignatureShare (i % 2 ^ 16)], h.2.symm, by simp [Call.isShareCheck]⟩
              | ok signature =>
                rw [hs] at h
                simp only at h
                cases hv : env.VerifySignatureShare (i % 2 ^ 16) signature cns.Data bitmap with
                | some e =>
                  rw [hv] at h
                  simp only [Outcome.returned.injEq, Prod.mk.injEq] at h
                  refine ⟨[Call.SignatureShare (i % 2 ^ 16),
                    Call.VerifySignatureShare (i % 2 ^ 16) signature cns.Data bitmap], ?_, ?_⟩
                  · rw [← h.2]; simp
                  · simp [Call.isShareCheck]
                | none =>
                  rw [hv] at h
                  simp only at h
                  obtain ⟨extra, hex, hall⟩ := ih _ _ _ _ h
                  refine ⟨[Call.SignatureShare (i % 2 ^ 16),
                    Call.VerifySignatureShare (i % 2 ^ 16) signature cns.Data bitmap] ++ extra,
                    ?_, ?_⟩
                  · rw [hex]; simp
                  · intro c hc
                    rcases List.mem_append.1 hc with h1 | h2
                    · revert h1; simp only [List.mem_cons, List.mem_singleton, List.not_mem_nil,
                        or_false]
                      rintro (rfl | rfl) <;> rfl
                    · exact hall c h2
      · simp only [hreq, Bool.not_false, if_true] at h
        exact ih _ _ _ _ h

theorem checkSignaturesLoop_nil (env : Collaborators) (cns : ConsensusState)
    (bitmap : List Byte) :
    ∀ (remaining i : Nat) (calls calls2 : List Call),
      checkSignaturesLoop env cns bitmap remaining i calls = .returned (none, calls2) →
      ∀ j, i ≤ j → j < i + remaining → bitSet bitmap j = true →
        memberJobDone cns .SrSignature j = true := by
  intro remaining
  induction remaining with
  | zero => intro i calls calls2 _ j h1 h2; omega
  | succ r ih =>
    intro i calls calls2 h j h1 h2 hbit
    unfold checkSignaturesLoop at h
    cases hb : bitmap[i / 8]? with
    | none => rw [hb] at h; simp at h
    | some b =>
      rw [hb] at h
      simp only at h
      by_cases hreq : indexRequired b i = true
      · simp only [hreq, Bool.not_true, Bool.false_eq_true, if_false] at h
        cases hg : cns.consensusGroup[i]? with
        | none => rw [hg] at h; simp at h
        | some pubKey =>
          rw [hg] at h
          simp only at h
          cases hj : JobDone cns pubKey .SrSignature with
          | error e => rw [hj] at h; simp at h
          | ok done =>
            rw [hj] at h
            simp only at h
            cases done with
            | false => simp at h
            | true =>
              simp only [Bool.not_true, Bool.false_eq_true, if_false] at h
              rcases Nat.eq_or_lt_of_le h1 with heq | hlt
              · subst heq
                simp [memberJobDone, hg, hj]
              · cases hs : env.SignatureShare (i % 2 ^ 16) with
                | error e => rw [hs] at h; simp at h
                | ok signature =>
                  rw [hs] at h
                  simp only at h
                  cases hv : env.VerifySignatureShare (i % 2 ^ 16) signature cns.Data bitmap with
                  | some e => rw [hv] at h; simp at h
                  | none =>
                    rw [hv] at h
                    exact ih _ _ _ h j (by omega) (by omega) hbit
      · simp only [hreq, Bool.not_false, if_true] at h
        rcases Nat.eq_or_lt_of_le h1 with heq | hlt
        · subst heq
          rw [bitSet, hb] at hbit
          simp only at hbit
          rw [indexRequired_eq_testBit] at hreq
          exact absurd hbit hreq
        · exact ih _ _ _ h j (by omega) (by omega) hbit

theorem checkSignaturesValidity_frame (env : Collaborators) (sr sr1 : subroundEndRound)
    (bitmap : List Byte) (err : Option SposError)
    (h : checkSignaturesValidity env sr bitmap = .returned (err, sr1)) :
    sr1.cns = sr.cns ∧
      ∃ extra, sr1.calls = sr.calls ++ extra ∧ ∀ c ∈ extra, c.isShareCheck = true := by
  unfold checkSignaturesValidity at h
  simp only at h
  split at h
  · simp at h
  · simp at h
  · rename_i e calls hloop
    simp only [Outcome.returned.injEq, Prod.mk.injEq] at h
    obtain ⟨_, rfl⟩ := h
    exact ⟨rfl, checkSignaturesLoop_calls env sr.cns bitmap _ _ _ _ _ hloop⟩

theorem isShareCheck_excludes (c : Call) (h : c.isShareCheck = true) :
    c.isBroadcast = false ∧ c ≠ Call.Increment .MetricCountAcceptedBlocks ∧
      (∀ bitmap, c ≠ Call.AggregateSigs bitmap) ∧
      (∀ header body, c ≠ Call.CommitBlock header body) := by
  cases c <;> simp [Call.isShareCheck, Call.isBroadcast] at h ⊢

/-! ### C7 -/

/-- C7: EndRound happy path. When the signature-share check, `AggregateSigs`, `CommitBlock`,
    `MarshalizedDataToBroadcast` and `BroadcastMiniBlocks` succeed (the other broadcasts may
    even fail), `doEndRoundJob` returns true, the header carries the aggregate signature, the
    status of SrEndRound is Finished, and the calls made after the share checks are, in this
    order: AggregateSigs, CommitBlock, BroadcastBlock, BroadcastShardHeader,
    MarshalizedDataToBroadcast, BroadcastMiniBlocks, BroadcastTransactions, Increment of the
    accepted-blocks metric, SetStringValue; so each broadcast happens once, after CommitBlock,
    and the metric is incremented once. -/
theorem C7_end_round_happy_path (env : Collaborators) (sr sr1 : subroundEndRound)
    (sig miniBlocks transactions : List Byte)
    (hcheck : checkSignaturesValidity env sr (GenerateBitmap sr.cns .SrBitmap)
      = .returned (none, sr1))
    (hagg : env.AggregateSigs (GenerateBitmap sr.cns .SrBitmap) = .ok sig)
    (hcommit : env.CommitBlock ⟨sr.cns.Header.nonce, sig⟩ sr.cns.BlockBody = none)
    (hmarsh : env.MarshalizedDataToBroadcast ⟨sr.cns.Header.nonce, sig⟩ sr.cns.BlockBody
      = .ok (miniBlocks, transactions))
    (hmini : env.BroadcastMiniBlocks miniBlocks = none) :
    ∃ final shareCalls newCalls, doEndRoundJob env sr = .returned (true, final) ∧
      final.cns.Header.signature = sig ∧
      Status final.cns .SrEndRound = .SsFinished ∧
      final.calls = sr.calls ++ newCalls ∧
      (∀ c ∈ shareCalls, c.isShareCheck = true) ∧
      newCalls = shareCalls ++
        [Call.AggregateSigs (GenerateBitmap sr.cns .SrBitmap),
         Call.CommitBlock ⟨sr.cns.Header.nonce, sig⟩ sr.cns.BlockBody,
         Call.BroadcastBlock sr.cns.BlockBody ⟨sr.cns.Header.nonce, sig⟩,
         Call.BroadcastShardHeader ⟨sr.cns.Header.nonce, sig⟩,
         Call.MarshalizedDataToBroadcast ⟨sr.cns.Header.nonce, sig⟩ sr.cns.BlockBody,
         Call.BroadcastMiniBlocks miniBlocks,
         Call.BroadcastTransactions transactions,
         Call.Increment .MetricCountAcceptedBlocks,
         Call.SetStringValue .MetricConsensusRoundState] ∧
      newCalls.filter Call.isBroadcast =
        [Call.BroadcastBlock sr.cns.BlockBody ⟨sr.cns.Header.nonce, sig⟩,
         Call.BroadcastShardHeader ⟨sr.cns.Header.nonce, sig⟩,
         Call.BroadcastMiniBlocks miniBlocks,
         Call.BroadcastTransactions transactions] ∧
      newCalls.count (Call.Increment .MetricCountAcceptedBlocks) = 1 := by
  obtain ⟨hcns, extra, hcalls, hall⟩ := checkSignaturesValidity_frame env sr sr1 _ _ hcheck
  obtain ⟨cns1, calls1⟩ := sr1
  simp only at hcns hcalls
  subst hcns hcalls
  have hfilter : extra.filter Call.isBroadcast = [] := by
    rw [List.filter_eq_nil_iff]
    intro c hc
    rw [(isShareCheck_excludes c (hall c hc)).1]
    exact Bool.false_ne_true
  have hcount : extra.count (Call.Increment .MetricCountAcceptedBlocks) = 0 := by
    rw [List.count_eq_zero]
    intro hmem
    exact (isShareCheck_excludes _ (hall _ hmem)).2.1 rfl
  refine ⟨⟨SetStatus { sr.cns with Header := ⟨sr.cns.Header.nonce, sig⟩ } .SrEndRound .SsFinished,
      sr.calls ++ (extra ++
        [Call.AggregateSigs (GenerateBitmap sr.cns .SrBitmap),
         Call.CommitBlock ⟨sr.cns.Header.nonce, sig⟩ sr.cns.BlockBody,
         Call.BroadcastBlock sr.cns.BlockBody ⟨sr.cns.Header.nonce, sig⟩,
         Call.BroadcastShardHeader ⟨sr.cns.Header.nonce, sig⟩,
         Call.MarshalizedDataToBroadcast ⟨sr.cns.Header.nonce, sig⟩ sr.cns.BlockBody,
         Call.BroadcastMiniBlocks miniBlocks,
         Call.BroadcastTransactions transactions,
         Call.Increment .MetricCountAcceptedBlocks,
         Call.SetStringValue .MetricConsensusRoundState])⟩,
    extra, _, ?_, rfl, ?_, rfl, hall, rfl, ?_, ?_⟩
  · unfold doEndRoundJob
    simp only [hcheck, hagg, hcommit, updateMetricsForLeader, broadcastMiniBlocksAndTransactions,
      SetStatus, hmarsh, hmini]
    cases env.BroadcastTransactions transactions <;> simp
  · simp [Status, SetStatus]
  · rw [List.filter_append, hfilter]
    simp [List.filter, Call.isBroadcast]
  · rw [List.count_append, hcount]
    simp [List.count_cons]

/-- C7 on the sample state with collaborators that always succeed. -/
theorem C7_end_round_happy_path_witness :
    ∃ final, doEndRoundJob okCollaborators ⟨sampleState, []⟩ = .returned (true, final) ∧
      final.cns.Header.signature = [0xaa, 7] ∧
      Status final.cns .SrEndRound = .SsFinished :=
  let ⟨final, _, _, hjob, hsig, hst, _⟩ :=
    C7_end_round_happy_path okCollaborators ⟨sampleState, []⟩
      ⟨sampleState,
        [Call.SignatureShare 0, Call.VerifySignatureShare 0 [0] [1, 2, 3] [7],
         Call.SignatureShare 1, Call.VerifySignatureShare 1 [1] [1, 2, 3] [7],
         Call.SignatureShare 2, Call.VerifySignatureShare 2 [2] [1, 2, 3] [7]]⟩
      [0xaa, 7] [9] [0x77] rfl rfl rfl rfl rfl
  ⟨final, hjob, hsig, hst⟩

/-! ### C8 -/

/-- C8 (as stated, refuted): in a group of three where member 1 ("B") completed SrSignature but
    not SrBitmap, `doEndRoundJob` succeeds and passes to `AggregateSigs` a bitmap whose bit 1 is
    not set. -/
theorem C8_signer_missing_from_bitmap :
    signedOutsideBitmap.consensusGroup[1]? = some "B" ∧
    JobDone signedOutsideBitmap "B" .SrSignature = .ok true ∧
    bitSet (GenerateBitmap signedOutsideBitmap .SrBitmap) 1 = false ∧
    ∃ final, doEndRoundJob okCollaborators ⟨signedOutsideBitmap, []⟩ = .returned (true, final) ∧
      Call.AggregateSigs (GenerateBitmap signedOutsideBitmap .SrBitmap) ∈ final.calls := by
  refine ⟨by decide, rfl, by decide, ?_⟩
  refine ⟨⟨SetStatus { signedOutsideBitmap with Header := ⟨5, [0xaa, 5]⟩ } .SrEndRound .SsFinished,
    [Call.SignatureShare 0, Call.VerifySignatureShare 0 [0] [1, 2, 3] [5],
     Call.SignatureShare 2, Call.VerifySignatureShare 2 [2] [1, 2, 3] [5],
     Call.AggregateSigs [5],
     Call.CommitBlock ⟨5, [0xaa, 5]⟩ [9],
     Call.BroadcastBlock [9] ⟨5, [0xaa, 5]⟩,
     Call.BroadcastShardHeader ⟨5, [0xaa, 5]⟩,
     Call.MarshalizedDataToBroadcast ⟨5, [0xaa, 5]⟩ [9],
     Call.BroadcastMiniBlocks [9],
     Call.BroadcastTransactions [0x77],
     Call.Increment .MetricCountAcceptedBlocks,
     Call.SetStringValue .MetricConsensusRoundState]⟩, rfl, ?_⟩
  decide

theorem broadcast_calls (env : Collaborators) (sr : subroundEndRound) :
    ∃ rest, (broadcastMiniBlocksAndTransactions env sr).2.calls = sr.calls ++ rest ∧
      (broadcastMiniBlocksAndTransactions env sr).2.cns = sr.cns ∧
      ∀ bitmap, Call.AggregateSigs bitmap ∉ rest := by
  unfold broadcastMiniBlocksAndTransactions
  cases env.MarshalizedDataToBroadcast sr.cns.Header sr.cns.BlockBody with
  | error e => exact ⟨_, rfl, rfl, by simp⟩
  | ok p =>
    obtain ⟨miniBlocks, transactions⟩ := p
    simp only
    cases env.BroadcastMiniBlocks miniBlocks with
    | some e =>
      exact ⟨[Call.MarshalizedDataToBroadcast sr.cns.Header sr.cns.BlockBody,
        Call.BroadcastMiniBlocks miniBlocks], by simp, rfl, by simp⟩
    | none =>
      simp only
      cases env.BroadcastTransactions transactions with
      | some e =>
        exact ⟨[Call.MarshalizedDataToBroadcast sr.cns.Header sr.cns.BlockBody,
          Call.BroadcastMiniBlocks miniBlocks, Call.BroadcastTransactions transactions],
          by simp, rfl, by simp⟩
      | none =>
        exact ⟨[Call.MarshalizedDataToBroadcast sr.cns.Header sr.cns.BlockBody,
          Call.BroadcastMiniBlocks miniBlocks, Call.BroadcastTransactions transactions],
          by simp, rfl, by simp⟩

theorem doEndRoundJob_aggregate_bitmap (env : Collaborators) (sr final : subroundEndRound)
    (ok : Bool) (bitmap : List Byte) (hjob : doEndRoundJob env sr = .returned (ok, final))
    (hmem : Call.AggregateSigs bitmap ∈ final.calls.drop sr.calls.length) :
    bitmap = GenerateBitmap sr.cns .SrBitmap := by
  unfold doEndRoundJob at hjob
  dsimp only at hjob
  cases hc : checkSignaturesValidity env sr (GenerateBitmap sr.cns .SrBitmap) with
  | panicked => rw [hc] at hjob; simp at hjob
  | outOfFuel => rw [hc] at hjob; simp at hjob
  | returned p =>
    obtain ⟨err, sr1⟩ := p
    obtain ⟨hcns, extra, hcalls, hall⟩ := checkSignaturesValidity_frame env sr sr1 _ _ hc
    have hextra : Call.AggregateSigs bitmap ∉ extra := fun hin =>
      (isShareCheck_excludes _ (hall _ hin)).2.2.1 bitmap rfl
    rw [hc] at hjob
    cases err with
    | some e =>
      simp only [Outcome.returned.injEq, Prod.mk.injEq] at hjob
      obtain ⟨_, rfl⟩ := hjob
      rw [hcalls, List.drop_left] at hmem
      exact absurd hmem hextra
    | none =>
      simp only at hjob
      cases hagg : env.AggregateSigs (GenerateBitmap sr.cns .SrBitmap) with
      | error e =>
        rw [hagg] at hjob
        simp only [Outcome.returned.injEq, Prod.mk.injEq] at hjob
        obtain ⟨_, rfl⟩ := hjob
        simp only [hcalls, List.append_assoc, List.drop_left, List.mem_append,
          List.mem_singleton, Call.AggregateSigs.injEq] at hmem
        rcases hmem with h | h
        · exact absurd h hextra
        · exact h
      | ok sig =>
        rw [hagg] at hjob
        simp only at hjob
        split at hjob
        · simp only [Outcome.returned.injEq, Prod.mk.injEq] at hjob
          obtain ⟨_, rfl⟩ := hjob
          simp only [hcalls, List.append_assoc, List.drop_left, List.mem_append,
            List.mem_singleton, Call.AggregateSigs.injEq, reduceCtorEq, or_false] at hmem
          rcases hmem with h | h
          · exact absurd h hextra
          · exact h
        · simp only [Outcome.returned.injEq, Prod.mk.injEq] at hjob
          obtain ⟨_, rfl⟩ := hjob
          obtain ⟨rest, hrest, _, hno⟩ := broadcast_calls env
            { cns := SetStatus { sr1.cns with Header := { sr1.cns.Header with signature := sig } }
                .SrEndRound .SsFinished,
              calls := sr1.calls ++ [Call.AggregateSigs (GenerateBitmap sr.cns .SrBitmap)] ++
                [Call.CommitBlock { sr1.cns.Header with signature := sig } sr1.cns.BlockBody] ++
                [Call.BroadcastBlock sr1.cns.BlockBody { sr1.cns.Header with signature := sig }] ++
                [Call.BroadcastShardHeader { sr1.cns.Header with signature := sig }] }
          simp only [updateMetricsForLeader] at hmem
          simp only [SetStatus] at hrest hmem
          rw [hrest] at hmem
          simp only [hcalls, List.append_assoc, List.drop_left, List.mem_append,
            List.mem_singleton, List.mem_cons, Call.AggregateSigs.injEq, reduceCtorEq, or_false,
            false_or, List.not_mem_nil] at hmem
          rcases hmem with h | h | h
          · exact absurd h hextra
          · exact h
          · exact absurd h (hno bitmap)

theorem memberJobDone_lt (cns : ConsensusState) (subroundId : SubroundId) (i : Nat)
    (h : memberJobDone cns subroundId i = true) : i < cns.consensusGroup.length := by
  by_contra hge
  unfold memberJobDone at h
  rw [List.getElem?_eq_none (by omega)] at h
  simp at h

theorem checkSignaturesValidity_nil (env : Collaborators) (sr sr1 : subroundEndRound)
    (bitmap : List Byte) (h : checkSignaturesValidity env sr bitmap = .returned (none, sr1))
    (i : Nat) (hi : i < sr.cns.consensusGroup.length) (hbit : bitSet bitmap i = true) :
    memberJobDone sr.cns .SrSignature i = true := by
  have hlen : i < bitmap.length * 8 := by
    unfold bitSet at hbit
    cases hb : bitmap[i / 8]? with
    | none => rw [hb] at hbit; simp at hbit
    | some b =>
      obtain ⟨hlt, _⟩ := List.getElem?_eq_some.1 hb
      omega
  unfold checkSignaturesValidity at h
  dsimp only at h
  split at h
  · simp at h
  · simp at h
  · rename_i e calls hloop
    simp only [Outcome.returned.injEq, Prod.mk.injEq] at h
    obtain ⟨rfl, _⟩ := h
    refine checkSignaturesLoop_nil env sr.cns bitmap _ 0 _ _ hloop i (Nat.zero_le _) ?_ hbit
    split <;> omega

/-- C8 (amended): the bitmap that `doEndRoundJob` builds, checks and passes to `AggregateSigs`
    is `GenerateBitmap(SrBitmap)`: its i-th bit is set iff member i of the consensus group
    completed the SrBitmap subround; and when the signature-share check accepts it, every member
    whose bit is set has completed SrSignature as well. -/
theorem C8_bitmap_marks_bitmap_subround (env : Collaborators) (sr : subroundEndRound) (i : Nat) :
    (bitSet (GenerateBitmap sr.cns .SrBitmap) i = true ↔
        memberJobDone sr.cns .SrBitmap i = true) ∧
      (∀ ok final bitmap, doEndRoundJob env sr = .returned (ok, final) →
        Call.AggregateSigs bitmap ∈ final.calls.drop sr.calls.length →
        bitmap = GenerateBitmap sr.cns .SrBitmap) ∧
      (∀ sr1, checkSignaturesValidity env sr (GenerateBitmap sr.cns .SrBitmap)
          = .returned (none, sr1) →
        bitSet (GenerateBitmap sr.cns .SrBitmap) i = true →
        memberJobDone sr.cns .SrSignature i = true) := by
  refine ⟨?_, ?_, ?_⟩
  · rw [bitSet_GenerateBitmap]
  · intro ok final bitmap hjob hmem
    exact doEndRoundJob_aggregate_bitmap env sr final ok bitmap hjob hmem
  · intro sr1 hcheck hbit
    have hdone : memberJobDone sr.cns .SrBitmap i = true := by
      rw [← bitSet_GenerateBitmap]; exact hbit
    exact checkSignaturesValidity_nil env sr sr1 _ hcheck i (memberJobDone_lt _ _ _ hdone) hbit

/-! ### C9 -/

/-- C9: if the signature-share check, `AggregateSigs` or `CommitBlock` fails, `doEndRoundJob`
    returns false, the status of every subround is what it was, and among the calls it made
    there is no broadcast and no increment of the accepted-blocks metric; when it is the
    signature-share check that fails, neither `AggregateSigs` nor `CommitBlock` is called. -/
theorem C9_failure_aborts_end_round (env : Collaborators) (sr : subroundEndRound)
    (hfail :
      (∃ err sr1, checkSignaturesValidity env sr (GenerateBitmap sr.cns .SrBitmap)
        = .returned (some err, sr1)) ∨
      (∃ sr1, checkSignaturesValidity env sr (GenerateBitmap sr.cns .SrBitmap)
          = .returned (none, sr1) ∧
        ((∃ err, env.AggregateSigs (GenerateBitmap sr.cns .SrBitmap) = .error err) ∨
         (∃ sig err, env.AggregateSigs (GenerateBitmap sr.cns .SrBitmap) = .ok sig ∧
            env.CommitBlock ⟨sr.cns.Header.nonce, sig⟩ sr.cns.BlockBody = some err)))) :
    ∃ final newCalls, doEndRoundJob env sr = .returned (false, final) ∧
      final.cns.status = sr.cns.status ∧
      final.calls = sr.calls ++ newCalls ∧
      (∀ c ∈ newCalls, c.isBroadcast = false ∧ c ≠ Call.Increment .MetricCountAcceptedBlocks) ∧
      ((∃ err sr1, checkSignaturesValidity env sr (GenerateBitmap sr.cns .SrBitmap)
          = .returned (some err, sr1)) →
        ∀ c ∈ newCalls, (∀ bitmap, c ≠ Call.AggregateSigs bitmap) ∧
          (∀ header body, c ≠ Call.CommitBlock header body)) := by
  rcases hfail with ⟨err, sr1, hcheck⟩ | ⟨sr1, hcheck, hrest⟩
  · obtain ⟨hcns, extra, hcalls, hall⟩ := checkSignaturesValidity_frame env sr sr1 _ _ hcheck
    refine ⟨sr1, extra, ?_, by rw [hcns], hcalls, ?_, ?_⟩
    · unfold doEndRoundJob
      simp only [hcheck]
    · intro c hc
      exact ⟨(isShareCheck_excludes c (hall c hc)).1, (isShareCheck_excludes c (hall c hc)).2.1⟩
    · intro _ c hc
      exact (isShareCheck_excludes c (hall c hc)).2.2
  · obtain ⟨hcns, extra, hcalls, hall⟩ := checkSignaturesValidity_frame env sr sr1 _ _ hcheck
    obtain ⟨cns1, calls1⟩ := sr1
    simp only at hcns hcalls
    subst hcns hcalls
    have hnot : ¬ ∃ err sr1, checkSignaturesValidity env sr (GenerateBitmap sr.cns .SrBitmap)
        = .returned (some err, sr1) := by
      rintro ⟨err, sr2, h2⟩
      rw [hcheck] at h2
      simp at h2
    rcases hrest with ⟨err, hagg⟩ | ⟨sig, err, hagg, hcommit⟩
    · refine ⟨⟨sr.cns, sr.calls ++ (extra ++
          [Call.AggregateSigs (GenerateBitmap sr.cns .SrBitmap)])⟩, _, ?_, rfl, rfl,
        ?_, fun h => absurd h hnot⟩
      · unfold doEndRoundJob
        simp only [hcheck, hagg]
        simp
      · intro c hc
        rcases List.mem_append.1 hc with h | h
        · exact ⟨(isShareCheck_excludes c (hall c h)).1, (isShareCheck_excludes c (hall c h)).2.1⟩
        · rw [List.mem_singleton] at h
          subst h
          exact ⟨rfl, by simp⟩
    · refine ⟨⟨{ sr.cns with Header := ⟨sr.cns.Header.nonce, sig⟩ },
          sr.calls ++ (extra ++ [Call.AggregateSigs (GenerateBitmap sr.cns .SrBitmap),
            Call.CommitBlock ⟨sr.cns.Header.nonce, sig⟩ sr.cns.BlockBody])⟩, _, ?_, rfl, rfl,
        ?_, fun h => absurd h hnot⟩
      · unfold doEndRoundJob
        simp only [hcheck, hagg, hcommit]
        simp
      · intro c hc
        rcases List.mem_append.1 hc with h | h
        · exact ⟨(isShareCheck_excludes c (hall c h)).1, (isShareCheck_excludes c (hall c h)).2.1⟩
        · simp only [List.mem_cons, List.mem_singleton, List.not_mem_nil, or_false] at h
          rcases h with rfl | rfl
          · exact ⟨rfl, by simp⟩
          · exact ⟨rfl, by simp⟩

/-- C9 on the sample state with a block processor whose `CommitBlock` fails. -/
theorem C9_failure_aborts_end_round_witness :
    ∃ final, doEndRoundJob
        { okCollaborators with CommitBlock := fun _ _ => some (.external 1) } ⟨sampleState, []⟩
        = .returned (false, final) ∧
      final.cns.status = sampleState.status :=
  let ⟨final, _, hjob, hst, _⟩ :=
    C9_failure_aborts_end_round
      { okCollaborators with CommitBlock := fun _ _ => some (.external 1) } ⟨sampleState, []⟩
      (Or.inr ⟨⟨sampleState,
        [Call.SignatureShare 0, Call.VerifySignatureShare 0 [0] [1, 2, 3] [7],
         Call.SignatureShare 1, Call.VerifySignatureShare 1 [1] [1, 2, 3] [7],
         Call.SignatureShare 2, Call.VerifySignatureShare 2 [2] [1, 2, 3] [7]]⟩, rfl,
        Or.inr ⟨[0xaa, 7], .external 1, rfl, rfl⟩⟩)
  ⟨final, hjob, hst⟩

/-! ### C10 -/

/-- C10: `doEndRoundConsensusCheck` returns false whenever `RoundCanceled` is true, whatever the
    subround status; otherwise it returns true iff the status of SrEndRound is Finished; in every
    case it leaves the receiver as it was. -/
theorem C10_end_round_consensus_check (sr : subroundEndRound) :
    (doEndRoundConsensusCheck sr).2 = sr ∧
      (sr.cns.RoundCanceled = true → (doEndRoundConsensusCheck sr).1 = false) ∧
      (sr.cns.RoundCanceled = false →
        ((doEndRoundConsensusCheck sr).1 = true ↔ Status sr.cns .SrEndRound = .SsFinished)) := by
  unfold doEndRoundConsensusCheck
  refine ⟨?_, ?_, ?_⟩
  · split_ifs <;> rfl
  · intro h
    simp [h]
  · intro h
    by_cases hs : Status sr.cns .SrEndRound = .SsFinished <;> simp [h, hs]

/-! ## Theorems: request coordinator -/

theorem timeSince_le_second (now t : Int) :
    timeSince now t ≤ timeSecond ↔ now - t ≤ timeSecond := by
  unfold timeSince timeSecond
  norm_num

theorem sweepInstants_append (a b : List ReqCall) :
    sweepInstants (a ++ b) = sweepInstants a ++ sweepInstants b := by
  induction a with
  | nil => rfl
  | cons c rest ih =>
    cases c <;> simp [sweepInstants, ih]

theorem sweepIfNeeded_idle (now : Int) (rrh : resolverRequestHandler)
    (h : timeSince now rrh.sweepTime ≤ timeSecond) : sweepIfNeeded now rrh = rrh := by
  unfold sweepIfNeeded
  rw [if_pos h]

theorem sweepIfNeeded_then_idle (now : Int) (rrh : resolverRequestHandler) :
    timeSince now (sweepIfNeeded now rrh).sweepTime ≤ timeSecond := by
  unfold sweepIfNeeded
  by_cases h : timeSince now rrh.sweepTime ≤ timeSecond
  · rw [if_pos h]; exact h
  · rw [if_neg h]
    rw [timeSince_le_second]
    simp [timeSecond]

theorem has_after_add (r : RequestedItems) (key : String) (now : Int) :
    (r.Add key now).1.Has key = true := by
  unfold RequestedItems.Add
  by_cases h : r.Has key = true
  · rw [if_pos h]; exact h
  · rw [if_neg h]
    simp [RequestedItems.Has]

theorem requestBatches_calls (request : List (List Byte) → Option DataRetrieverError) :
    ∀ (batches : List (List (List Byte))) (calls : List ReqCall),
      ∃ extra, requestBatches request batches calls = calls ++ extra ∧
        sweepInstants extra = [] ∧ ∀ c ∈ extra, c.isLookup = false := by
  intro batches
  induction batches with
  | nil => intro calls; exact ⟨[], by simp [requestBatches], rfl, by simp⟩
  | cons b rest ih =>
    intro calls
    obtain ⟨extra, hex, hsw, hlk⟩ := ih (calls ++
      [ReqCall.RequestDataFromHashArray b (request b).isNone])
    refine ⟨ReqCall.RequestDataFromHashArray b (request b).isNone :: extra, ?_, ?_, ?_⟩
    · rw [requestBatches, hex]; simp
    · simpa [sweepInstants] using hsw
    · intro c hc
      rcases List.mem_cons.1 hc with rfl | h
      · rfl
      · exact hlk c h

/-- What every request method leaves of the sweep bookkeeping: the sweep time is the one set by
    `sweepIfNeeded`, and the log grows by that of `sweepIfNeeded` followed by calls that are not
    sweeps. -/
theorem request_frame (env : RequestEnv) (now : Int) (rrh : resolverRequestHandler)
    (req : Request) :
    (req.apply env now rrh).sweepTime = (sweepIfNeeded now rrh).sweepTime ∧
      ∃ extra, (req.apply env now rrh).calls = (sweepIfNeeded now rrh).calls ++ extra ∧
        sweepInstants extra = [] := by
  have hashes : ∀ (s : Nat) (hs : List (List Byte)) (topic : String),
      (requestByHashes env now rrh s hs topic).sweepTime = (sweepIfNeeded now rrh).sweepTime ∧
      ∃ extra, (requestByHashes env now rrh s hs topic).calls
          = (sweepIfNeeded now rrh).calls ++ extra ∧ sweepInstants extra = [] := by
    intro s hs topic
    unfold requestByHashes getUnrequestedHashes
    dsimp only
    cases env.CrossShardResolver topic s with
    | error e => exact ⟨rfl, [ReqCall.CrossShardResolver topic s], rfl, rfl⟩
    | ok resolver =>
      dsimp only
      cases resolver.RequestDataFromHashArray with
      | none => exact ⟨rfl, [ReqCall.CrossShardResolver topic s], rfl, rfl⟩
      | some request =>
        dsimp only
        cases SplitDataInChunks
            (getUnrequestedHashesLoop now hs [] (sweepIfNeeded now rrh).requestedItemsHandler).1
            (sweepIfNeeded now rrh).maxTxsToRequest with
        | error e => exact ⟨rfl, [ReqCall.CrossShardResolver topic s], rfl, rfl⟩
        | ok batches =>
          dsimp only
          obtain ⟨extra, hex, hsw, _⟩ := requestBatches_calls request batches
            ((sweepIfNeeded now rrh).calls ++ [ReqCall.CrossShardResolver topic s])
          refine ⟨rfl, ReqCall.CrossShardResolver topic s :: extra, ?_, ?_⟩
          · rw [hex]; simp
          · simpa [sweepInstants] using hsw
  cases req with
  | RequestTransaction s hs => exact hashes s hs _
  | RequestUnsignedTransactions s hs => exact hashes s hs _
  | RequestRewardTransactions s hs => exact hashes s hs _
  | RequestMiniBlock s h =>
    simp only [Request.apply, RequestMiniBlock]
    split_ifs
    · exact ⟨rfl, [], by simp, rfl⟩
    · cases env.CrossShardResolver (sweepIfNeeded now rrh).mbRequestTopic s with
      | error e => exact ⟨rfl, [_], rfl, rfl⟩
      | ok resolver =>
        dsimp only
        cases resolver.RequestDataFromHash h with
        | some e => exact ⟨rfl, _, List.append_assoc _ _ _, rfl⟩
        | none => exact ⟨rfl, _, List.append_assoc _ _ _, rfl⟩
  | RequestHeader s h =>
    simp only [Request.apply, RequestHeader]
    split_ifs
    · exact ⟨rfl, [], by simp, rfl⟩
    · cases env.MetaChainResolver (sweepIfNeeded now rrh).metaHdrRequestTopic with
      | error e => exact ⟨rfl, [_], rfl, rfl⟩
      | ok resolver =>
        dsimp only
        cases resolver.RequestDataFromHash h with
        | some e => exact ⟨rfl, _, List.append_assoc _ _ _, rfl⟩
        | none => exact ⟨rfl, _, List.append_assoc _ _ _, rfl⟩
    · cases env.CrossShardResolver (sweepIfNeeded now rrh).shardHdrRequestTopic s with
      | error e => exact ⟨rfl, [_], rfl, rfl⟩
      | ok resolver =>
        dsimp only
        cases resolver.RequestDataFromHash h with
        | some e => exact ⟨rfl, _, List.append_assoc _ _ _, rfl⟩
        | none => exact ⟨rfl, _, List.append_assoc _ _ _, rfl⟩
  | RequestHeaderByNonce s n =>
    simp only [Request.apply, RequestHeaderByNonce]
    split_ifs
    · exact ⟨rfl, [], by simp, rfl⟩
    · cases env.CrossShardResolver (sweepIfNeeded now rrh).shardHdrRequestTopic s with
      | error e => exact ⟨rfl, [_], rfl, rfl⟩
      | ok resolver =>
        dsimp only
        cases resolver.RequestDataFromNonce with
        | none => exact ⟨rfl, [_], rfl, rfl⟩
        | some request =>
          dsimp only
          cases request n with
          | some e => exact ⟨rfl, _, List.append_assoc _ _ _, rfl⟩
          | none => exact ⟨rfl, _, List.append_assoc _ _ _, rfl⟩
    · cases env.MetaChainResolver (sweepIfNeeded now rrh).metaHdrRequestTopic with
      | error e => exact ⟨rfl, [_], rfl, rfl⟩
      | ok resolver =>
        dsimp only
        cases resolver.RequestDataFromNonce with
        | none => exact ⟨rfl, [_], rfl, rfl⟩
        | some request =>
          dsimp only
          cases request n with
          | some e => exact ⟨rfl, _, List.append_assoc _ _ _, rfl⟩
          | none => exact ⟨rfl, _, List.append_assoc _ _ _, rfl⟩

/-- The sweeps logged so far are pairwise more than one second apart and none is later than
    the recorded sweep time. -/
theorem sweep_invariant_step (env : RequestEnv) (now : Int) (rrh : resolverRequestHandler)
    (req : Request)
    (hpair : (sweepInstants rrh.calls).Pairwise (fun a b => timeSecond < b - a))
    (hle : ∀ s ∈ sweepInstants rrh.calls, s ≤ rrh.sweepTime) :
    (sweepInstants (req.apply env now rrh).calls).Pairwise (fun a b => timeSecond < b - a) ∧
      ∀ s ∈ sweepInstants (req.apply env now rrh).calls, s ≤ (req.apply env now rrh).sweepTime := by
  obtain ⟨htime, extra, hcalls, hextra⟩ := request_frame env now rrh req
  rw [hcalls, htime, sweepInstants_append, hextra, List.append_nil]
  unfold sweepIfNeeded
  by_cases h : timeSince now rrh.sweepTime ≤ timeSecond
  · rw [if_pos h]
    exact ⟨hpair, hle⟩
  · rw [if_neg h]
    rw [timeSince_le_second] at h
    simp only [sweepInstants_append, sweepInstants]
    refine ⟨?_, ?_⟩
    · rw [List.pairwise_append]
      refine ⟨hpair, List.pairwise_singleton _ _, ?_⟩
      intro a ha b hb
      rw [List.mem_singleton] at hb
      subst hb
      have := hle a ha
      omega
    · intro s hs
      rcases List.mem_append.1 hs with h1 | h1
      · have := hle s h1
        unfold timeSecond at h
        omega
      · rw [List.mem_singleton] at h1
        omega

theorem sweep_invariant_run (steps : List (RequestEnv × Int × Request)) :
    ∀ rrh : resolverRequestHandler,
      (sweepInstants rrh.calls).Pairwise (fun a b => timeSecond < b - a) →
      (∀ s ∈ sweepInstants rrh.calls, s ≤ rrh.sweepTime) →
      (sweepInstants (runRequests rrh steps).calls).Pairwise (fun a b => timeSecond < b - a) := by
  induction steps with
  | nil => intro rrh hpair _; exact hpair
  | cons step rest ih =>
    intro rrh hpair hle
    obtain ⟨env, now, req⟩ := step
    obtain ⟨h1, h2⟩ := sweep_invariant_step env now rrh req hpair hle
    exact ih _ h1 h2

/-! ### C14 -/

/-- C14: `sweepIfNeeded` calls `Sweep` iff more than one second has elapsed since the recorded
    sweep time, and then the sweep time becomes the current instant; hence, on a handler whose
    log is still empty (as both constructors leave it), after any sequence of request calls any
    two `Sweep` invocations of the log are more than one second apart. -/
theorem C14_sweep_at_most_once_per_second (rrh : resolverRequestHandler)
    (hnew : rrh.calls = []) (now : Int) (steps : List (RequestEnv × Int × Request)) :
    (timeSecond < now - rrh.sweepTime →
        sweepIfNeeded now rrh = { rrh with
          sweepTime := now
          requestedItemsHandler := rrh.requestedItemsHandler.Sweep now
          calls := rrh.calls ++ [ReqCall.Sweep now] }) ∧
      (¬ timeSecond < now - rrh.sweepTime → sweepIfNeeded now rrh = rrh) ∧
      (sweepInstants (runRequests rrh steps).calls).Pairwise (fun a b => timeSecond < b - a) := by
  refine ⟨?_, ?_, ?_⟩
  · intro h
    unfold sweepIfNeeded
    rw [if_neg (by rw [timeSince_le_second]; omega)]
  · intro h
    exact sweepIfNeeded_idle now rrh (by rw [timeSince_le_second]; omega)
  · apply sweep_invariant_run
    · rw [hnew]; exact List.Pairwise.nil
    · rw [hnew]; intro s hs; simp [sweepInstants] at hs

/-- C14 on a handler just built by `NewMetaResolverRequestHandler`, which leaves the sweep time
    at the zero instant: three headers requested at instants one half second apart. -/
theorem C14_sweep_at_most_once_per_second_witness :
    (sweepInstants (runRequests
        { shardHandler with isMetaChain := true, rewardTxRequestTopic := "", sweepTime := 0 }
        [(okEnv, 63000000000000000000, Request.RequestHeader 1 [1]),
         (okEnv, 63000000000500000000, Request.RequestHeader 1 [2]),
         (okEnv, 63000000001500000000, Request.RequestHeader 1 [3])]).calls).Pairwise
      (fun a b => timeSecond < b - a) :=
  (C14_sweep_at_most_once_per_second
    { shardHandler with isMetaChain := true, rewardTxRequestTopic := "", sweepTime := 0 }
    rfl 0
    [(okEnv, 63000000000000000000, Request.RequestHeader 1 [1]),
     (okEnv, 63000000000500000000, Request.RequestHeader 1 [2]),
     (okEnv, 63000000001500000000, Request.RequestHeader 1 [3])]).2.2

theorem RequestHeader_suppressed (env : RequestEnv) (now : Int) (rrh : resolverRequestHandler)
    (destShardID : Nat) (hash : List Byte)
    (hidle : timeSince now rrh.sweepTime ≤ timeSecond)
    (hhas : rrh.requestedItemsHandler.Has (bytesToString hash) = true) :
    RequestHeader env now rrh destShardID hash = rrh := by
  unfold RequestHeader
  rw [sweepIfNeeded_idle now rrh hidle]
  simp [hhas]

theorem runRequestHeader_suppressed (destShardID : Nat) (hash : List Byte)
    (steps : List (RequestEnv × Int)) :
    ∀ rrh : resolverRequestHandler,
      (∀ p ∈ steps, timeSince p.2 rrh.sweepTime ≤ timeSecond) →
      rrh.requestedItemsHandler.Has (bytesToString hash) = true →
      runRequestHeader rrh destShardID hash steps = rrh := by
  induction steps with
  | nil => intro rrh _ _; rfl
  | cons p rest ih =>
    intro rrh hidle hhas
    obtain ⟨env, now⟩ := p
    rw [runRequestHeader, RequestHeader_suppressed env now rrh destShardID hash
      (hidle (env, now) (List.mem_cons_self _ _)) hhas]
    exact ih rrh (fun q hq => hidle q (List.mem_cons_of_mem _ hq)) hhas

/-- One `RequestHeader` call that does not sweep, on a handler that has not recorded the hash:
    either the dispatch succeeds, and the hash is recorded, or the log only grows by calls other
    than a successful dispatch and the requested-items set is as before. -/
theorem RequestHeader_attempt (env : RequestEnv) (now : Int) (rrh : resolverRequestHandler)
    (destShardID : Nat) (hash : List Byte)
    (hidle : timeSince now rrh.sweepTime ≤ timeSecond)
    (hfresh : rrh.requestedItemsHandler.Has (bytesToString hash) = false) :
    (RequestHeader env now rrh destShardID hash).sweepTime = rrh.sweepTime ∧
      ∃ attempt, ReqCall.RequestDataFromHash hash true ∉ attempt ∧
        sweepInstants attempt = [] ∧
        (((RequestHeader env now rrh destShardID hash).calls = rrh.calls ++ attempt ∧
            (RequestHeader env now rrh destShardID hash).requestedItemsHandler
              = rrh.requestedItemsHandler) ∨
         ((RequestHeader env now rrh destShardID hash).calls
              = rrh.calls ++ attempt ++ [ReqCall.RequestDataFromHash hash true] ∧
            (RequestHeader env now rrh destShardID hash).requestedItemsHandler.Has
              (bytesToString hash) = true)) := by
  unfold RequestHeader
  rw [sweepIfNeeded_idle now rrh hidle]
  simp only [hfresh, Bool.false_eq_true, if_false]
  by_cases hmeta : destShardID = env.MetachainShardId
  · simp only [hmeta, if_true]
    cases env.MetaChainResolver rrh.metaHdrRequestTopic with
    | error e =>
      exact ⟨rfl, [ReqCall.MetaChainResolver rrh.metaHdrRequestTopic], by simp, rfl,
        Or.inl ⟨rfl, rfl⟩⟩
    | ok resolver =>
      dsimp only
      cases resolver.RequestDataFromHash hash with
      | some e =>
        exact ⟨rfl, [ReqCall.MetaChainResolver rrh.metaHdrRequestTopic,
          ReqCall.RequestDataFromHash hash false], by simp, rfl, Or.inl ⟨by simp, rfl⟩⟩
      | none =>
        exact ⟨rfl, [ReqCall.MetaChainResolver rrh.metaHdrRequestTopic], by simp, rfl,
          Or.inr ⟨rfl, has_after_add _ _ _⟩⟩
  · simp only [hmeta, if_false]
    cases env.CrossShardResolver rrh.shardHdrRequestTopic destShardID with
    | error e =>
      exact ⟨rfl, [ReqCall.CrossShardResolver rrh.shardHdrRequestTopic destShardID], by simp, rfl,
        Or.inl ⟨rfl, rfl⟩⟩
    | ok resolver =>
      dsimp only
      cases resolver.RequestDataFromHash hash with
      | some e =>
        exact ⟨rfl, [ReqCall.CrossShardResolver rrh.shardHdrRequestTopic destShardID,
          ReqCall.RequestDataFromHash hash false], by simp, rfl, Or.inl ⟨by simp, rfl⟩⟩
      | none =>
        exact ⟨rfl, [ReqCall.CrossShardResolver rrh.shardHdrRequestTopic destShardID], by simp,
          rfl, Or.inr ⟨rfl, has_after_add _ _ _⟩⟩

theorem runRequestHeader_window (destShardID : Nat) (hash : List Byte)
    (steps : List (RequestEnv × Int)) :
    ∀ rrh : resolverRequestHandler,
      (∀ p ∈ steps, timeSince p.2 rrh.sweepTime ≤ timeSecond) →
      ∃ attempts, ReqCall.RequestDataFromHash hash true ∉ attempts ∧
        sweepInstants attempts = [] ∧
        ((runRequestHeader rrh destShardID hash steps).calls = rrh.calls ++ attempts ∨
         (runRequestHeader rrh destShardID hash steps).calls
            = rrh.calls ++ attempts ++ [ReqCall.RequestDataFromHash hash true]) := by
  induction steps with
  | nil => intro rrh _; exact ⟨[], by simp, rfl, Or.inl (by simp [runRequestHeader])⟩
  | cons p rest ih =>
    intro rrh hidle
    obtain ⟨env, now⟩ := p
    have hnow := hidle (env, now) (List.mem_cons_self _ _)
    have hrest : ∀ q ∈ rest, timeSince q.2 rrh.sweepTime ≤ timeSecond :=
      fun q hq => hidle q (List.mem_cons_of_mem _ hq)
    rw [runRequestHeader]
    cases hhas : rrh.requestedItemsHandler.Has (bytesToString hash) with
    | true =>
      rw [RequestHeader_suppressed env now rrh destShardID hash hnow hhas,
        runRequestHeader_suppressed destShardID hash rest rrh hrest hhas]
      exact ⟨[], by simp, rfl, Or.inl (by simp)⟩
    | false =>
      obtain ⟨htime, attempt, hno, hsw, hcase⟩ :=
        RequestHeader_attempt env now rrh destShardID hash hnow hhas
      rcases hcase with ⟨hcalls, _⟩ | ⟨hcalls, hdone⟩
      · obtain ⟨attempts, hno2, hsw2, hcase2⟩ := ih (RequestHeader env now rrh destShardID hash)
          (by rw [htime]; exact hrest)
        refine ⟨attempt ++ attempts, ?_, ?_, ?_⟩
        · simp [hno, hno2]
        · rw [sweepInstants_append, hsw, hsw2]; rfl
        · rw [hcalls] at hcase2
          rcases hcase2 with h | h
          · exact Or.inl (by rw [h]; simp)
          · exact Or.inr (by rw [h]; simp)
      · rw [runRequestHeader_suppressed destShardID hash rest _ (by rw [htime]; exact hrest) hdone]
        exact ⟨attempt, hno, hsw, Or.inr hcalls⟩

/-! ### C11 -/

/-- C11 (as stated, refuted): two consecutive `RequestHeader(1, [1,2])` calls one nanosecond
    apart, with no `Sweep` between them, on a resolver whose `RequestDataFromHash` fails: the
    resolver is invoked twice. -/
theorem C11_failed_dispatch_is_repeated :
    (RequestHeader failingEnv 5001 (RequestHeader failingEnv 5000 shardHandler 1 [1, 2])
        1 [1, 2]).calls
      = [ReqCall.CrossShardResolver "shardHdr" 1, ReqCall.RequestDataFromHash [1, 2] false,
         ReqCall.CrossShardResolver "shardHdr" 1, ReqCall.RequestDataFromHash [1, 2] false] := by
  decide

/-- C11 (amended): N >= 1 consecutive `RequestHeader(s, h)` calls with no `Sweep` between them
    (the first call may sweep before it tests the key) invoke the resolver's
    `RequestDataFromHash` with success at most once, and never again after a success: the calls
    logged after the first call's sweep are attempts none of which is a successful dispatch,
    followed by at most one successful dispatch at the very end. -/
theorem C11_request_header_dedup (rrh : resolverRequestHandler) (destShardID : Nat)
    (hash : List Byte) (env1 : RequestEnv) (now1 : Int) (rest : List (RequestEnv × Int))
    (hwindow : ∀ p ∈ rest, timeSince p.2 (sweepIfNeeded now1 rrh).sweepTime ≤ timeSecond) :
    ∃ newCalls attempts,
      (runRequestHeader rrh destShardID hash ((env1, now1) :: rest)).calls
        = (sweepIfNeeded now1 rrh).calls ++ newCalls ∧
      ReqCall.RequestDataFromHash hash true ∉ attempts ∧
      sweepInstants newCalls = [] ∧
      (newCalls = attempts ∨ newCalls = attempts ++ [ReqCall.RequestDataFromHash hash true]) ∧
      newCalls.count (ReqCall.RequestDataFromHash hash true) ≤ 1 := by
  have hsame : RequestHeader env1 now1 rrh destShardID hash
      = RequestHeader env1 now1 (sweepIfNeeded now1 rrh) destShardID hash := by
    unfold RequestHeader
    rw [sweepIfNeeded_idle now1 (sweepIfNeeded now1 rrh) (sweepIfNeeded_then_idle now1 rrh)]
  have hrun : runRequestHeader rrh destShardID hash ((env1, now1) :: rest)
      = runRequestHeader (sweepIfNeeded now1 rrh) destShardID hash ((env1, now1) :: rest) := by
    rw [runRequestHeader, runRequestHeader, hsame]
  obtain ⟨attempts, hno, hsw, hcase⟩ := runRequestHeader_window destShardID hash
    ((env1, now1) :: rest) (sweepIfNeeded now1 rrh) (by
      intro p hp
      rcases List.mem_cons.1 hp with rfl | h
      · exact sweepIfNeeded_then_idle now1 rrh
      · exact hwindow p h)
  rw [hrun]
  rcases hcase with h | h
  · refine ⟨attempts, attempts, h, hno, hsw, Or.inl rfl, ?_⟩
    rw [List.count_eq_zero_of_not_mem hno]
    exact Nat.zero_le _
  · refine ⟨attempts ++ [ReqCall.RequestDataFromHash hash true], attempts, ?_, hno, ?_,
      Or.inr rfl, ?_⟩
    · rw [h, List.append_assoc]
    · rw [sweepInstants_append, hsw]; rfl
    · rw [List.count_append, List.count_eq_zero_of_not_mem hno]
      simp

/-- C11 on the sample shard handler: a failed dispatch, then a successful one, then a third call
    that is suppressed. -/
theorem C11_request_header_dedup_witness :
    ∃ newCalls attempts,
      (runRequestHeader shardHandler 1 [1, 2]
          [(failingEnv, 5000), (okEnv, 5001), (okEnv, 5002)]).calls
        = (sweepIfNeeded 5000 shardHandler).calls ++ newCalls ∧
      ReqCall.RequestDataFromHash [1, 2] true ∉ attempts ∧
      sweepInstants newCalls = [] ∧
      (newCalls = attempts ∨ newCalls = attempts ++ [ReqCall.RequestDataFromHash [1, 2] true]) ∧
      newCalls.count (ReqCall.RequestDataFromHash [1, 2] true) ≤ 1 :=
  C11_request_header_dedup shardHandler 1 [1, 2] failingEnv 5000 [(okEnv, 5001), (okEnv, 5002)]
    (by decide)

/-! ### C12 -/

/-- The three single-key methods record a key only after its dispatch succeeded: if the
    requested-items set differs after the call from what `sweepIfNeeded` left, the last call
    logged is a successful dispatch. -/
theorem single_key_added_after_dispatch (env : RequestEnv) (now : Int)
    (rrh : resolverRequestHandler) (destShardID nonce : Nat) (hash : List Byte) :
    ((RequestMiniBlock env now rrh destShardID hash).requestedItemsHandler
          ≠ (sweepIfNeeded now rrh).requestedItemsHandler →
        (RequestMiniBlock env now rrh destShardID hash).calls.getLast?
          = some (ReqCall.RequestDataFromHash hash true)) ∧
      ((RequestHeader env now rrh destShardID hash).requestedItemsHandler
          ≠ (sweepIfNeeded now rrh).requestedItemsHandler →
        (RequestHeader env now rrh destShardID hash).calls.getLast?
          = some (ReqCall.RequestDataFromHash hash true)) ∧
      ((RequestHeaderByNonce env now rrh destShardID nonce).requestedItemsHandler
          ≠ (sweepIfNeeded now rrh).requestedItemsHandler →
        (RequestHeaderByNonce env now rrh destShardID nonce).calls.getLast?
          = some (ReqCall.RequestDataFromNonce nonce true)) := by
  refine ⟨?_, ?_, ?_⟩
  · unfold RequestMiniBlock
    dsimp only
    split_ifs
    · intro h; exact absurd rfl h
    · cases env.CrossShardResolver (sweepIfNeeded now rrh).mbRequestTopic destShardID with
      | error e => intro h; exact absurd rfl h
      | ok resolver =>
        dsimp only
        cases resolver.RequestDataFromHash hash with
        | some e => intro h; exact absurd rfl h
        | none => intro _; simp
  · unfold RequestHeader
    dsimp only
    split_ifs
    · intro h; exact absurd rfl h
    · cases env.MetaChainResolver (sweepIfNeeded now rrh).metaHdrRequestTopic with
      | error e => intro h; exact absurd rfl h
      | ok resolver =>
        dsimp only
        cases resolver.RequestDataFromHash hash with
        | some e => intro h; exact absurd rfl h
        | none => intro _; simp
    · cases env.CrossShardResolver (sweepIfNeeded now rrh).shardHdrRequestTopic destShardID with
      | error e => intro h; exact absurd rfl h
      | ok resolver =>
        dsimp only
        cases resolver.RequestDataFromHash hash with
        | some e => intro h; exact absurd rfl h
        | none => intro _; simp
  · unfold RequestHeaderByNonce
    dsimp only
    split_ifs
    · intro h; exact absurd rfl h
    · cases env.CrossShardResolver (sweepIfNeeded now rrh).shardHdrRequestTopic destShardID with
      | error e => intro h; exact absurd rfl h
      | ok resolver =>
        dsimp only
        cases resolver.RequestDataFromNonce with
        | none => intro h; exact absurd rfl h
        | some request =>
          dsimp only
          cases request nonce with
          | some e => intro h; exact absurd rfl h
          | none => intro _; simp
    · cases env.MetaChainResolver (sweepIfNeeded now rrh).metaHdrRequestTopic with
      | error e => intro h; exact absurd rfl h
      | ok resolver =>
        dsimp only
        cases resolver.RequestDataFromNonce with
        | none => intro h; exact absurd rfl h
        | some request =>
          dsimp only
          cases request nonce with
          | some e => intro h; exact absurd rfl h
          | none => intro _; simp

/-- C12 (the code at the failing input): `RequestTransaction(1, [[1,2]])` on the sample shard
    handler, in surroundings where no resolver is found. The only call logged is the failed
    lookup, nothing is dispatched, and yet the key of the hash is in the requested-items set
    afterwards (it was not before); `RequestHeader` with the same hash in the same surroundings
    adds no key. -/
theorem C12_hash_recorded_without_dispatch :
    shardHandler.requestedItemsHandler.Has (bytesToString [1, 2]) = false ∧
    (RequestTransaction noResolverEnv 5000 shardHandler 1 [[1, 2]]).calls
      = [ReqCall.CrossShardResolver "tx" 1] ∧
    (RequestTransaction noResolverEnv 5000 shardHandler 1 [[1, 2]]).requestedItemsHandler.Has
      (bytesToString [1, 2]) = true ∧
    (RequestHeader noResolverEnv 5000 shardHandler 1 [1, 2]).requestedItemsHandler.Has
      (bytesToString [1, 2]) = false := by
  decide

/-! ### C13 -/

/-- C13 (as stated, refuted): on a shard handler, `RequestHeaderByNonce(1, 7)` for the peer
    shard 1 (which is not the meta-chain shard id) looks up the meta-chain resolver with the meta
    header topic, not the cross-shard resolver. -/
theorem C13_by_nonce_ignores_target_shard :
    (1 : Nat) ≠ okEnv.MetachainShardId ∧
    (RequestHeaderByNonce okEnv 5000 shardHandler 1 7).calls
      = [ReqCall.MetaChainResolver "metaHdr", ReqCall.RequestDataFromNonce 7 true] := by
  decide

/-- C13 (amended): when the key is not in the requested-items set after the due sweep,
    `RequestHeader(destShard, hash)` looks up the meta-chain resolver with the meta header topic
    if `destShard` is the meta-chain shard id and the cross-shard resolver for `destShard` with
    the shard header topic otherwise; `RequestHeaderByNonce(destShard, nonce)` selects by the
    kind of the handler instead: a meta-chain handler looks up the cross-shard resolver for
    `destShard` with the shard header topic, a shard handler the meta-chain resolver with the
    meta header topic. Each makes this one lookup and no other. -/
theorem C13_resolver_selection (env : RequestEnv) (now : Int) (rrh : resolverRequestHandler)
    (destShardID nonce : Nat) (hash : List Byte)
    (hhash : (sweepIfNeeded now rrh).requestedItemsHandler.Has (bytesToString hash) = false)
    (hnonce : (sweepIfNeeded now rrh).requestedItemsHandler.Has (nonceKey destShardID nonce)
      = false) :
    (∃ rest, (RequestHeader env now rrh destShardID hash).calls
        = (sweepIfNeeded now rrh).calls ++
          (if destShardID = env.MetachainShardId then
            ReqCall.MetaChainResolver rrh.metaHdrRequestTopic
          else ReqCall.CrossShardResolver rrh.shardHdrRequestTopic destShardID) :: rest ∧
        ∀ c ∈ rest, c.isLookup = false) ∧
      (∃ rest, (RequestHeaderByNonce env now rrh destShardID nonce).calls
        = (sweepIfNeeded now rrh).calls ++
          (if rrh.isMetaChain then
            ReqCall.CrossShardResolver rrh.shardHdrRequestTopic destShardID
          else ReqCall.MetaChainResolver rrh.metaHdrRequestTopic) :: rest ∧
        ∀ c ∈ rest, c.isLookup = false) := by
  have htopics : (sweepIfNeeded now rrh).metaHdrRequestTopic = rrh.metaHdrRequestTopic ∧
      (sweepIfNeeded now rrh).shardHdrRequestTopic = rrh.shardHdrRequestTopic ∧
      (sweepIfNeeded now rrh).isMetaChain = rrh.isMetaChain := by
    unfold sweepIfNeeded
    split_ifs <;> exact ⟨rfl, rfl, rfl⟩
  obtain ⟨hm, hs, hk⟩ := htopics
  refine ⟨?_, ?_⟩
  · unfold RequestHeader
    simp only [hhash, Bool.false_eq_true, if_false, hm, hs]
    by_cases hmeta : destShardID = env.MetachainShardId
    · simp only [hmeta, if_true]
      cases env.MetaChainResolver rrh.metaHdrRequestTopic with
      | error e => exact ⟨[], rfl, by simp⟩
      | ok resolver =>
        dsimp only
        cases resolver.RequestDataFromHash hash with
        | some e => exact ⟨[_], List.append_assoc _ _ _, by simp [ReqCall.isLookup]⟩
        | none => exact ⟨[_], List.append_assoc _ _ _, by simp [ReqCall.isLookup]⟩
    · simp only [hmeta, if_false]
      cases env.CrossShardResolver rrh.shardHdrRequestTopic destShardID with
      | error e => exact ⟨[], rfl, by simp⟩
      | ok resolver =>
        dsimp only
        cases resolver.RequestDataFromHash hash with
        | some e => exact ⟨[_], List.append_assoc _ _ _, by simp [ReqCall.isLookup]⟩
        | none => exact ⟨[_], List.append_assoc _ _ _, by simp [ReqCall.isLookup]⟩
  · unfold RequestHeaderByNonce
    simp only [hnonce, Bool.false_eq_true, if_false, hm, hs, hk]
    cases hkind : rrh.isMetaChain with
    | true =>
      simp only [if_true]
      cases env.CrossShardResolver rrh.shardHdrRequestTopic destShardID with
      | error e => exact ⟨[], rfl, by simp⟩
      | ok resolver =>
        dsimp only
        cases resolver.RequestDataFromNonce with
        | none => exact ⟨[], rfl, by simp⟩
        | some request =>
          dsimp only
          cases request nonce with
          | some e => exact ⟨[_], List.append_assoc _ _ _, by simp [ReqCall.isLookup]⟩
          | none => exact ⟨[_], List.append_assoc _ _ _, by simp [ReqCall.isLookup]⟩
    | false =>
      simp only [Bool.false_eq_true, if_false]
      cases env.MetaChainResolver rrh.metaHdrRequestTopic with
      | error e => exact ⟨[], rfl, by simp⟩
      | ok resolver =>
        dsimp only
        cases resolver.RequestDataFromNonce with
        | none => exact ⟨[], rfl, by simp⟩
        | some request =>
          dsimp only
          cases request nonce with
          | some e => exact ⟨[_], List.append_assoc _ _ _, by simp [ReqCall.isLookup]⟩
          | none => exact ⟨[_], List.append_assoc _ _ _, by simp [ReqCall.isLookup]⟩

/-- C13 on the sample shard handler, for the meta-chain shard id as target. -/
theorem C13_resolver_selection_witness :
    ∃ rest, (RequestHeader okEnv 5000 shardHandler 4294967295 [9]).calls
        = (sweepIfNeeded 5000 shardHandler).calls ++
          (if 4294967295 = okEnv.MetachainShardId then
            ReqCall.MetaChainResolver shardHandler.metaHdrRequestTopic
          else ReqCall.CrossShardResolver shardHandler.shardHdrRequestTopic 4294967295) :: rest ∧
        ∀ c ∈ rest, c.isLookup = false :=
  (C13_resolver_selection okEnv 5000 shardHandler 4294967295 7 [9] (by decide) (by decide)).1

/-! ## Theorems: persistent status handler -/

theorem store_isSome (m : MetricsMap) (key : String) (value : MetricValue) (k : String)
    (hkey : (m key).isSome = true) : ((m.Store key value) k).isSome = (m k).isSome := by
  unfold MetricsMap.Store
  by_cases h : k = key
  · subst h; simp [hkey]
  · simp [h]

theorem saveMetricsInDb_frame (psh : PersistentStatusHandler) (nonce : Nat) :
    (saveMetricsInDb psh nonce).persistentMetrics = psh.persistentMetrics ∧
      (saveMetricsInDb psh nonce).store = psh.store ∧
      (saveMetricsInDb psh nonce).marshalizer = psh.marshalizer ∧
      (saveMetricsInDb psh nonce).uint64ByteSliceConverter = psh.uint64ByteSliceConverter ∧
      (saveMetricsInDb psh nonce).startSaveInStorage = psh.startSaveInStorage := by
  unfold saveMetricsInDb
  dsimp only
  cases psh.marshalizer psh.persistentMetrics with
  | error e => exact ⟨rfl, rfl, rfl, rfl, rfl⟩
  | ok bytes =>
    dsimp only
    cases psh.store (psh.uint64ByteSliceConverter nonce) bytes <;> exact ⟨rfl, rfl, rfl, rfl, rfl⟩

/-- No step changes which keys the metrics map holds. -/
theorem metric_op_keys (env : PersisterEnv) (psh : PersistentStatusHandler) (op : MetricOp)
    (k : String) :
    ((op.apply env psh).persistentMetrics k).isSome = (psh.persistentMetrics k).isSome := by
  cases op with
  | SetUInt64Value key value =>
    simp only [MetricOp.apply, SetUInt64Value]
    cases hk : psh.persistentMetrics key with
    | none => rfl
    | some old =>
      dsimp only
      split_ifs
      · exact store_isSome _ _ _ _ (by simp [hk])
      · exact store_isSome _ _ _ _ (by simp [hk])
      · exact store_isSome _ _ _ _ (by simp [hk])
      · rw [(saveMetricsInDb_frame _ _).1]
        exact store_isSome _ _ _ _ (by simp [hk])
  | SetInt64Value key value =>
    simp only [MetricOp.apply, SetInt64Value]
    cases hk : psh.persistentMetrics key with
    | none => rfl
    | some old => exact store_isSome _ _ _ _ (by simp [hk])
  | SetStringValue key value =>
    simp only [MetricOp.apply, SetStringValue]
    cases hk : psh.persistentMetrics key with
    | none => rfl
    | some old => exact store_isSome _ _ _ _ (by simp [hk])
  | AddUint64 key value =>
    simp only [MetricOp.apply, AddUint64]
    cases hk : psh.persistentMetrics key with
    | none => rfl
    | some old =>
      cases old with
      | uint64 n => exact store_isSome _ _ _ _ (by simp [hk])
      | int64 i => rfl
      | string s => rfl
  | Increment key =>
    simp only [MetricOp.apply, Increment, AddUint64]
    cases hk : psh.persistentMetrics key with
    | none => rfl
    | some old =>
      cases old with
      | uint64 n => exact store_isSome _ _ _ _ (by simp [hk])
      | int64 i => rfl
      | string s => rfl
  | Decrement key =>
    simp only [MetricOp.apply, Decrement]
    cases hk : psh.persistentMetrics key with
    | none => rfl
    | some old =>
      cases old with
      | uint64 n =>
        dsimp only
        split_ifs
        · rfl
        · exact store_isSome _ _ _ _ (by simp [hk])
      | int64 i => rfl
      | string s => rfl
  | SetStorage store =>
    cases store <;> rfl
  | startSaving => rfl

theorem run_metric_ops_keys (env : PersisterEnv) (ops : List MetricOp) (k : String) :
    ∀ psh : PersistentStatusHandler,
      ((runMetricOps env psh ops).persistentMetrics k).isSome
        = (psh.persistentMetrics k).isSome := by
  induction ops with
  | nil => intro psh; rfl
  | cons op rest ih =>
    intro psh
    rw [runMetricOps, ih, metric_op_keys]

theorem initMap_values (env : PersisterEnv) (psh : PersistentStatusHandler) (k : String) :
    (initMap env psh).persistentMetrics k
      = if k ∈ initialKeys env then some (.uint64 0) else psh.persistentMetrics k := by
  simp only [initMap, MetricsMap.Store, initialKeys, List.mem_cons, List.mem_singleton,
    List.not_mem_nil, or_false]
  split_ifs <;> simp_all

/-! ### C15 -/

/-- C15: the set of keys of a `PersistentStatusHandler` is fixed at construction. A new handler
    holds exactly the seven keys of `initMap`, each at `uint64` 0; after any sequence of steps
    it holds exactly the same keys; and for a key outside that set `SetUInt64Value`,
    `SetInt64Value`, `SetStringValue`, `AddUint64`, `Increment` and `Decrement` leave the
    handler as it is, the key staying absent. -/
theorem C15_metric_keys_fixed (env : PersisterEnv)
    (marshalizer : MetricsMap → Except PersistError (List Byte))
    (converter : Nat → List Byte) (psh0 : PersistentStatusHandler)
    (hnew : NewPersistentStatusHandler env (some marshalizer) (some converter) = .ok psh0)
    (ops : List MetricOp) (key : String) (hkey : key ∉ initialKeys env)
    (u : Nat) (i : Int) (s : String) :
    (∀ k, psh0.persistentMetrics k = if k ∈ initialKeys env then some (.uint64 0) else none) ∧
      (∀ k, ((runMetricOps env psh0 ops).persistentMetrics k).isSome = true
        ↔ k ∈ initialKeys env) ∧
      (runMetricOps env psh0 ops).persistentMetrics key = none ∧
      SetUInt64Value env (runMetricOps env psh0 ops) key u = runMetricOps env psh0 ops ∧
      SetInt64Value (runMetricOps env psh0 ops) key i = runMetricOps env psh0 ops ∧
      SetStringValue (runMetricOps env psh0 ops) key s = runMetricOps env psh0 ops ∧
      AddUint64 (runMetricOps env psh0 ops) key u = runMetricOps env psh0 ops ∧
      Increment (runMetricOps env psh0 ops) key = runMetricOps env psh0 ops ∧
      Decrement (runMetricOps env psh0 ops) key = runMetricOps env psh0 ops := by
  simp only [NewPersistentStatusHandler, Except.ok.injEq] at hnew
  have hinit : ∀ k, psh0.persistentMetrics k
      = if k ∈ initialKeys env then some (.uint64 0) else none := by
    intro k
    rw [← hnew, initMap_values]
  have hkeys : ∀ k, ((runMetricOps env psh0 ops).persistentMetrics k).isSome = true
      ↔ k ∈ initialKeys env := by
    intro k
    rw [run_metric_ops_keys, hinit]
    by_cases hk : k ∈ initialKeys env <;> simp [hk]
  have habsent : (runMetricOps env psh0 ops).persistentMetrics key = none := by
    cases h : (runMetricOps env psh0 ops).persistentMetrics key with
    | none => rfl
    | some v => exact absurd ((hkeys key).1 (by simp [h])) hkey
  refine ⟨hinit, hkeys, habsent, ?_, ?_, ?_, ?_, ?_, ?_⟩
  · simp only [SetUInt64Value, habsent]
  · simp only [SetInt64Value, habsent]
  · simp only [SetStringValue, habsent]
  · simp only [AddUint64, habsent]
  · simp only [Increment, AddUint64, habsent]
  · simp only [Decrement, habsent]

/-- C15 on the sample handler: after a few steps the key "key" is still absent. -/
theorem C15_metric_keys_fixed_witness :
    (runMetricOps samplePersisterEnv sampleHandler
      [MetricOp.SetUInt64Value "key" 100, MetricOp.Increment "count_leader",
       MetricOp.SetStringValue "nonce" "x", MetricOp.Increment "key"]).persistentMetrics "key"
      = none :=
  (C15_metric_keys_fixed samplePersisterEnv (fun _ => .error (.external 1)) putUint64BE
    sampleHandler rfl
    [MetricOp.SetUInt64Value "key" 100, MetricOp.Increment "count_leader",
     MetricOp.SetStringValue "nonce" "x", MetricOp.Increment "key"]
    "key" (by decide) 100 0 "").2.2.1

theorem SetUInt64Value_stored (env : PersisterEnv) (psh : PersistentStatusHandler) (key : String)
    (old : MetricValue) (value : Nat) (hold : psh.persistentMetrics key = some old) :
    (SetUInt64Value env psh key value).persistentMetrics
      = psh.persistentMetrics.Store key (.uint64 value) := by
  simp only [SetUInt64Value, hold]
  split_ifs
  · rfl
  · rfl
  · rfl
  · exact (saveMetricsInDb_frame _ _).1

theorem store_same (m : MetricsMap) (key : String) (value : MetricValue) :
    (m.Store key value) key = some value := by
  simp [MetricsMap.Store]

/-! ### C16 -/

/-- C16: on a known key holding the `uint64` x, `SetUInt64Value(key, v)` leaves v stored,
    `AddUint64(key, w)` leaves `(x + w) mod 2^64`, and `Increment(key)` is `AddUint64(key, 1)`;
    hence `SetUInt64Value(key, v)` then `AddUint64(key, w)` leaves `(v + w) mod 2^64`, and
    on a handler just built `AddUint64(key, v)` then `Increment(key)` leaves
    `(v + 1) mod 2^64` for `v` a `uint64`. -/
theorem C16_set_add_increment (env : PersisterEnv) (psh : PersistentStatusHandler) (key : String)
    (x v w : Nat) (hx : psh.persistentMetrics key = some (.uint64 x)) (hv : v < 2 ^ 64) :
    (SetUInt64Value env psh key v).persistentMetrics key = some (.uint64 v) ∧
      (AddUint64 psh key w).persistentMetrics key = some (.uint64 ((x + w) % 2 ^ 64)) ∧
      Increment psh key = AddUint64 psh key 1 ∧
      (AddUint64 (SetUInt64Value env psh key v) key w).persistentMetrics key
        = some (.uint64 ((v + w) % 2 ^ 64)) ∧
      (x = 0 → (Increment (AddUint64 psh key v) key).persistentMetrics key
        = some (.uint64 ((v + 1) % 2 ^ 64))) := by
  have hset : (SetUInt64Value env psh key v).persistentMetrics key = some (.uint64 v) := by
    rw [SetUInt64Value_stored env psh key _ v hx, store_same]
  have hadd : ∀ (p : PersistentStatusHandler) (y z : Nat),
      p.persistentMetrics key = some (.uint64 y) →
      (AddUint64 p key z).persistentMetrics key = some (.uint64 ((y + z) % 2 ^ 64)) := by
    intro p y z hy
    simp only [AddUint64, hy, store_same]
  refine ⟨hset, hadd psh x w hx, rfl, hadd _ v w hset, ?_⟩
  intro h0
  subst h0
  have h1 := hadd psh 0 v hx
  rw [Nat.zero_add, Nat.mod_eq_of_lt hv] at h1
  exact hadd _ v 1 h1

/-- C16 on the sample handler and the accepted-blocks counter, as in the tests: 100 is added,
    then the counter is incremented. -/
theorem C16_set_add_increment_witness :
    (Increment (AddUint64 sampleHandler "count_accepted_blocks" 100)
        "count_accepted_blocks").persistentMetrics "count_accepted_blocks"
      = some (.uint64 ((100 + 1) % 2 ^ 64)) :=
  (C16_set_add_increment samplePersisterEnv sampleHandler "count_accepted_blocks" 0 100 100
    (by decide) (by decide)).2.2.2.2 rfl

/-! ### C17 -/

/-- C17: on a known key holding the `uint64` x, `Decrement(key)` leaves `x - 1` stored when
    `x > 0` and leaves the handler as it is when `x = 0`: the counter never wraps below zero. -/
theorem C17_decrement_saturates (psh : PersistentStatusHandler) (key : String) (x : Nat)
    (hx : psh.persistentMetrics key = some (.uint64 x)) (hlt : x < 2 ^ 64) :
    (0 < x → (Decrement psh key).persistentMetrics key = some (.uint64 (x - 1))) ∧
      (x = 0 → Decrement psh key = psh) ∧
      ∃ y, (Decrement psh key).persistentMetrics key = some (.uint64 y) ∧ y ≤ x := by
  have hpos : 0 < x → (Decrement psh key).persistentMetrics key = some (.uint64 (x - 1)) := by
    intro h
    have hne : x ≠ 0 := by omega
    simp only [Decrement, hx, hne, if_false, store_same]
    have h64 : (2 : Nat) ^ 64 = 18446744073709551616 := by norm_num
    rw [h64] at hlt ⊢
    have hval : (x + 18446744073709551616 - 1) % 18446744073709551616 = x - 1 := by omega
    rw [hval]
  have hzero : x = 0 → Decrement psh key = psh := by
    intro h
    simp only [Decrement, hx, h, if_true]
  refine ⟨hpos, hzero, ?_⟩
  rcases Nat.eq_zero_or_pos x with h | h
  · exact ⟨x, by rw [hzero h, hx], le_refl _⟩
  · exact ⟨x - 1, hpos h, Nat.sub_le _ _⟩

/-- C17 on the sample handler, whose counters are at 0. -/
theorem C17_decrement_saturates_witness :
    Decrement sampleHandler "count_accepted_blocks" = sampleHandler :=
  (C17_decrement_saturates sampleHandler "count_accepted_blocks" 0 (by decide)
    (by decide)).2.1 rfl

/-! ### C18 -/

/-- C18: `saveMetricsInDb` calls the marshalizer exactly once; when marshalling fails that is
    its only call; when marshalling succeeds it then converts the nonce and calls `Put` exactly
    once, whatever `Put` answers; in every case the metrics map and the other fields of the
    handler are as before (the method returns nothing to its caller). -/
theorem C18_save_discards_errors (psh : PersistentStatusHandler) (nonce : Nat) :
    (saveMetricsInDb psh nonce).persistentMetrics = psh.persistentMetrics ∧
      (saveMetricsInDb psh nonce).startSaveInStorage = psh.startSaveInStorage ∧
      (∀ err, psh.marshalizer psh.persistentMetrics = .error err →
        (saveMetricsInDb psh nonce).calls = psh.calls ++ [PersistCall.Marshal]) ∧
      (∀ bytes, psh.marshalizer psh.persistentMetrics = .ok bytes →
        (saveMetricsInDb psh nonce).calls = psh.calls ++
          [PersistCall.Marshal, PersistCall.ToByteSlice nonce,
           PersistCall.Put (psh.uint64ByteSliceConverter nonce) bytes
             (psh.store (psh.uint64ByteSliceConverter nonce) bytes).isNone]) ∧
      ∃ newCalls, (saveMetricsInDb psh nonce).calls = psh.calls ++ newCalls ∧
        newCalls.count PersistCall.Marshal = 1 ∧
        (newCalls.filter (fun c => match c with
          | PersistCall.Put _ _ _ => true
          | _ => false)).length ≤ 1 := by
  refine ⟨(saveMetricsInDb_frame psh nonce).1, (saveMetricsInDb_frame psh nonce).2.2.2.2,
    ?_, ?_, ?_⟩
  · intro err herr
    simp only [saveMetricsInDb, herr]
  · intro bytes hbytes
    simp only [saveMetricsInDb, hbytes]
    cases psh.store (psh.uint64ByteSliceConverter nonce) bytes <;> simp
  · unfold saveMetricsInDb
    dsimp only
    cases psh.marshalizer psh.persistentMetrics with
    | error err => exact ⟨[PersistCall.Marshal], rfl, by decide, by decide⟩
    | ok bytes =>
      dsimp only
      refine ⟨[PersistCall.Marshal, PersistCall.ToByteSlice nonce,
        PersistCall.Put (psh.uint64ByteSliceConverter nonce) bytes
          (psh.store (psh.uint64ByteSliceConverter nonce) bytes).isNone], ?_, ?_, ?_⟩
      · cases psh.store (psh.uint64ByteSliceConverter nonce) bytes <;> simp
      · simp [List.count_cons]
      · simp [List.filter]

/-! ## Theorems: trie key encoding -/

set_option maxRecDepth 100000 in
theorem byte_from_nibbles : ∀ b : Byte, b / hexTerminator * hexTerminator + b % hexTerminator = b := by
  decide

set_option maxRecDepth 100000 in
theorem nibble_lt : ∀ b : Byte, b / hexTerminator < 16 ∧ b % hexTerminator < 16 := by
  decide

theorem keyBytesToHex_cons (b : Byte) (k : List Byte) :
    keyBytesToHex (b :: k) = b / hexTerminator :: b % hexTerminator :: keyBytesToHex k := by
  simp [keyBytesToHex]

theorem keyBytesToHex_length (k : List Byte) : (keyBytesToHex k).length = 2 * k.length + 1 := by
  induction k with
  | nil => rfl
  | cons b rest ih =>
    rw [keyBytesToHex_cons, List.length_cons, List.length_cons, ih, List.length_cons]
    omega

theorem keyBytesToHex_dropLast (k : List Byte) :
    (keyBytesToHex k).dropLast
      = k.flatMap (fun b => [b / hexTerminator, b % hexTerminator]) := by
  unfold keyBytesToHex
  rw [List.dropLast_concat]

theorem nibblesToBytes_flatMap (k : List Byte) :
    nibblesToBytes (k.flatMap (fun b => [b / hexTerminator, b % hexTerminator])) = k := by
  induction k with
  | nil => rfl
  | cons b rest ih =>
    rw [List.flatMap_cons]
    show nibblesToBytes (b / hexTerminator :: b % hexTerminator ::
      rest.flatMap (fun b => [b / hexTerminator, b % hexTerminator])) = b :: rest
    rw [nibblesToBytes, ih, byte_from_nibbles]

theorem keyBytesToHex_getElem (k : List Byte) :
    ∀ i (hi : i < k.length),
      (keyBytesToHex k)[2 * i]? = some (k[i] / hexTerminator) ∧
      (keyBytesToHex k)[2 * i + 1]? = some (k[i] % hexTerminator) := by
  induction k with
  | nil => intro i hi; simp at hi
  | cons b rest ih =>
    intro i hi
    rw [keyBytesToHex_cons]
    cases i with
    | zero => simp
    | succ j =>
      have hj : j < rest.length := by simpa using hi
      obtain ⟨h1, h2⟩ := ih j hj
      have e1 : 2 * (j + 1) = 2 * j + 1 + 1 := by omega
      rw [e1]
      simp only [List.getElem?_cons_succ, List.getElem_cons_succ]
      exact ⟨h1, h2⟩

/-! ### C19 -/

/-- C19: for every byte string k, `hexToKeyBytes(keyBytesToHex(k))` returns k with no error;
    `keyBytesToHex(k)` has `2*len(k)+1` nibbles, the high then the low 4-bit nibble of each byte
    (each below 16) followed by the terminator 16; and "doe" corresponds to
    `[6,4,6,15,6,5,16]` in both directions. -/
theorem C19_key_hex_round_trip (k : List Byte) :
    hexToKeyBytes (keyBytesToHex k) = (some k, none) ∧
      (keyBytesToHex k).length = 2 * k.length + 1 ∧
      (∀ i (hi : i < k.length),
        (keyBytesToHex k)[2 * i]? = some (k[i] / 16) ∧
        (keyBytesToHex k)[2 * i + 1]? = some (k[i] % 16) ∧
        k[i] / 16 < 16 ∧ k[i] % 16 < 16) ∧
      (keyBytesToHex k)[2 * k.length]? = some 16 ∧
      keyBytesToHex [0x64, 0x6f, 0x65] = [6, 4, 6, 15, 6, 5, 16] ∧
      hexToKeyBytes [6, 4, 6, 15, 6, 5, 16] = (some [0x64, 0x6f, 0x65], none) := by
  refine ⟨?_, keyBytesToHex_length k, ?_, ?_, by decide, by decide⟩
  · unfold hexToKeyBytes
    dsimp only
    rw [keyBytesToHex_dropLast, nibblesToBytes_flatMap]
    have hlen : (k.flatMap (fun b => [b / hexTerminator, b % hexTerminator])).length % 2 = 0 := by
      have h := keyBytesToHex_length k
      unfold keyBytesToHex at h
      rw [List.length_append, List.length_singleton] at h
      omega
    rw [if_neg (fun h => h hlen)]
  · intro i hi
    obtain ⟨h1, h2⟩ := keyBytesToHex_getElem k i hi
    exact ⟨h1, h2, (nibble_lt k[i]).1, (nibble_lt k[i]).2⟩
  · unfold keyBytesToHex
    have hlen : (k.flatMap (fun b => [b / hexTerminator, b % hexTerminator])).length
        = 2 * k.length := by
      have h := keyBytesToHex_length k
      unfold keyBytesToHex at h
      rw [List.length_append, List.length_singleton] at h
      omega
    rw [List.getElem?_append_right (by omega), hlen]
    simp [hexTerminator]

/-! ### C20 -/

/-- C20: for every nibble sequence whose nibble count, once the trailing terminator position is
    removed, is odd, `hexToKeyBytes` returns a nil key and `ErrInvalidLength`. -/
theorem C20_odd_length_rejected (hex : List Byte) (hodd : (hex.length - 1) % 2 = 1) :
    hexToKeyBytes hex = (none, some .ErrInvalidLength) := by
  unfold hexToKeyBytes
  dsimp only
  rw [List.length_dropLast, if_pos (by omega)]

/-- C20 on the input of the test, `[6,4,6,15,6,5]`. -/
theorem C20_odd_length_rejected_witness :
    hexToKeyBytes [6, 4, 6, 15, 6, 5] = (none, some .ErrInvalidLength) :=
  C20_odd_length_rejected [6, 4, 6, 15, 6, 5] (by decide)

/-! ## Theorems: further properties -/

/-! ### C21 -/

/-- C21: for every leaf, extension and branch node n that the marshalizer serializes,
    `encodeNodeAndGetHash(n)` succeeds and equals `hash(marshal(n) ++ [tag])`, the single
    trailing tag byte being 0x00 for an extension node, 0x01 for a leaf node and 0x02 for a
    branch node. -/
theorem C21_node_hash_is_hash_of_tagged_encoding (n : TrieNode)
    (marshal : TrieNode → Except Nat (List Byte)) (hasher : Hasher) (encNode : List Byte)
    (hmarshal : marshal n = .ok encNode) :
    encodeNodeAndGetHash (some n) marshal hasher = (some (hasher (encNode ++ [n.tag])), none) ∧
      (∀ key child, (TrieNode.extension key child).tag = 0x00) ∧
      (∀ key value, (TrieNode.leaf key value).tag = 0x01) ∧
      (∀ children, (TrieNode.branch children).tag = 0x02) := by
  refine ⟨?_, fun _ _ => rfl, fun _ _ => rfl, fun _ => rfl⟩
  simp only [encodeNodeAndGetHash, hmarshal]

/-- C21 on the leaf node of the tests, key `[100, 111, 103]`. -/
theorem C21_node_hash_is_hash_of_tagged_encoding_witness :
    encodeNodeAndGetHash (some (.leaf [100, 111, 103] [1])) stubNodeMarshal stubHasher
      = (some (stubHasher ([100, 111, 103, 1] ++ [(TrieNode.leaf [100, 111, 103] [1]).tag])),
          none) :=
  (C21_node_hash_is_hash_of_tagged_encoding (.leaf [100, 111, 103] [1]) stubNodeMarshal
    stubHasher [100, 111, 103, 1] rfl).1

/-! ### C22 -/

/-- The tests of `CreateHeader` replayed. With no current header the header is the one
    `TestSubroundBlock_CreateHeaderNilCurrentHeader` expects, for every signer. With the current
    header `{Nonce: 1}` the random seed is the signature of the current header's seed (empty),
    as `TestSubroundBlock_CreateHeaderMultipleMiniBlocks` expects.
    `TestSubroundBlock_CreateHeaderNotNilCurrentHeader` writes its expected seed as the signature
    of the genesis seed `[0]` instead: that is the header built here exactly when the signer
    gives the empty seed the same signature, as a signer that does not look at the message
    does. -/
theorem CreateHeader_test_headers
    (sign : List Byte → List Byte → Except SposError (List Byte)) (privateKey sig : List Byte)
    (rounderIndex rounderTimeStampUnix : Int) :
    (sign privateKey [0] = .ok sig →
      CreateHeader genesisChain rounderIndex rounderTimeStampUnix sign privateKey
        = .ok ⟨1, genesisChain.genesisHash, [0], sig, toUint64 rounderIndex,
            toUint64 rounderTimeStampUnix⟩) ∧
    (sign privateKey [] = .ok sig →
      CreateHeader chainOfTest rounderIndex rounderTimeStampUnix sign privateKey
        = .ok ⟨2, [], [], sig, toUint64 rounderIndex, toUint64 rounderTimeStampUnix⟩) ∧
    (sign privateKey [0] = .ok sig →
      (CreateHeader chainOfTest rounderIndex rounderTimeStampUnix sign privateKey
          = .ok ⟨2, [], [], sig, toUint64 rounderIndex, toUint64 rounderTimeStampUnix⟩ ↔
        sign privateKey [] = .ok sig)) ∧
    CreateHeader chainOfTest rounderIndex rounderTimeStampUnix constantSign privateKey
      = .ok ⟨2, [], [], [0x73], toUint64 rounderIndex, toUint64 rounderTimeStampUnix⟩ ∧
    constantSign privateKey chainOfTest.genesisHeader.RandSeed = .ok [0x73] := by
  have hgen : ∀ s, sign privateKey [0] = .ok s →
      CreateHeader genesisChain rounderIndex rounderTimeStampUnix sign privateKey
        = .ok ⟨1, genesisChain.genesisHash, [0], s, toUint64 rounderIndex,
            toUint64 rounderTimeStampUnix⟩ := by
    intro s h
    simp only [CreateHeader, genesisChain, h]
  have hcur : ∀ s, sign privateKey [] = .ok s →
      CreateHeader chainOfTest rounderIndex rounderTimeStampUnix sign privateKey
        = .ok ⟨2, [], [], s, toUint64 rounderIndex, toUint64 rounderTimeStampUnix⟩ := by
    intro s h
    simp only [CreateHeader, chainOfTest, genesisChain, h]
  refine ⟨hgen sig, hcur sig, fun _ => ⟨?_, hcur sig⟩, rfl, rfl⟩
  intro h
  cases hs : sign privateKey [] with
  | error e =>
    simp only [CreateHeader, chainOfTest, genesisChain, hs, reduceCtorEq] at h
  | ok s =>
    rw [hcur s hs] at h
    simp only [Except.ok.injEq, BlockHeader.mk.injEq, true_and, and_true] at h
    rw [h]

/-- C22: when the signer succeeds, `CreateHeader` follows the header-construction rules. With
    no current header: Nonce 1, PrevHash the genesis header hash, PrevRandSeed the genesis
    RandSeed, RandSeed the signature of the genesis RandSeed. Otherwise: Nonce the current nonce
    plus 1, PrevHash the current header hash, PrevRandSeed empty, RandSeed the signature of the
    current RandSeed. In both cases Round and TimeStamp are the rounder's index and Unix time
    as `uint64`, that is modulo `2^64`, hence the values themselves when they are not
    negative. -/
theorem C22_header_construction_rules (chain : ChainView) (rounderIndex rounderTimeStampUnix : Int)
    (sign : List Byte → List Byte → Except SposError (List Byte)) (privateKey : List Byte)
    (randSeed : List Byte)
    (hsign : sign privateKey (match chain.currentHeader with
      | none => chain.genesisHeader.RandSeed
      | some current => current.RandSeed) = .ok randSeed) :
    ∃ hdr, CreateHeader chain rounderIndex rounderTimeStampUnix sign privateKey = .ok hdr ∧
      hdr.RandSeed = randSeed ∧
      (hdr.Round : Int) = rounderIndex % 2 ^ 64 ∧
      (hdr.TimeStamp : Int) = rounderTimeStampUnix % 2 ^ 64 ∧
      (0 ≤ rounderIndex → rounderIndex < 2 ^ 64 → (hdr.Round : Int) = rounderIndex) ∧
      (0 ≤ rounderTimeStampUnix → rounderTimeStampUnix < 2 ^ 64 →
        (hdr.TimeStamp : Int) = rounderTimeStampUnix) ∧
      (chain.currentHeader = none →
        hdr.Nonce = 1 ∧ hdr.PrevHash = chain.genesisHash ∧
        hdr.PrevRandSeed = chain.genesisHeader.RandSeed ∧
        sign privateKey chain.genesisHeader.RandSeed = .ok hdr.RandSeed) ∧
      (∀ current, chain.currentHeader = some current →
        hdr.Nonce = current.Nonce + 1 ∧ hdr.PrevHash = chain.currentHash ∧
        hdr.PrevRandSeed = [] ∧
        sign privateKey current.RandSeed = .ok hdr.RandSeed) := by
  have hconv : ∀ x : Int, ((toUint64 x : Nat) : Int) = x % 2 ^ 64 := by
    intro x
    unfold toUint64
    exact Int.toNat_of_nonneg (Int.emod_nonneg _ (by norm_num))
  have hsame : ∀ x : Int, 0 ≤ x → x < 2 ^ 64 → ((toUint64 x : Nat) : Int) = x := by
    intro x h0 h1
    rw [hconv, Int.emod_eq_of_lt h0 h1]
  unfold CreateHeader
  dsimp only
  rw [hsign]
  refine ⟨_, rfl, rfl, hconv _, hconv _, hsame _, hsame _, ?_, ?_⟩
  · intro h
    rw [h] at hsign
    simp only [h, true_and]
    exact hsign
  · intro current h
    rw [h] at hsign
    simp only [h, true_and]
    exact hsign

/-- C22 on a chain whose current header has nonce 1 and random seed `[7]`, in round 5 at Unix
    time 1000, with a signer that appends the message to the key. -/
theorem C22_header_construction_rules_witness :
    ∃ hdr, CreateHeader chainAtOne 5 1000 stubSign [9] = .ok hdr ∧ hdr.RandSeed = [9, 7] ∧
      (hdr.Round : Int) = 5 ∧ (hdr.TimeStamp : Int) = 1000 ∧ hdr.Nonce = 2 :=
  let ⟨hdr, h1, h2, _, _, h5, h6, _, h8⟩ :=
    C22_header_construction_rules chainAtOne 5 1000 stubSign [9] [9, 7] rfl
  ⟨hdr, h1, h2, h5 (by decide) (by decide), h6 (by decide) (by decide), (h8 _ rfl).1⟩

/-! ### C23 -/

/-- C23: a key already present in the requested-items set after the due sweep suppresses the
    request entirely. When the key of the hash is present, `RequestMiniBlock` and
    `RequestHeader` leave the handler exactly as `sweepIfNeeded` left it; when the key of the
    (shard, nonce) pair is present, so does `RequestHeaderByNonce`. Hence no resolver is looked
    up, no request is dispatched (the call log is that after the sweep) and the requested-items
    set is unchanged. -/
theorem C23_present_key_suppresses_request (env : RequestEnv) (now : Int)
    (rrh : resolverRequestHandler) (destShardID nonce : Nat) (hash : List Byte) :
    ((sweepIfNeeded now rrh).requestedItemsHandler.Has (bytesToString hash) = true →
      RequestMiniBlock env now rrh destShardID hash = sweepIfNeeded now rrh ∧
      (RequestMiniBlock env now rrh destShardID hash).calls = (sweepIfNeeded now rrh).calls ∧
      (RequestMiniBlock env now rrh destShardID hash).requestedItemsHandler
        = (sweepIfNeeded now rrh).requestedItemsHandler) ∧
    ((sweepIfNeeded now rrh).requestedItemsHandler.Has (bytesToString hash) = true →
      RequestHeader env now rrh destShardID hash = sweepIfNeeded now rrh ∧
      (RequestHeader env now rrh destShardID hash).calls = (sweepIfNeeded now rrh).calls ∧
      (RequestHeader env now rrh destShardID hash).requestedItemsHandler
        = (sweepIfNeeded now rrh).requestedItemsHandler) ∧
    ((sweepIfNeeded now rrh).requestedItemsHandler.Has (nonceKey destShardID nonce) = true →
      RequestHeaderByNonce env now rrh destShardID nonce = sweepIfNeeded now rrh ∧
      (RequestHeaderByNonce env now rrh destShardID nonce).calls
        = (sweepIfNeeded now rrh).calls ∧
      (RequestHeaderByNonce env now rrh destShardID nonce).requestedItemsHandler
        = (sweepIfNeeded now rrh).requestedItemsHandler) := by
  refine ⟨fun hhash => ?_, fun hhash => ?_, fun hnonce => ?_⟩
  · have h : RequestMiniBlock env now rrh destShardID hash = sweepIfNeeded now rrh := by
      simp only [RequestMiniBlock, hhash, if_true]
    exact ⟨h, by rw [h], by rw [h]⟩
  · have h : RequestHeader env now rrh destShardID hash = sweepIfNeeded now rrh := by
      simp only [RequestHeader, hhash, if_true]
    exact ⟨h, by rw [h], by rw [h]⟩
  · have h : RequestHeaderByNonce env now rrh destShardID nonce = sweepIfNeeded now rrh := by
      simp only [RequestHeaderByNonce, hnonce, if_true]
    exact ⟨h, by rw [h], by rw [h]⟩

/-- C23 on a shard handler whose only pending key is that of the hash `[1, 2]`: a request for
    the header with that hash changes nothing. -/
theorem C23_present_key_suppresses_request_witness :
    RequestHeader noResolverEnv 5001
        { shardHandler with requestedItemsHandler := ⟨[(bytesToString [1, 2], 5000)]⟩ }
        1 [1, 2]
      = sweepIfNeeded 5001
        { shardHandler with requestedItemsHandler := ⟨[(bytesToString [1, 2], 5000)]⟩ } :=
  ((C23_present_key_suppresses_request noResolverEnv 5001
    { shardHandler with requestedItemsHandler := ⟨[(bytesToString [1, 2], 5000)]⟩ }
    1 7 [1, 2]).2.1 (by decide)).1

/-! ### C28 -/

/-- C28: `doEndRoundJob` is not atomic when the commit fails. If the signature-share check and
    `AggregateSigs` succeed but `CommitBlock` returns an error, it returns false with the status
    of every subround unchanged, yet the header carries the aggregate signature. -/
theorem C28_commit_failure_keeps_signature (env : Collaborators) (sr sr1 : subroundEndRound)
    (sig : List Byte) (err : SposError)
    (hcheck : checkSignaturesValidity env sr (GenerateBitmap sr.cns .SrBitmap)
      = .returned (none, sr1))
    (hagg : env.AggregateSigs (GenerateBitmap sr.cns .SrBitmap) = .ok sig)
    (hcommit : env.CommitBlock ⟨sr.cns.Header.nonce, sig⟩ sr.cns.BlockBody = some err) :
    ∃ final, doEndRoundJob env sr = .returned (false, final) ∧
      final.cns.status = sr.cns.status ∧
      Status final.cns .SrEndRound = Status sr.cns .SrEndRound ∧
      final.cns.Header.signature = sig ∧
      final.cns.Header.nonce = sr.cns.Header.nonce := by
  obtain ⟨hcns, extra, hcalls, _⟩ := checkSignaturesValidity_frame env sr sr1 _ _ hcheck
  obtain ⟨cns1, calls1⟩ := sr1
  simp only at hcns hcalls
  subst hcns hcalls
  refine ⟨⟨{ sr.cns with Header := ⟨sr.cns.Header.nonce, sig⟩ },
    sr.calls ++ extra ++ [Call.AggregateSigs (GenerateBitmap sr.cns .SrBitmap)] ++
      [Call.CommitBlock ⟨sr.cns.Header.nonce, sig⟩ sr.cns.BlockBody]⟩, ?_, rfl, rfl, rfl, rfl⟩
  unfold doEndRoundJob
  simp only [hcheck, hagg, hcommit]

/-- C28 on the sample state with a block processor whose `CommitBlock` fails: the header, whose
    signature was empty, carries the aggregate signature afterwards. -/
theorem C28_commit_failure_keeps_signature_witness :
    sampleState.Header.signature = [] ∧
    ∃ final, doEndRoundJob
        { okCollaborators with CommitBlock := fun _ _ => some (.external 1) } ⟨sampleState, []⟩
        = .returned (false, final) ∧
      final.cns.Header.signature = [0xaa, 7] :=
  let ⟨final, hjob, _, _, hsig, _⟩ :=
    C28_commit_failure_keeps_signature
      { okCollaborators with CommitBlock := fun _ _ => some (.external 1) } ⟨sampleState, []⟩
      ⟨sampleState,
        [Call.SignatureShare 0, Call.VerifySignatureShare 0 [0] [1, 2, 3] [7],
         Call.SignatureShare 1, Call.VerifySignatureShare 1 [1] [1, 2, 3] [7],
         Call.SignatureShare 2, Call.VerifySignatureShare 2 [2] [1, 2, 3] [7]]⟩
      [0xaa, 7] (.external 1) rfl rfl rfl
  ⟨rfl, final, hjob, hsig⟩

/-! ### C25 -/

/-- C25 (as stated, refuted): on a handler whose marshalizer fails and whose start-save flag is
    set, `SetUInt64Value(MetricNonce, 5)` meets the three conditions (the previous nonce is 0),
    the value in memory becomes 5, and yet nothing is written: the marshalizer is the only
    collaborator called, `store.Put` is not. With a marshalizer that succeeds and a storer whose
    `Put` fails, `Put` is called and returns an error, so nothing is written either. -/
theorem C25_nothing_written_when_marshal_fails :
    (startSaving sampleHandler).startSaveInStorage = true ∧
    samplePersisterEnv.GetUint64 (.uint64 0) ≤ 5 ∧
    (startSaving sampleHandler).persistentMetrics samplePersisterEnv.MetricNonce
      = some (.uint64 0) ∧
    (SetUInt64Value samplePersisterEnv (startSaving sampleHandler)
      samplePersisterEnv.MetricNonce 5).persistentMetrics samplePersisterEnv.MetricNonce
      = some (.uint64 5) ∧
    (SetUInt64Value samplePersisterEnv (startSaving sampleHandler)
      samplePersisterEnv.MetricNonce 5).calls = [PersistCall.Marshal] ∧
    (SetUInt64Value samplePersisterEnv
      { startSaving sampleHandler with
        marshalizer := fun _ => .ok [1]
        store := fun _ _ => some (.external 2) }
      samplePersisterEnv.MetricNonce 5).calls
      = [PersistCall.Marshal, PersistCall.ToByteSlice 5,
         PersistCall.Put [0, 0, 0, 0, 0, 0, 0, 5] [1] false] := by
  decide

/-- C25 (amended): on a known key, `SetUInt64Value` replaces the value in memory in every case,
    also when the new nonce is lower than the previous one. With `prev` the previously stored
    nonce (a `uint64`, which `GetUint64` reads as itself), `store.Put` is called iff the key is
    `MetricNonce`, the new value is at least `prev`, the start-save flag is set and marshalling
    the metrics map succeeds; the metrics are written iff that `Put` also succeeds. The `Put`
    is the only one, and it stores, under the new nonce converted to bytes, the marshalled map
    of all metrics, which already holds the new nonce. When one of the three conditions fails
    no collaborator is called. -/
theorem C25_nonce_triggers_save (env : PersisterEnv) (psh : PersistentStatusHandler)
    (key : String) (old : MetricValue) (value : Nat)
    (hold : psh.persistentMetrics key = some old) :
    (SetUInt64Value env psh key value).persistentMetrics
        = psh.persistentMetrics.Store key (.uint64 value) ∧
      (SetUInt64Value env psh key value).persistentMetrics key = some (.uint64 value) ∧
      ∀ prev, old = .uint64 prev → env.GetUint64 (.uint64 prev) = prev →
        ((∃ k d ok, PersistCall.Put k d ok ∈ (SetUInt64Value env psh key value).calls.drop
            psh.calls.length) ↔
          (key = env.MetricNonce ∧ prev ≤ value ∧ psh.startSaveInStorage = true ∧
            ∃ bytes, psh.marshalizer (psh.persistentMetrics.Store key (.uint64 value))
              = .ok bytes)) ∧
        ((∃ k d, PersistCall.Put k d true ∈ (SetUInt64Value env psh key value).calls.drop
            psh.calls.length) ↔
          (key = env.MetricNonce ∧ prev ≤ value ∧ psh.startSaveInStorage = true ∧
            ∃ bytes, psh.marshalizer (psh.persistentMetrics.Store key (.uint64 value))
              = .ok bytes ∧ psh.store (psh.uint64ByteSliceConverter value) bytes = none)) ∧
        (∀ k d ok, PersistCall.Put k d ok ∈ (SetUInt64Value env psh key value).calls.drop
            psh.calls.length →
          k = psh.uint64ByteSliceConverter value ∧
          psh.marshalizer (psh.persistentMetrics.Store key (.uint64 value)) = .ok d ∧
          (psh.persistentMetrics.Store key (.uint64 value)) env.MetricNonce
            = some (.uint64 value) ∧
          ok = (psh.store k d).isNone) ∧
        (∀ bytes, key = env.MetricNonce → prev ≤ value → psh.startSaveInStorage = true →
          psh.marshalizer (psh.persistentMetrics.Store key (.uint64 value)) = .ok bytes →
          (SetUInt64Value env psh key value).calls = psh.calls ++
            [PersistCall.Marshal, PersistCall.ToByteSlice value,
             PersistCall.Put (psh.uint64ByteSliceConverter value) bytes
               (psh.store (psh.uint64ByteSliceConverter value) bytes).isNone]) ∧
        (¬ (key = env.MetricNonce ∧ prev ≤ value ∧ psh.startSaveInStorage = true) →
          (SetUInt64Value env psh key value).calls = psh.calls) := by
  have hmem := SetUInt64Value_stored env psh key old value hold
  refine ⟨hmem, by rw [hmem]; exact store_same _ _ _, ?_⟩
  intro prev hprev hget
  subst hprev
  have hskip : ¬ (key = env.MetricNonce ∧ prev ≤ value ∧ psh.startSaveInStorage = true) →
      (SetUInt64Value env psh key value).calls = psh.calls := by
    intro hnot
    simp only [SetUInt64Value, hold, hget]
    split_ifs with h1 h2 h3
    · rfl
    · rfl
    · rfl
    · exfalso
      apply hnot
      refine ⟨not_not.1 h1, Nat.not_lt.1 h2, ?_⟩
      simpa using h3
  have hsave : (key = env.MetricNonce ∧ prev ≤ value ∧ psh.startSaveInStorage = true) →
      SetUInt64Value env psh key value = saveMetricsInDb
        { psh with persistentMetrics := psh.persistentMetrics.Store key (.uint64 value) }
        value := by
    rintro ⟨hk, hge, hflag⟩
    subst hk
    simp only [SetUInt64Value, hold, hget, ne_eq, not_true_eq_false, if_false, hflag,
      Bool.not_true, Bool.false_eq_true, Nat.not_lt.2 hge]
  have hfail : ∀ e, (key = env.MetricNonce ∧ prev ≤ value ∧ psh.startSaveInStorage = true) →
      psh.marshalizer (psh.persistentMetrics.Store key (.uint64 value)) = .error e →
      (SetUInt64Value env psh key value).calls = psh.calls ++ [PersistCall.Marshal] := by
    intro e hcond hm
    rw [hsave hcond]
    simp only [saveMetricsInDb, hm]
  have hput : ∀ bytes, (key = env.MetricNonce ∧ prev ≤ value ∧
        psh.startSaveInStorage = true) →
      psh.marshalizer (psh.persistentMetrics.Store key (.uint64 value)) = .ok bytes →
      (SetUInt64Value env psh key value).calls = psh.calls ++
        [PersistCall.Marshal, PersistCall.ToByteSlice value,
         PersistCall.Put (psh.uint64ByteSliceConverter value) bytes
           (psh.store (psh.uint64ByteSliceConverter value) bytes).isNone] := by
    intro bytes hcond hm
    rw [hsave hcond]
    simp only [saveMetricsInDb, hm]
    cases psh.store (psh.uint64ByteSliceConverter value) bytes <;> simp
  have hshape : ∀ k d ok, PersistCall.Put k d ok ∈ (SetUInt64Value env psh key value).calls.drop
        psh.calls.length →
      (key = env.MetricNonce ∧ prev ≤ value ∧ psh.startSaveInStorage = true) ∧
        k = psh.uint64ByteSliceConverter value ∧
        psh.marshalizer (psh.persistentMetrics.Store key (.uint64 value)) = .ok d ∧
        ok = (psh.store k d).isNone := by
    intro k d ok hin
    by_cases hcond : key = env.MetricNonce ∧ prev ≤ value ∧ psh.startSaveInStorage = true
    · cases hm : psh.marshalizer (psh.persistentMetrics.Store key (.uint64 value)) with
      | error e =>
        rw [hfail e hcond hm, List.drop_left] at hin
        simp at hin
      | ok bytes =>
        rw [hput bytes hcond hm, List.drop_left] at hin
        simp only [List.mem_cons, reduceCtorEq, PersistCall.Put.injEq, List.mem_nil_iff,
          or_false, false_or] at hin
        obtain ⟨h1, h2, h3⟩ := hin
        subst h1 h2
        exact ⟨hcond, rfl, rfl, h3⟩
    · rw [hskip hcond, List.drop_length] at hin
      simp at hin
  refine ⟨⟨?_, ?_⟩, ⟨?_, ?_⟩, ?_, ?_, hskip⟩
  · rintro ⟨k, d, ok, hin⟩
    obtain ⟨⟨h1, h2, h3⟩, _, hm, _⟩ := hshape k d ok hin
    exact ⟨h1, h2, h3, d, hm⟩
  · rintro ⟨h1, h2, h3, bytes, hm⟩
    refine ⟨psh.uint64ByteSliceConverter value, bytes,
      (psh.store (psh.uint64ByteSliceConverter value) bytes).isNone, ?_⟩
    rw [hput bytes ⟨h1, h2, h3⟩ hm, List.drop_left]
    simp
  · rintro ⟨k, d, hin⟩
    obtain ⟨⟨h1, h2, h3⟩, hk, hm, hok⟩ := hshape k d true hin
    refine ⟨h1, h2, h3, d, hm, ?_⟩
    rw [← hk]
    cases hs : psh.store k d with
    | none => rfl
    | some e => rw [hs] at hok; simp at hok
  · rintro ⟨h1, h2, h3, bytes, hm, hs⟩
    refine ⟨psh.uint64ByteSliceConverter value, bytes, ?_⟩
    rw [hput bytes ⟨h1, h2, h3⟩ hm, List.drop_left, hs]
    simp
  · intro k d ok hin
    obtain ⟨⟨h1, _, _⟩, hk, hm, hok⟩ := hshape k d ok hin
    refine ⟨hk, hm, ?_, hok⟩
    rw [h1]
    exact store_same _ _ _
  · intro bytes h1 h2 h3 hm
    exact hput bytes ⟨h1, h2, h3⟩ hm

/-- C25 on the sample handler with a marshalizer that succeeds and the start-save flag set: the
    previous nonce is 0, and the nonce 5 is written by one successful `Put`. -/
theorem C25_nonce_triggers_save_witness :
    (SetUInt64Value samplePersisterEnv
        { startSaving sampleHandler with marshalizer := fun _ => .ok [1] }
        samplePersisterEnv.MetricNonce 5).calls
      = [PersistCall.Marshal, PersistCall.ToByteSlice 5,
         PersistCall.Put [0, 0, 0, 0, 0, 0, 0, 5] [1] true] :=
  ((C25_nonce_triggers_save samplePersisterEnv
    { startSaving sampleHandler with marshalizer := fun _ => .ok [1] }
    samplePersisterEnv.MetricNonce (.uint64 0) 5 (by decide)).2.2 0 rfl rfl).2.2.2.1 [1]
    rfl (by decide) rfl rfl

/-! ### C30 -/

/-- C30: on a known key, `SetInt64Value` and `SetStringValue` replace the stored value by an
    `int64` or a `string`; `AddUint64`, `Increment` and `Decrement` on that key then leave the
    handler as it is, until `SetUInt64Value` stores a `uint64` again, after which `AddUint64`
    adds once more. -/
theorem C30_other_types_freeze_counter (env : PersisterEnv) (psh : PersistentStatusHandler)
    (key : String) (old : MetricValue) (i : Int) (s : String) (u w : Nat)
    (hold : psh.persistentMetrics key = some old) :
    (SetInt64Value psh key i).persistentMetrics key = some (.int64 i) ∧
      (SetStringValue psh key s).persistentMetrics key = some (.string s) ∧
      AddUint64 (SetInt64Value psh key i) key w = SetInt64Value psh key i ∧
      Increment (SetInt64Value psh key i) key = SetInt64Value psh key i ∧
      Decrement (SetInt64Value psh key i) key = SetInt64Value psh key i ∧
      AddUint64 (SetStringValue psh key s) key w = SetStringValue psh key s ∧
      Increment (SetStringValue psh key s) key = SetStringValue psh key s ∧
      Decrement (SetStringValue psh key s) key = SetStringValue psh key s ∧
      (SetUInt64Value env (SetInt64Value psh key i) key u).persistentMetrics key
        = some (.uint64 u) ∧
      (SetUInt64Value env (SetStringValue psh key s) key u).persistentMetrics key
        = some (.uint64 u) ∧
      (AddUint64 (SetUInt64Value env (SetStringValue psh key s) key u) key w).persistentMetrics
        key = some (.uint64 ((u + w) % 2 ^ 64)) := by
  have hint : (SetInt64Value psh key i).persistentMetrics key = some (.int64 i) := by
    simp only [SetInt64Value, hold, store_same]
  have hstr : (SetStringValue psh key s).persistentMetrics key = some (.string s) := by
    simp only [SetStringValue, hold, store_same]
  have hset : ∀ (p : PersistentStatusHandler) (v : MetricValue),
      p.persistentMetrics key = some v →
      (SetUInt64Value env p key u).persistentMetrics key = some (.uint64 u) := by
    intro p v hv
    rw [SetUInt64Value_stored env p key v u hv, store_same]
  refine ⟨hint, hstr, ?_, ?_, ?_, ?_, ?_, ?_, hset _ _ hint, hset _ _ hstr, ?_⟩
  · simp only [AddUint64, hint]
  · simp only [Increment, AddUint64, hint]
  · simp only [Decrement, hint]
  · simp only [AddUint64, hstr]
  · simp only [Increment, AddUint64, hstr]
  · simp only [Decrement, hstr]
  · simp only [AddUint64, hset _ _ hstr, store_same]

/-- C30 on the accepted-blocks counter of the sample handler: after `SetStringValue` the
    counter no longer counts. -/
theorem C30_other_types_freeze_counter_witness :
    Increment (SetStringValue sampleHandler "count_accepted_blocks" "x") "count_accepted_blocks"
      = SetStringValue sampleHandler "count_accepted_blocks" "x" :=
  (C30_other_types_freeze_counter samplePersisterEnv sampleHandler "count_accepted_blocks"
    (.uint64 0) 0 "x" 0 0 (by decide)).2.2.2.2.2.2.1

theorem checkedSize_bounds (cns : ConsensusState) (bitmap : List Byte) (i : Nat)
    (hi : i < checkedSize cns bitmap) :
    i / 8 < bitmap.length ∧ i < cns.consensusGroup.length := by
  unfold checkedSize at hi
  have h1 : i < cns.consensusGroup.length := lt_of_lt_of_le hi (Nat.min_le_left _ _)
  have h2 : i < 8 * bitmap.length := lt_of_lt_of_le hi (Nat.min_le_right _ _)
  exact ⟨by omega, h1⟩

/-- The loop of `checkSignaturesValidity`, started inside the checked range, returns; its error
    is the `shareError` of the lowest index that has one, and the calls it logs concern indices
    whose bit is set. -/
theorem checkSignaturesLoop_result (env : Collaborators) (cns : ConsensusState)
    (bitmap : List Byte) :
    ∀ (remaining i : Nat) (calls : List Call), i + remaining ≤ checkedSize cns bitmap →
      ∃ err extra, checkSignaturesLoop env cns bitmap remaining i calls
          = .returned (err, calls ++ extra) ∧
        ((err = none ∧ ∀ j, i ≤ j → j < i + remaining → shareError env cns bitmap j = none) ∨
         (∃ j e, err = some e ∧ i ≤ j ∧ j < i + remaining ∧
            shareError env cns bitmap j = some e ∧
            ∀ k, i ≤ k → k < j → shareError env cns bitmap k = none)) ∧
        (∀ c ∈ extra, ∃ j, i ≤ j ∧ j < i + remaining ∧ bitSet bitmap j = true ∧
          (c = Call.SignatureShare (j % 2 ^ 16) ∨
            ∃ share, c = Call.VerifySignatureShare (j % 2 ^ 16) share cns.Data bitmap)) := by
  intro remaining
  induction remaining with
  | zero =>
    intro i calls _
    refine ⟨none, [], by simp [checkSignaturesLoop], Or.inl ⟨rfl, ?_⟩, by simp⟩
    intro j h1 h2
    omega
  | succ r ih =>
    intro i calls hle
    obtain ⟨hb8, hgl⟩ := checkedSize_bounds cns bitmap i (by omega)
    have hb : bitmap[i / 8]? = some bitmap[i / 8] := List.getElem?_eq_getElem hb8
    have hg : cns.consensusGroup[i]? = some cns.consensusGroup[i] := List.getElem?_eq_getElem hgl
    have hbit : bitSet bitmap i = indexRequired bitmap[i / 8] i := by
      rw [bitSet, hb, indexRequired_eq_testBit]
    -- what to conclude once the round of index `i` has passed without an error
    have hpass : ∀ pre : List Call, shareError env cns bitmap i = none →
        (∀ c ∈ pre, bitSet bitmap i = true ∧ (c = Call.SignatureShare (i % 2 ^ 16) ∨
          ∃ share, c = Call.VerifySignatureShare (i % 2 ^ 16) share cns.Data bitmap)) →
        checkSignaturesLoop env cns bitmap (r + 1) i calls
          = checkSignaturesLoop env cns bitmap r (i + 1) (calls ++ pre) →
        ∃ err extra, checkSignaturesLoop env cns bitmap (r + 1) i calls
            = .returned (err, calls ++ extra) ∧
          ((err = none ∧ ∀ j, i ≤ j → j < i + (r + 1) → shareError env cns bitmap j = none) ∨
           (∃ j e, err = some e ∧ i ≤ j ∧ j < i + (r + 1) ∧
              shareError env cns bitmap j = some e ∧
              ∀ k, i ≤ k → k < j → shareError env cns bitmap k = none)) ∧
          (∀ c ∈ extra, ∃ j, i ≤ j ∧ j < i + (r + 1) ∧ bitSet bitmap j = true ∧
            (c = Call.SignatureShare (j % 2 ^ 16) ∨
              ∃ share, c = Call.VerifySignatureShare (j % 2 ^ 16) share cns.Data bitmap)) := by
      intro pre hnone hpre hstep
      obtain ⟨err, extra, hres, hcase, hlog⟩ := ih (i + 1) (calls ++ pre) (by omega)
      refine ⟨err, pre ++ extra, ?_, ?_, ?_⟩
      · rw [hstep, hres, List.append_assoc]
      · rcases hcase with ⟨herr, hall⟩ | ⟨j, e, herr, h1, h2, hse, hlow⟩
        · left
          refine ⟨herr, ?_⟩
          intro j h1 h2
          rcases Nat.eq_or_lt_of_le h1 with heq | hlt
          · subst heq; exact hnone
          · exact hall j hlt (by omega)
        · right
          refine ⟨j, e, herr, by omega, by omega, hse, ?_⟩
          intro k h3 h4
          rcases Nat.eq_or_lt_of_le h3 with heq | hlt
          · subst heq; exact hnone
          · exact hlow k hlt h4
      · intro c hc
        rcases List.mem_append.1 hc with h | h
        · obtain ⟨hset, hform⟩ := hpre c h
          exact ⟨i, le_refl _, by omega, hset, hform⟩
        · obtain ⟨j, h1, h2, h3, h4⟩ := hlog c h
          exact ⟨j, by omega, by omega, h3, h4⟩
    -- what to conclude when the round of index `i` returns the error `e`
    have hfail : ∀ (e : SposError) (pre : List Call), shareError env cns bitmap i = some e →
        (∀ c ∈ pre, bitSet bitmap i = true ∧ (c = Call.SignatureShare (i % 2 ^ 16) ∨
          ∃ share, c = Call.VerifySignatureShare (i % 2 ^ 16) share cns.Data bitmap)) →
        checkSignaturesLoop env cns bitmap (r + 1) i calls = .returned (some e, calls ++ pre) →
        ∃ err extra, checkSignaturesLoop env cns bitmap (r + 1) i calls
            = .returned (err, calls ++ extra) ∧
          ((err = none ∧ ∀ j, i ≤ j → j < i + (r + 1) → shareError env cns bitmap j = none) ∨
           (∃ j e, err = some e ∧ i ≤ j ∧ j < i + (r + 1) ∧
              shareError env cns bitmap j = some e ∧
              ∀ k, i ≤ k → k < j → shareError env cns bitmap k = none)) ∧
          (∀ c ∈ extra, ∃ j, i ≤ j ∧ j < i + (r + 1) ∧ bitSet bitmap j = true ∧
            (c = Call.SignatureShare (j % 2 ^ 16) ∨
              ∃ share, c = Call.VerifySignatureShare (j % 2 ^ 16) share cns.Data bitmap)) := by
      intro e pre hse hpre hres
      refine ⟨some e, pre, hres, Or.inr ⟨i, e, rfl, le_refl _, by omega, hse, ?_⟩, ?_⟩
      · intro k h1 h2; omega
      · intro c hc
        obtain ⟨hset, hform⟩ := hpre c hc
        exact ⟨i, le_refl _, by omega, hset, hform⟩
    cases hreq : indexRequired bitmap[i / 8] i with
    | false =>
      rw [hreq] at hbit
      apply hpass [] (by simp [-Nat.reducePow, shareError, hbit]) (by simp)
      rw [checkSignaturesLoop, hb]
      simp [hreq]
    | true =>
      rw [hreq] at hbit
      cases hj : JobDone cns cns.consensusGroup[i] .SrSignature with
      | error e =>
        apply hfail e [] (by simp [-Nat.reducePow, shareError, hbit, hg, hj]) (by simp)
        rw [checkSignaturesLoop, hb]
        simp [hreq, hg, hj]
      | ok done =>
        cases done with
        | false =>
          apply hfail .ErrNilSignature [] (by simp [-Nat.reducePow, shareError, hbit, hg, hj]) (by simp)
          rw [checkSignaturesLoop, hb]
          simp [hreq, hg, hj]
        | true =>
          cases hs : env.SignatureShare (i % 2 ^ 16) with
          | error e =>
            apply hfail e [Call.SignatureShare (i % 2 ^ 16)]
              (by simp [-Nat.reducePow, shareError, hbit, hg, hj, hs])
              (by intro c hc; rw [List.mem_singleton] at hc; exact ⟨hbit, Or.inl hc⟩)
            rw [checkSignaturesLoop, hb]
            simp [-Nat.reducePow, hreq, hg, hj, hs]
          | ok share =>
            have hpre : ∀ c ∈ [Call.SignatureShare (i % 2 ^ 16),
                Call.VerifySignatureShare (i % 2 ^ 16) share cns.Data bitmap],
                bitSet bitmap i = true ∧ (c = Call.SignatureShare (i % 2 ^ 16) ∨
                  ∃ share, c = Call.VerifySignatureShare (i % 2 ^ 16) share cns.Data bitmap) := by
              intro c hc
              simp only [List.mem_cons, List.mem_singleton, List.not_mem_nil, or_false] at hc
              rcases hc with rfl | rfl
              · exact ⟨hbit, Or.inl rfl⟩
              · exact ⟨hbit, Or.inr ⟨share, rfl⟩⟩
            cases hv : env.VerifySignatureShare (i % 2 ^ 16) share cns.Data bitmap with
            | some e =>
              apply hfail e _ (by simp [-Nat.reducePow, shareError, hbit, hg, hj, hs, hv]) hpre
              rw [checkSignaturesLoop, hb]
              simp [-Nat.reducePow, hreq, hg, hj, hs, hv]
            | none =>
              apply hpass _ (by simp [-Nat.reducePow, shareError, hbit, hg, hj, hs, hv]) hpre
              rw [checkSignaturesLoop, hb]
              simp [-Nat.reducePow, hreq, hg, hj, hs, hv]

theorem checkedSize_eq (cns : ConsensusState) (bitmap : List Byte) :
    (if cns.consensusGroup.length > bitmap.length * 8 then bitmap.length * 8
      else cns.consensusGroup.length) = checkedSize cns bitmap := by
  unfold checkedSize
  split_ifs with h
  · rw [Nat.min_eq_right (by omega)]; omega
  · rw [Nat.min_eq_left (by omega)]

theorem checkSignaturesValidity_result (env : Collaborators) (sr : subroundEndRound)
    (bitmap : List Byte) :
    ∃ err extra, checkSignaturesValidity env sr bitmap
        = .returned (err, { sr with calls := sr.calls ++ extra }) ∧
      ((err = none ∧ ∀ j, j < checkedSize sr.cns bitmap →
          shareError env sr.cns bitmap j = none) ∨
       (∃ j e, err = some e ∧ j < checkedSize sr.cns bitmap ∧
          shareError env sr.cns bitmap j = some e ∧
          ∀ k, k < j → shareError env sr.cns bitmap k = none)) ∧
      (∀ c ∈ extra, ∃ j, j < checkedSize sr.cns bitmap ∧ bitSet bitmap j = true ∧
        (c = Call.SignatureShare (j % 2 ^ 16) ∨
          ∃ share, c = Call.VerifySignatureShare (j % 2 ^ 16) share sr.cns.Data bitmap)) := by
  obtain ⟨err, extra, hres, hcase, hlog⟩ := checkSignaturesLoop_result env sr.cns bitmap
    (checkedSize sr.cns bitmap) 0 sr.calls (by omega)
  refine ⟨err, extra, ?_, ?_, ?_⟩
  · unfold checkSignaturesValidity
    dsimp only
    rw [checkedSize_eq, hres]
  · rcases hcase with ⟨herr, hall⟩ | ⟨j, e, herr, _, h2, hse, hlow⟩
    · exact Or.inl ⟨herr, fun j hj => hall j (Nat.zero_le _) (by omega)⟩
    · exact Or.inr ⟨j, e, herr, by omega, hse, fun k hk => hlow k (Nat.zero_le _) hk⟩
  · intro c hc
    obtain ⟨j, _, h2, h3, h4⟩ := hlog c hc
    exact ⟨j, by omega, h3, h4⟩

theorem shareError_none_iff (env : Collaborators) (cns : ConsensusState) (bitmap : List Byte)
    (i : Nat) (hi : i < cns.consensusGroup.length) :
    shareError env cns bitmap i = none ↔ (bitSet bitmap i = true → ShareOk env cns bitmap i) := by
  have hg : cns.consensusGroup[i]? = some cns.consensusGroup[i] := List.getElem?_eq_getElem hi
  unfold shareError ShareOk
  cases hbit : bitSet bitmap i with
  | false => simp
  | true =>
    simp only [if_true, hg, true_implies, Option.some.injEq, exists_and_left, exists_eq_left']
    cases hj : JobDone cns cns.consensusGroup[i] .SrSignature with
    | error e => simp
    | ok done =>
      cases done with
      | false => simp
      | true =>
        cases hs : env.SignatureShare (i % 2 ^ 16) with
        | error e => simp
        | ok share => simp

theorem checkSignaturesLoop_skip (env : Collaborators) (cns : ConsensusState)
    (bitmap : List Byte) :
    ∀ (n remaining i : Nat) (calls : List Call),
      (∀ j, i ≤ j → j < i + n → ∃ b, bitmap[j / 8]? = some b ∧ indexRequired b j = false) →
      checkSignaturesLoop env cns bitmap (n + remaining) i calls
        = checkSignaturesLoop env cns bitmap remaining (i + n) calls := by
  intro n
  induction n with
  | zero => intro remaining i calls _; simp
  | succ n ih =>
    intro remaining i calls hclear
    obtain ⟨b, hb, hreq⟩ := hclear i (le_refl _) (by omega)
    have hstep : n + 1 + remaining = (n + remaining) + 1 := by omega
    rw [hstep, checkSignaturesLoop, hb]
    simp only [hreq, Bool.not_false, if_true]
    rw [ih remaining (i + 1) calls (fun j h1 h2 => hclear j (by omega) (by omega))]
    congr 1
    omega

/-- When the only set bit among the first `n + 1` is that of member `n`, who has signed and
    whose share `uint16(n)` is fetched and verifies, the check makes these two calls and
    returns nil. -/
theorem checkSignaturesValidity_single (env : Collaborators) (sr : subroundEndRound)
    (bitmap : List Byte) (n : Nat) (pubKey : String) (share : List Byte)
    (hsize : (if sr.cns.consensusGroup.length > bitmap.length * 8 then bitmap.length * 8
      else sr.cns.consensusGroup.length) = n + 1)
    (hclear : ∀ j, j < n → ∃ b, bitmap[j / 8]? = some b ∧ indexRequired b j = false)
    (hset : ∃ b, bitmap[n / 8]? = some b ∧ indexRequired b n = true)
    (hmember : sr.cns.consensusGroup[n]? = some pubKey)
    (hjob : JobDone sr.cns pubKey .SrSignature = .ok true)
    (hshare : env.SignatureShare (n % 2 ^ 16) = .ok share)
    (hverify : env.VerifySignatureShare (n % 2 ^ 16) share sr.cns.Data bitmap = none) :
    checkSignaturesValidity env sr bitmap
      = .returned (none, { sr with calls := sr.calls ++
          [Call.SignatureShare (n % 2 ^ 16),
           Call.VerifySignatureShare (n % 2 ^ 16) share sr.cns.Data bitmap] }) := by
  obtain ⟨b, hb, hreq⟩ := hset
  unfold checkSignaturesValidity
  dsimp only
  rw [hsize, checkSignaturesLoop_skip env sr.cns bitmap n 1 0 sr.calls
    (fun j _ h2 => hclear j (by omega))]
  rw [checkSignaturesLoop]
  simp only [Nat.zero_add, hb, hreq, hmember, hjob, hshare, hverify, Bool.not_true,
    Bool.false_eq_true, if_false, checkSignaturesLoop, List.append_assoc, List.singleton_append]

/-! ### C24 -/

/-- C24 (as stated, refuted): in a consensus group of 65537 members with a bitmap whose only
    set bit is that of member 65536, the check returns nil after fetching and verifying share
    `uint16(65536) = 0`: the share of member 0 is queried and verified although the bit of
    member 0 is clear, and `SignatureShare(65536)` is never called. -/
theorem C24_share_of_clear_bit_member_queried :
    wideState.consensusGroup.length = 65537 ∧
    wideBitmap.length = 8193 ∧
    bitSet wideBitmap 0 = false ∧
    bitSet wideBitmap 65536 = true ∧
    checkSignaturesValidity okCollaborators ⟨wideState, []⟩ wideBitmap
      = .returned (none, ⟨wideState,
          [Call.SignatureShare 0, Call.VerifySignatureShare 0 [0] [1, 2, 3] wideBitmap]⟩) := by
  have hlenG : wideState.consensusGroup.length = 65537 := by
    unfold wideState
    dsimp only
    rw [List.length_map, List.length_range]
  have hlenB : wideBitmap.length = 8193 := by
    unfold wideBitmap
    rw [List.length_append, List.length_replicate, List.length_singleton]
  have hlow : ∀ j, j < 65536 → wideBitmap[j / 8]? = some 0 := by
    intro j hj
    have h8 : j / 8 < 8192 := by omega
    unfold wideBitmap
    rw [List.getElem?_append_left (by rw [List.length_replicate]; exact h8),
      List.getElem?_replicate, if_pos h8]
  have hlast : wideBitmap[65536 / 8]? = some 1 := by
    unfold wideBitmap
    rw [List.getElem?_append_right (by rw [List.length_replicate]), List.length_replicate]
    rfl
  have hmember : wideState.consensusGroup[65536]? = some (toString 65536) := by
    unfold wideState
    dsimp only
    rw [List.getElem?_map, List.getElem?_range (by norm_num)]
    rfl
  refine ⟨hlenG, hlenB, ?_, ?_, ?_⟩
  · unfold bitSet
    rw [hlow 0 (by norm_num)]
    rfl
  · unfold bitSet
    rw [hlast]
    decide
  · have hidx : 65536 % 2 ^ 16 = 0 := by norm_num
    have h := checkSignaturesValidity_single okCollaborators ⟨wideState, []⟩ wideBitmap 65536
      (toString 65536) [0]
      (by dsimp only; rw [hlenG, hlenB]; norm_num)
      (fun j hj => ⟨0, hlow j hj, by rw [indexRequired_eq_testBit]; exact Nat.zero_testBit _⟩)
      ⟨1, hlast, by decide⟩ hmember rfl (by rw [hidx]; rfl) rfl
    rw [hidx] at h
    exact h

/-- C24 (amended): `checkSignaturesValidity(bitmap)` returns, and its error is nil iff for every
    index `i < min(len(consensusGroup), 8*len(bitmap))` whose bit is set, `JobDone(group[i],
    SrSignature)` is true without error, `SignatureShare(uint16(i))` succeeds and
    `VerifySignatureShare(uint16(i), share, round data, bitmap)` succeeds, `uint16(i)` being
    `i mod 2^16`; otherwise the error is that of the lowest failing index, which is
    `ErrNilSignature` when that signer has not done SrSignature. Every share fetched or verified
    is share `uint16(i)` of an index `i` whose bit is set; so when at most 65536 indices are
    iterated, no share is fetched or verified for a member whose bit is clear. -/
theorem C24_check_returns_first_share_error (env : Collaborators) (sr : subroundEndRound)
    (bitmap : List Byte) :
    ∃ err extra, checkSignaturesValidity env sr bitmap
        = .returned (err, { sr with calls := sr.calls ++ extra }) ∧
      (err = none ↔ ∀ i, i < checkedSize sr.cns bitmap → bitSet bitmap i = true →
        ShareOk env sr.cns bitmap i) ∧
      (∀ e, err = some e → ∃ i, i < checkedSize sr.cns bitmap ∧ bitSet bitmap i = true ∧
        ¬ ShareOk env sr.cns bitmap i ∧ shareError env sr.cns bitmap i = some e ∧
        ∀ j, j < i → bitSet bitmap j = true → ShareOk env sr.cns bitmap j) ∧
      (∀ i pubKey, bitSet bitmap i = true → sr.cns.consensusGroup[i]? = some pubKey →
        JobDone sr.cns pubKey .SrSignature = .ok false →
        shareError env sr.cns bitmap i = some .ErrNilSignature) ∧
      (∀ c ∈ extra, ∃ i, i < checkedSize sr.cns bitmap ∧ bitSet bitmap i = true ∧
        (c = Call.SignatureShare (i % 2 ^ 16) ∨
          ∃ share, c = Call.VerifySignatureShare (i % 2 ^ 16) share sr.cns.Data bitmap)) ∧
      (checkedSize sr.cns bitmap ≤ 2 ^ 16 →
        ∀ c ∈ extra, ∃ i, i < checkedSize sr.cns bitmap ∧ bitSet bitmap i = true ∧
          (c = Call.SignatureShare i ∨
            ∃ share, c = Call.VerifySignatureShare i share sr.cns.Data bitmap)) := by
  obtain ⟨err, extra, hres, hcase, hlog⟩ := checkSignaturesValidity_result env sr bitmap
  have hiff : ∀ i, i < checkedSize sr.cns bitmap →
      (shareError env sr.cns bitmap i = none ↔
        (bitSet bitmap i = true → ShareOk env sr.cns bitmap i)) :=
    fun i hi => shareError_none_iff env sr.cns bitmap i (checkedSize_bounds _ _ i hi).2
  have hsmall : checkedSize sr.cns bitmap ≤ 2 ^ 16 →
      ∀ c ∈ extra, ∃ i, i < checkedSize sr.cns bitmap ∧ bitSet bitmap i = true ∧
        (c = Call.SignatureShare i ∨
          ∃ share, c = Call.VerifySignatureShare i share sr.cns.Data bitmap) := by
    intro hle c hc
    obtain ⟨i, hi, hbit, hcall⟩ := hlog c hc
    have hmod : i % 2 ^ 16 = i := Nat.mod_eq_of_lt (by omega)
    rw [hmod] at hcall
    exact ⟨i, hi, hbit, hcall⟩
  refine ⟨err, extra, hres, ?_, ?_, ?_, hlog, hsmall⟩
  · rcases hcase with ⟨herr, hall⟩ | ⟨j, e, herr, hj, hse, _⟩
    · subst herr
      exact ⟨fun _ i hi => (hiff i hi).1 (hall i hi), fun _ => rfl⟩
    · subst herr
      constructor
      · intro h; exact absurd h (by simp)
      · intro hall
        have := (hiff j hj).2 (hall j hj)
        rw [hse] at this
        exact absurd this (by simp)
  · intro e he
    rcases hcase with ⟨herr, _⟩ | ⟨j, e2, herr, hj, hse, hlow⟩
    · rw [herr] at he; exact absurd he (by simp)
    · rw [herr] at he
      simp only [Option.some.injEq] at he
      subst he
      have hnot : ¬ (bitSet bitmap j = true → ShareOk env sr.cns bitmap j) := by
        intro h
        have := (hiff j hj).2 h
        rw [hse] at this
        exact absurd this (by simp)
      refine ⟨j, hj, ?_, ?_, hse, ?_⟩
      · by_contra hclear
        exact hnot (fun h => absurd h hclear)
      · intro hok
        exact hnot (fun _ => hok)
      · intro k hk
        exact (hiff k (by omega)).1 (hlow k hk)
  · intro i pubKey hbit hg hj
    simp [shareError, hbit, hg, hj]

/-! ### C27 -/

/-- C27: `checkSignaturesValidity` never indexes out of range: it does not panic, every iterated
    index `i` (those below the size it computes, the minimum of the group size and the number of
    bits of the bitmap) has `i div 8 < len(bitmap)` and `i < len(consensusGroup)`, and with an
    empty bitmap or an empty group it returns nil at once, having called nothing. -/
theorem C27_check_stays_in_range (env : Collaborators) (sr : subroundEndRound)
    (bitmap : List Byte) :
    checkSignaturesValidity env sr bitmap ≠ .panicked ∧
      (if sr.cns.consensusGroup.length > bitmap.length * 8 then bitmap.length * 8
        else sr.cns.consensusGroup.length) = checkedSize sr.cns bitmap ∧
      (∀ i, i < checkedSize sr.cns bitmap →
        i / 8 < bitmap.length ∧ i < sr.cns.consensusGroup.length) ∧
      (bitmap = [] ∨ sr.cns.consensusGroup = [] →
        checkSignaturesValidity env sr bitmap = .returned (none, sr)) := by
  refine ⟨?_, checkedSize_eq sr.cns bitmap, checkedSize_bounds sr.cns bitmap, ?_⟩
  · obtain ⟨err, extra, hres, _, _⟩ := checkSignaturesValidity_result env sr bitmap
    rw [hres]
    exact fun h => by cases h
  · intro hempty
    have hsize : checkedSize sr.cns bitmap = 0 := by
      unfold checkedSize
      rcases hempty with h | h
      · rw [h]; simp
      · rw [h]; simp
    unfold checkSignaturesValidity
    dsimp only
    rw [checkedSize_eq, hsize]
    rfl

/-! ## Theorems: nonce keys -/

theorem digitChar_spec (m : Nat) (hm : m < 10) :
    (Nat.digitChar m).toNat - 48 = m ∧ Nat.digitChar m ≠ '-' := by
  interval_cases m <;> exact ⟨by decide, by decide⟩

theorem toDigitsCore_spec : ∀ (fuel n : Nat) (ds : List Char), n < fuel →
    ∃ l, Nat.toDigitsCore 10 fuel n ds = l ++ ds ∧ '-' ∉ l ∧ decimalValue l = n := by
  intro fuel
  induction fuel with
  | zero => intro n ds h; omega
  | succ f ih =>
    intro n ds hn
    obtain ⟨hval, hne⟩ := digitChar_spec (n % 10) (Nat.mod_lt _ (by omega))
    unfold Nat.toDigitsCore
    dsimp only
    split_ifs with h0
    · refine ⟨[Nat.digitChar (n % 10)], rfl, ?_, ?_⟩
      · simpa using hne.symm
      · simp only [decimalValue, List.foldl_cons, List.foldl_nil, hval]
        omega
    · obtain ⟨l, hl, hdash, hv⟩ := ih (n / 10) (Nat.digitChar (n % 10) :: ds) (by omega)
      refine ⟨l ++ [Nat.digitChar (n % 10)], ?_, ?_, ?_⟩
      · rw [hl]; simp
      · simp only [List.mem_append, List.mem_singleton, not_or]
        exact ⟨hdash, hne.symm⟩
      · unfold decimalValue at hv ⊢
        rw [List.foldl_append, hv]
        simp only [List.foldl_cons, List.foldl_nil, hval]
        omega

theorem repr_data (n : Nat) :
    '-' ∉ (Nat.repr n).data ∧ decimalValue (Nat.repr n).data = n := by
  obtain ⟨l, hl, hdash, hv⟩ := toDigitsCore_spec (n + 1) n [] (by omega)
  have hd : (Nat.repr n).data = l := by
    simp [Nat.repr, Nat.toDigits, hl, List.asString]
  rw [hd]
  exact ⟨hdash, hv⟩

theorem append_dash_inj : ∀ (a b c d : List Char), '-' ∉ a → '-' ∉ c →
    a ++ '-' :: b = c ++ '-' :: d → a = c ∧ b = d := by
  intro a
  induction a with
  | nil =>
    intro b c d _ hc h
    cases c with
    | nil => simpa using h
    | cons x c =>
      simp only [List.nil_append, List.cons_append, List.cons.injEq] at h
      exact absurd (by rw [← h.1]; simp) hc
  | cons x a ih =>
    intro b c d ha hc h
    cases c with
    | nil =>
      simp only [List.nil_append, List.cons_append, List.cons.injEq] at h
      exact absurd (by rw [h.1]; simp) ha
    | cons y c =>
      simp only [List.cons_append, List.cons.injEq] at h
      obtain ⟨hab, hbd⟩ := ih b c d (fun hm => ha (List.mem_cons_of_mem _ hm))
        (fun hm => hc (List.mem_cons_of_mem _ hm)) h.2
      exact ⟨by rw [h.1, hab], hbd⟩

theorem nonceKey_data (s n : Nat) :
    (nonceKey s n).data = (Nat.repr s).data ++ '-' :: (Nat.repr n).data := by
  simp [nonceKey, toString, String.data_append]

theorem nonceKey_inj (s n s2 n2 : Nat) (h : nonceKey s n = nonceKey s2 n2) :
    s = s2 ∧ n = n2 := by
  have hd := congrArg String.data h
  rw [nonceKey_data, nonceKey_data] at hd
  obtain ⟨h1, h2⟩ := append_dash_inj _ _ _ _ (repr_data s).1 (repr_data s2).1 hd
  have e1 := congrArg decimalValue h1
  have e2 := congrArg decimalValue h2
  rw [(repr_data s).2, (repr_data s2).2] at e1
  rw [(repr_data n).2, (repr_data n2).2] at e2
  exact ⟨e1, e2⟩

theorem has_add_other (r : RequestedItems) (key other : String) (now : Int)
    (hne : key ≠ other) : (r.Add key now).1.Has other = r.Has other := by
  unfold RequestedItems.Add
  split_ifs with h
  · rfl
  · simp [RequestedItems.Has, hne]

/-! ### C29 -/

/-- C29: the nonce-request key `decimal(shard) ++ "-" ++ decimal(nonce)` is injective: two
    (shard, nonce) pairs that differ have different keys, so recording the key of one pair
    leaves `Has` unchanged on the key of the other, and a set holding only the first key does
    not hold the second. -/
theorem C29_nonce_key_injective (shard nonce shard2 nonce2 : Nat)
    (hdiff : (shard, nonce) ≠ (shard2, nonce2)) :
    nonceKey shard nonce ≠ nonceKey shard2 nonce2 ∧
      (∀ (r : RequestedItems) (now : Int),
        (r.Add (nonceKey shard nonce) now).1.Has (nonceKey shard2 nonce2)
          = r.Has (nonceKey shard2 nonce2)) ∧
      (∀ now : Int, ((RequestedItems.mk []).Add (nonceKey shard nonce) now).1.Has
          (nonceKey shard2 nonce2) = false) := by
  have hne : nonceKey shard nonce ≠ nonceKey shard2 nonce2 := by
    intro h
    obtain ⟨h1, h2⟩ := nonceKey_inj _ _ _ _ h
    exact hdiff (by rw [h1, h2])
  refine ⟨hne, fun r now => has_add_other r _ _ now hne, fun now => ?_⟩
  rw [has_add_other _ _ _ now hne]
  rfl

/-- C29 on the pairs (1, 23) and (12, 3), whose digits concatenate to the same string. -/
theorem C29_nonce_key_injective_witness :
    nonceKey 1 23 ≠ nonceKey 12 3 ∧
      (∀ (r : RequestedItems) (now : Int),
        (r.Add (nonceKey 1 23) now).1.Has (nonceKey 12 3) = r.Has (nonceKey 12 3)) ∧
      (∀ now : Int, ((RequestedItems.mk []).Add (nonceKey 1 23) now).1.Has
          (nonceKey 12 3) = false) :=
  C29_nonce_key_injective 1 23 12 3 (by decide)

/-! ## Theorems: termination of the group selection -/

theorem checkIndex_returned_free (ihgs : indexHashedGroupSelector) (sel : List Validator) :
    ∀ (fuel p c : Nat), checkIndex ihgs fuel p sel = .returned c → FreeAt ihgs sel c := by
  intro fuel
  induction fuel with
  | zero => intro p c h; simp [checkIndex] at h
  | succ f ih =>
    intro p c h
    unfold checkIndex at h
    cases hv : ihgs.expandedEligibleList[p]? with
    | none => rw [hv] at h; simp at h
    | some v =>
      rw [hv] at h
      simp only at h
      by_cases hin : validatorIsInList v sel = true
      · rw [if_pos hin] at h
        exact ih _ _ h
      · rw [if_neg hin] at h
        simp only [Outcome.returned.injEq] at h
        subst h
        exact ⟨v, hv, by simpa using hin⟩

theorem checkIndex_not_panicked (ihgs : indexHashedGroupSelector) (sel : List Validator) :
    ∀ (fuel p : Nat), p < ihgs.expandedEligibleList.length →
      checkIndex ihgs fuel p sel ≠ .panicked := by
  intro fuel
  induction fuel with
  | zero => intro p _ h; simp [checkIndex] at h
  | succ f ih =>
    intro p hp h
    unfold checkIndex at h
    rw [List.getElem?_eq_getElem hp] at h
    simp only at h
    split_ifs at h
    exact ih _ (Nat.mod_lt _ (by omega)) h

theorem checkIndex_busy (ihgs : indexHashedGroupSelector) (sel : List Validator) :
    ∀ (k p : Nat), p < ihgs.expandedEligibleList.length →
      (∀ j, j < k → ¬ FreeAt ihgs sel ((p + j) % ihgs.expandedEligibleList.length)) →
      checkIndex ihgs k p sel = .outOfFuel := by
  intro k
  induction k with
  | zero => intro p _ _; rfl
  | succ k ih =>
    intro p hp hbusy
    have hn : 0 < ihgs.expandedEligibleList.length := by omega
    have hv : ihgs.expandedEligibleList[p]? = some (ihgs.expandedEligibleList[p]) :=
      List.getElem?_eq_getElem hp
    have h0 := hbusy 0 (by omega)
    rw [Nat.add_zero, Nat.mod_eq_of_lt hp] at h0
    have hin : validatorIsInList (ihgs.expandedEligibleList[p]) sel = true := by
      by_contra hc
      exact h0 ⟨_, hv, by simpa using hc⟩
    have hshift : ∀ j, ((p + 1) % ihgs.expandedEligibleList.length + j)
        % ihgs.expandedEligibleList.length = (p + (j + 1)) % ihgs.expandedEligibleList.length := by
      intro j
      rw [Nat.add_mod, Nat.mod_mod, ← Nat.add_mod]
      congr 1
      omega
    have hrec := ih ((p + 1) % ihgs.expandedEligibleList.length) (Nat.mod_lt _ hn)
      (by intro j hj; rw [hshift]; exact hbusy (j + 1) (by omega))
    simp [checkIndex, hv, hin, hrec]

theorem selectLoop_returned_inv (fuel : Nat) (ihgs : indexHashedGroupSelector)
    (randomness : List Byte) :
    ∀ (remaining startIdx : Nat) (tempList g : List Validator),
      (tempList.map Validator.pubKey).Nodup →
      (∀ v ∈ tempList, v ∈ ihgs.expandedEligibleList) →
      selectLoop fuel ihgs randomness remaining startIdx tempList = .returned g →
      g.length = tempList.length + remaining ∧ (g.map Validator.pubKey).Nodup ∧
        ∀ v ∈ g, v ∈ ihgs.expandedEligibleList := by
  intro remaining
  induction remaining with
  | zero =>
    intro startIdx tempList g hnd hmem h
    simp only [selectLoop, Outcome.returned.injEq] at h
    subst h
    exact ⟨rfl, hnd, hmem⟩
  | succ r ih =>
    intro startIdx tempList g hnd hmem h
    unfold selectLoop at h
    cases hp : computeListIndex ihgs startIdx randomness with
    | panicked => rw [hp] at h; simp at h
    | outOfFuel => rw [hp] at h; simp at h
    | returned p =>
      rw [hp] at h
      simp only at h
      cases hc : checkIndex ihgs fuel p tempList with
      | panicked => rw [hc] at h; simp at h
      | outOfFuel => rw [hc] at h; simp at h
      | returned c =>
        rw [hc] at h
        simp only at h
        obtain ⟨v, hv, hvin⟩ := checkIndex_returned_free ihgs tempList fuel p c hc
        rw [hv] at h
        simp only at h
        have hvkey : v.pubKey ∉ tempList.map Validator.pubKey := by
          intro hm
          rw [← validatorIsInList_iff, hvin] at hm
          exact Bool.false_ne_true hm
        have hnd1 : ((tempList ++ [v]).map Validator.pubKey).Nodup := by
          rw [List.map_append, List.map_singleton]
          exact List.Nodup.append hnd (List.nodup_singleton _) (by simpa using hvkey)
        have hmem1 : ∀ w ∈ tempList ++ [v], w ∈ ihgs.expandedEligibleList := by
          intro w hw
          rcases List.mem_append.1 hw with hw | hw
          · exact hmem w hw
          · rw [List.mem_singleton.1 hw]
            exact List.getElem?_mem hv
        obtain ⟨h1, h2, h3⟩ := ih _ _ _ hnd1 hmem1 h
        rw [List.length_append, List.length_singleton] at h1
        exact ⟨by omega, h2, h3⟩

theorem selectLoop_not_panicked (fuel : Nat) (ihgs : indexHashedGroupSelector)
    (randomness : List Byte) (hn : 0 < ihgs.expandedEligibleList.length) :
    ∀ (remaining startIdx : Nat) (tempList : List Validator),
      selectLoop fuel ihgs randomness remaining startIdx tempList ≠ .panicked := by
  intro remaining
  induction remaining with
  | zero => intro startIdx tempList h; simp [selectLoop] at h
  | succ r ih =>
    intro startIdx tempList h
    have hcli : computeListIndex ihgs startIdx randomness
        = .returned (proposedIndexOf ihgs randomness startIdx) := by
      unfold computeListIndex proposedIndexOf
      simp [Nat.pos_iff_ne_zero.1 hn]
    unfold selectLoop at h
    rw [hcli] at h
    simp only at h
    cases hc : checkIndex ihgs fuel (proposedIndexOf ihgs randomness startIdx) tempList with
    | panicked =>
      exact checkIndex_not_panicked ihgs tempList fuel _ (Nat.mod_lt _ hn) hc
    | outOfFuel => rw [hc] at h; simp at h
    | returned c =>
      rw [hc] at h
      simp only at h
      obtain ⟨v, hv, _⟩ := checkIndex_returned_free ihgs tempList fuel _ c hc
      rw [hv] at h
      exact ih _ _ h

theorem length_le_distinctKeys (E g : List Validator) (hnd : (g.map Validator.pubKey).Nodup)
    (hmem : ∀ v ∈ g, v ∈ E) : g.length ≤ distinctKeys E := by
  have hsub : g.map Validator.pubKey ⊆ (E.map Validator.pubKey).dedup := by
    intro key hkey
    rw [List.mem_map] at hkey
    obtain ⟨v, hv, rfl⟩ := hkey
    rw [List.mem_dedup]
    exact List.mem_map_of_mem _ (hmem v hv)
  have hle := (hnd.subperm hsub).length_le
  rw [List.length_map] at hle
  exact hle

theorem all_selected_of_full (E sel : List Validator) (hnd : (sel.map Validator.pubKey).Nodup)
    (hmem : ∀ v ∈ sel, v ∈ E) (hlen : sel.length = distinctKeys E) :
    ∀ v ∈ E, validatorIsInList v sel = true := by
  have hsub : sel.map Validator.pubKey ⊆ (E.map Validator.pubKey).dedup := by
    intro key hkey
    rw [List.mem_map] at hkey
    obtain ⟨v, hv, rfl⟩ := hkey
    rw [List.mem_dedup]
    exact List.mem_map_of_mem _ (hmem v hv)
  have hperm := (hnd.subperm hsub).perm_of_length_le
    (by rw [List.length_map, hlen]; exact le_refl _)
  intro v hv
  rw [validatorIsInList_iff]
  exact hperm.mem_iff.2 (List.mem_dedup.2 (List.mem_map_of_mem _ hv))

theorem first_free_lt (ihgs : indexHashedGroupSelector) (sel : List Validator) (p k : Nat)
    (hn : 0 < ihgs.expandedEligibleList.length)
    (hfree : FreeAt ihgs sel ((p + k) % ihgs.expandedEligibleList.length))
    (hbusy : ∀ j, j < k → ¬ FreeAt ihgs sel ((p + j) % ihgs.expandedEligibleList.length)) :
    k < ihgs.expandedEligibleList.length := by
  by_contra hge
  have hk : k = (k - ihgs.expandedEligibleList.length) + ihgs.expandedEligibleList.length := by
    omega
  apply hbusy (k - ihgs.expandedEligibleList.length) (by omega)
  have : (p + (k - ihgs.expandedEligibleList.length)) % ihgs.expandedEligibleList.length
      = (p + k) % ihgs.expandedEligibleList.length := by
    conv_rhs => rw [hk, ← Nat.add_assoc, Nat.add_mod_right]
  rw [this]
  exact hfree

theorem busy_le_selected (ihgs : indexHashedGroupSelector) (sel : List Validator) (p k : Nat)
    (hkeys : (ihgs.expandedEligibleList.map Validator.pubKey).Nodup)
    (hk : k ≤ ihgs.expandedEligibleList.length)
    (hbusy : ∀ j, j < k → ¬ FreeAt ihgs sel ((p + j) % ihgs.expandedEligibleList.length)) :
    k ≤ sel.length := by
  rcases Nat.eq_zero_or_pos k with h0 | hpos
  · omega
  have hn : 0 < ihgs.expandedEligibleList.length := by omega
  have hkeyAt : ∀ j, j < k → ∃ v, ihgs.expandedEligibleList[(p + j)
      % ihgs.expandedEligibleList.length]? = some v ∧ v.pubKey ∈ sel.map Validator.pubKey := by
    intro j hj
    refine ⟨_, List.getElem?_eq_getElem (Nat.mod_lt _ hn), ?_⟩
    rw [← validatorIsInList_iff]
    by_contra hc
    exact hbusy j hj ⟨_, List.getElem?_eq_getElem (Nat.mod_lt _ hn), by simpa using hc⟩
  let f : Nat → List Byte := fun j =>
    ((ihgs.expandedEligibleList.map Validator.pubKey)[(p + j)
      % ihgs.expandedEligibleList.length]?).getD []
  have hf : ∀ j, j < k → ∃ v, ihgs.expandedEligibleList[(p + j)
      % ihgs.expandedEligibleList.length]? = some v ∧ f j = v.pubKey ∧
      v.pubKey ∈ sel.map Validator.pubKey := by
    intro j hj
    obtain ⟨v, hv, hin⟩ := hkeyAt j hj
    refine ⟨v, hv, ?_, hin⟩
    simp only [f, List.getElem?_map, hv, Option.map_some', Option.getD_some]
  have hinj : ∀ x ∈ List.range k, ∀ y ∈ List.range k, f x = f y → x = y := by
    intro x hx y hy hxy
    rw [List.mem_range] at hx hy
    have hmx : (p + x) % ihgs.expandedEligibleList.length
        < (ihgs.expandedEligibleList.map Validator.pubKey).length := by
      rw [List.length_map]; exact Nat.mod_lt _ hn
    have hmy : (p + y) % ihgs.expandedEligibleList.length
        < (ihgs.expandedEligibleList.map Validator.pubKey).length := by
      rw [List.length_map]; exact Nat.mod_lt _ hn
    simp only [f, List.getElem?_eq_getElem hmx, List.getElem?_eq_getElem hmy,
      Option.getD_some] at hxy
    have hidx := (List.Nodup.getElem_inj_iff hkeys).1 hxy
    have hmod : x % ihgs.expandedEligibleList.length = y % ihgs.expandedEligibleList.length :=
      Nat.ModEq.add_left_cancel' p hidx
    rwa [Nat.mod_eq_of_lt (by omega), Nat.mod_eq_of_lt (by omega)] at hmod
  have hnd : ((List.range k).map f).Nodup := List.Nodup.map_on hinj (List.nodup_range k)
  have hsub : (List.range k).map f ⊆ sel.map Validator.pubKey := by
    intro key hkey
    rw [List.mem_map] at hkey
    obtain ⟨j, hj, rfl⟩ := hkey
    obtain ⟨v, _, hfv, hin⟩ := hf j (List.mem_range.1 hj)
    rw [hfv]
    exact hin
  have hle := (hnd.subperm hsub).length_le
  rw [List.length_map, List.length_map, List.length_range] at hle
  exact hle

/-! ### C26 -/

/-- C26 (as stated, refuted): the eligible list `[valA, valA2, valA3, valB]` holds two distinct
    keys and the consensus size is 2, so the call on the empty randomness returns the group
    `[valA, valB]`; yet the probe for the second position, started at index 1 with one validator
    selected, is still running after two rounds and returns index 3 in its third round: it
    advances twice, more than the `len(selected) = 1` times of the claim. -/
theorem C26_probe_advances_past_selected_count :
    repeatedKeySelector.consensusSize ≤ (repeatedKeySelector.eligibleList.length : Int) ∧
    repeatedKeySelector.consensusSize ≤ (distinctKeys repeatedKeySelector.eligibleList : Int) ∧
    observed (ComputeValidatorsGroup 4 repeatedKeySelector (some []))
      = .returned (some [valA, valB], none) ∧
    computeListIndex { repeatedKeySelector with
        expandedEligibleList := repeatedKeySelector.eligibleList } 1 [] = .returned 1 ∧
    checkIndex { repeatedKeySelector with
        expandedEligibleList := repeatedKeySelector.eligibleList } 2 1 [valA] = .outOfFuel ∧
    checkIndex { repeatedKeySelector with
        expandedEligibleList := repeatedKeySelector.eligibleList } 3 1 [valA] = .returned 3 := by
  refine ⟨by decide, by decide, ?_, by decide, by decide, by decide⟩
  decide

/-- C26 (amended): for an eligible list with `len(eligible) >= consensusSize` and a non-nil
    randomness, `ComputeValidatorsGroup` returns (for some number of probing rounds) iff the
    eligible list holds at least `consensusSize` distinct public keys. In that case it returns
    the same group for every fuel of at least `len(eligible)` rounds, and the probe for position
    `i` advances `k` times (it is still running after `k` rounds and returns in round `k + 1`)
    with `k < len(eligible)`, and `k <= i = len(selected)` when the eligible keys are pairwise
    distinct. With fewer distinct keys the call never returns: once all `d` distinct keys are
    selected, the probe for position `d` is still running whatever the fuel. -/
theorem C26_returns_iff_enough_distinct_keys (ihgs : indexHashedGroupSelector) (R : List Byte)
    (hlen : ihgs.consensusSize ≤ (ihgs.eligibleList.length : Int)) :
    ((∃ fuel r, ComputeValidatorsGroup fuel ihgs (some R) = .returned r) ↔
        ihgs.consensusSize ≤ (distinctKeys ihgs.eligibleList : Int)) ∧
    (ihgs.consensusSize ≤ (distinctKeys ihgs.eligibleList : Int) →
      ∃ g, (∀ fuel, ihgs.eligibleList.length ≤ fuel →
          ComputeValidatorsGroup fuel ihgs (some R)
            = .returned ⟨{ ihgs with expandedEligibleList := ihgs.eligibleList }, some g, none⟩) ∧
        ∀ i, i < g.length → ∃ k c, k < ihgs.eligibleList.length ∧
          ((ihgs.eligibleList.map Validator.pubKey).Nodup → k ≤ i) ∧
          checkIndex { ihgs with expandedEligibleList := ihgs.eligibleList } k
            (proposedIndexOf { ihgs with expandedEligibleList := ihgs.eligibleList } R i)
            (g.take i) = .outOfFuel ∧
          checkIndex { ihgs with expandedEligibleList := ihgs.eligibleList } (k + 1)
            (proposedIndexOf { ihgs with expandedEligibleList := ihgs.eligibleList } R i)
            (g.take i) = .returned c ∧
          ihgs.eligibleList[c]? = g[i]?) ∧
    (¬ ihgs.consensusSize ≤ (distinctKeys ihgs.eligibleList : Int) →
      (∀ fuel, ComputeValidatorsGroup fuel ihgs (some R) = .outOfFuel) ∧
      ∃ sel, sel.length = distinctKeys ihgs.eligibleList ∧
        (∀ fuel, ihgs.eligibleList.length ≤ fuel →
          selectLoop fuel { ihgs with expandedEligibleList := ihgs.eligibleList } R
            (distinctKeys ihgs.eligibleList) 0 [] = .returned sel) ∧
        ∀ fuel, checkIndex { ihgs with expandedEligibleList := ihgs.eligibleList } fuel
          (proposedIndexOf { ihgs with expandedEligibleList := ihgs.eligibleList } R sel.length)
          sel = .outOfFuel) := by
  obtain ⟨S1, hS1⟩ : ∃ S1 : indexHashedGroupSelector,
      S1 = { ihgs with expandedEligibleList := ihgs.eligibleList } := ⟨_, rfl⟩
  have hE : S1.expandedEligibleList = ihgs.eligibleList := by rw [hS1]
  have hcall : ∀ fuel, ComputeValidatorsGroup fuel ihgs (some R)
      = match selectLoop fuel S1 R ihgs.consensusSize.toNat 0 [] with
        | .panicked => .panicked
        | .outOfFuel => .outOfFuel
        | .returned tempList => .returned ⟨S1, some tempList, none⟩ := by
    intro fuel
    unfold ComputeValidatorsGroup
    rw [if_neg (by omega), hS1]
    rfl
  rw [← hS1]
  have hA : ihgs.consensusSize ≤ (distinctKeys ihgs.eligibleList : Int) →
      ∃ g, (∀ fuel, ihgs.eligibleList.length ≤ fuel →
          ComputeValidatorsGroup fuel ihgs (some R) = .returned ⟨S1, some g, none⟩) ∧
        ∀ i, i < g.length → ∃ k c, k < ihgs.eligibleList.length ∧
          ((ihgs.eligibleList.map Validator.pubKey).Nodup → k ≤ i) ∧
          checkIndex S1 k (proposedIndexOf S1 R i) (g.take i) = .outOfFuel ∧
          checkIndex S1 (k + 1) (proposedIndexOf S1 R i) (g.take i) = .returned c ∧
          ihgs.eligibleList[c]? = g[i]? := by
    intro hD
    obtain ⟨g, hg, hglen, _, _, hgspec⟩ :=
      selectLoop_spec S1.expandedEligibleList.length S1 R (le_refl _)
        ihgs.consensusSize.toNat 0 [] rfl
        (by rw [hE]; simp only [List.length_nil]; omega) (by simp)
    refine ⟨g, ?_, ?_⟩
    · intro fuel hfuel
      rw [hcall, selectLoop_mono _ fuel (by rw [hE]; exact hfuel) S1 R _ _ _ _ hg]
    · intro i hi
      obtain ⟨k, hkfree, hkmin, hkv⟩ := hgspec i (Nat.zero_le _) hi
      have hn : 0 < S1.expandedEligibleList.length := by
        rw [hE]
        apply length_pos_of_distinctKeys_pos
        simp only [List.length_nil] at hglen
        omega
      have hp : proposedIndexOf S1 R i < S1.expandedEligibleList.length := Nat.mod_lt _ hn
      have hklt := first_free_lt S1 (g.take i) _ k hn hkfree hkmin
      refine ⟨k, _, by rw [← hE]; exact hklt, ?_, checkIndex_busy S1 _ k _ hp hkmin,
        checkIndex_returns S1 _ k (k + 1) _ hp (Nat.lt_succ_self _) hkfree hkmin,
        by rw [← hE]; exact hkv⟩
      intro hkeys
      have := busy_le_selected S1 (g.take i) _ k (by rw [hE]; exact hkeys) (le_of_lt hklt) hkmin
      rw [List.length_take] at this
      omega
  have hB : ¬ ihgs.consensusSize ≤ (distinctKeys ihgs.eligibleList : Int) →
      ∀ fuel, ComputeValidatorsGroup fuel ihgs (some R) = .outOfFuel := by
    intro hD fuel
    have hn : 0 < S1.expandedEligibleList.length := by rw [hE]; omega
    rw [hcall]
    cases hl : selectLoop fuel S1 R ihgs.consensusSize.toNat 0 [] with
    | panicked => exact absurd hl (selectLoop_not_panicked fuel S1 R hn _ _ _)
    | outOfFuel => rfl
    | returned g =>
      obtain ⟨h1, h2, h3⟩ := selectLoop_returned_inv fuel S1 R _ _ _ g (by simp)
        (by intro v hv; cases hv) hl
      have := length_le_distinctKeys _ g h2 h3
      rw [hE] at this
      simp only [List.length_nil] at h1
      omega
  refine ⟨⟨?_, ?_⟩, hA, fun hD => ⟨hB hD, ?_⟩⟩
  · rintro ⟨fuel, r, hr⟩
    by_contra hD
    rw [hB hD fuel] at hr
    cases hr
  · intro hD
    obtain ⟨g, hg, _⟩ := hA hD
    exact ⟨_, _, hg _ (le_refl _)⟩
  · have hn : 0 < S1.expandedEligibleList.length := by rw [hE]; omega
    obtain ⟨sel, hsel, _, _, _, _⟩ :=
      selectLoop_spec S1.expandedEligibleList.length S1 R (le_refl _)
        (distinctKeys ihgs.eligibleList) 0 [] rfl
        (by rw [hE]; simp) (by simp)
    obtain ⟨h1, h2, h3⟩ := selectLoop_returned_inv _ S1 R _ _ _ sel (by simp)
      (by intro v hv; cases hv) hsel
    simp only [List.length_nil, Nat.zero_add] at h1
    refine ⟨sel, h1, ?_, ?_⟩
    · intro fuel hfuel
      exact selectLoop_mono _ fuel (by rw [hE]; exact hfuel) S1 R _ _ _ _ hsel
    · intro fuel
      exact checkIndex_diverges S1 sel
        (all_selected_of_full _ sel h2 h3 (by rw [hE]; exact h1)) fuel _ (Nat.mod_lt _ hn)

/-- C26 on the sample selector: three distinct keys, groups of two, randomness `[7]`. -/
theorem C26_returns_iff_enough_distinct_keys_witness :
    ((∃ fuel r, ComputeValidatorsGroup fuel sampleSelector (some [7]) = .returned r) ↔
        sampleSelector.consensusSize ≤ (distinctKeys sampleSelector.eligibleList : Int)) ∧
    (∃ fuel r, ComputeValidatorsGroup fuel sampleSelector (some [7]) = .returned r) :=
  ⟨(C26_returns_iff_enough_distinct_keys sampleSelector [7] (by decide)).1,
    (C26_returns_iff_enough_distinct_keys sampleSelector [7] (by decide)).1.2 (by decide)⟩

end ElrondGo
